import Mathlib

/-!
# Edge adjacency of a triangle mesh (`vcg/complex/algorithms/mesh_to_matrix.h`)

A shallow embedding of `MeshToMatrix::GetTriEdgeAdjacency(V, F, EV, FE, EF)` and
verified statements about it.

Modelling conventions.

* `Eigen::MatrixXi` output matrices are lists of rows; an element access outside
  the allocated rows or columns, and an access `ETT[i]` outside the vector, is a
  `Failure.outOfBounds` result (the source has undefined behaviour there).
* The face array `F` is a list of vertex-ID triples (an `F x 3` integer matrix).
* `unsigned` counters wrap modulo `2 ^ 32`, `std::size_t` arithmetic wraps modulo
  `2 ^ 64`.  The `int` counters `f` and `En` are natural numbers; the statements
  that depend on them assume `InRange F`, under which they stay below `2 ^ 31`.
* Loops carry a fuel argument; a loop that is still running when the fuel is gone
  yields `Failure.diverges`.  The entry point supplies one more unit of fuel than
  the number of elements the loop walks over.
-/

namespace MeshToMatrix

/-! ## Data model -/

/-- How a run of the builder can fail to return. -/
inductive Failure where
  /-- An element access outside a vector or a matrix. -/
  | outOfBounds
  /-- A loop that does not finish. -/
  | diverges
  /-- The "not edge-manifold" failure named by the specification.  No path of the
  source raises it: the only manifoldness check, on line 31, is commented out. -/
  | notEdgeManifold
  /-- A failed `assert`. -/
  | assertionFailed
  deriving DecidableEq

/-- Dense integer matrix `Eigen::MatrixXi`, as the list of its rows. -/
abbrev MatrixXi := List (List Int)

/-- Dense matrix `Eigen::MatrixXd` over an unspecified scalar type. -/
abbrev MatrixXd (R : Type) := List (List R)

/-- One row of the face array: the three vertex IDs of a triangle in winding order. -/
abbrev Face := Int × Int × Int

/-- The face array `F`. -/
abbrev FaceArray := List Face

/-- The width of `unsigned`. -/
def UINT_MOD : Nat := 2 ^ 32

/-- The width of `std::size_t`. -/
def SIZE_MOD : Nat := 2 ^ 64

/-- `Eigen::MatrixXi::Constant(rows, cols, v)`. -/
def Constant (rows cols : Nat) (v : Int) : MatrixXi :=
  List.replicate rows (List.replicate cols v)

/-- Read `M(r, c)`. -/
def coeff (M : MatrixXi) (r c : Nat) : Except Failure Int :=
  match M[r]? with
  | some row =>
    match row[c]? with
    | some v => .ok v
    | none => .error .outOfBounds
  | none => .error .outOfBounds

/-- Write `M(r, c) = v`. -/
def assign (M : MatrixXi) (r c : Nat) (v : Int) : Except Failure MatrixXi :=
  match M[r]? with
  | some row =>
    if c < row.length then .ok (M.set r (row.set c v)) else .error .outOfBounds
  | none => .error .outOfBounds

/-- Column `j` of a face row, for `j` in `0, 1, 2`. -/
def corner (t : Face) : Nat → Int
  | 0 => t.1
  | 1 => t.2.1
  | _ => t.2.2

/-- Read `F(f, j)` with `0 <= f < F.rows()` known from the loop guard. -/
def faceCoeff (F : FaceArray) (f j : Nat) : Int :=
  corner (F.getD f (0, 0, 0)) j

/-- Read `F(fid, j)` where `fid` comes out of a matrix and may be any `int`. -/
def faceCoeffAt (F : FaceArray) (fid : Int) (j : Nat) : Except Failure Int :=
  if fid < 0 then .error .outOfBounds
  else
    match F[fid.toNat]? with
    | some t => if j < 3 then .ok (corner t j) else .error .outOfBounds
    | none => .error .outOfBounds

/-- One incidence record `r` of `ETT`: `r[0] = v1`, `r[1] = v2`, `r[2] = f`,
`r[3] = i`.  The last two are loop counters and never negative. -/
structure EdgeRec where
  v1 : Int
  v2 : Int
  f : Nat
  i : Nat
  deriving DecidableEq

/-- The three outputs of the builder. -/
structure Adjacency where
  EV : MatrixXi
  FE : MatrixXi
  EF : MatrixXi
  deriving DecidableEq

/-! ## Lines 32-45: the incidence records and their sort -/

/-- Lines 37-43: the record pushed for face `f` and slot `i`. -/
def edgeRecord (F : FaceArray) (f i : Nat) : EdgeRec :=
  let v1 := faceCoeff F f i
  let v2 := faceCoeff F f ((i + 1) % 3)
  if v1 > v2 then ⟨v2, v1, f, i⟩ else ⟨v1, v2, f, i⟩

/-- Lines 32-44: the two nested loops that fill `ETT`. -/
def buildETT (F : FaceArray) : List EdgeRec :=
  (List.range F.length).flatMap fun f => (List.range 3).map fun i => edgeRecord F f i

/-- The order `operator<=` of `std::vector<int>` on records: lexicographic. -/
def recLe (a b : EdgeRec) : Prop :=
  a.v1 < b.v1 ∨ (a.v1 = b.v1 ∧ (a.v2 < b.v2 ∨ (a.v2 = b.v2 ∧
    (a.f < b.f ∨ (a.f = b.f ∧ a.i ≤ b.i)))))

instance recLe_decidable : DecidableRel recLe := fun a b => by
  unfold recLe
  exact inferInstance

/-- Line 45: `std::sort(ETT.begin(), ETT.end())`.  The records are pairwise
distinct, so the sorted sequence does not depend on the sorting algorithm. -/
def sortETT (l : List EdgeRec) : List EdgeRec :=
  l.insertionSort recLe

/-- The test `(a[0] == b[0]) && (a[1] == b[1])` of lines 50 and 61. -/
def samePair (a b : EdgeRec) : Bool :=
  a.v1 == b.v1 && a.v2 == b.v2

/-! ## Lines 47-51: the counting pre-pass -/

/-- The loop of lines 49-51, from counter value `i` with `En` edges counted. -/
def countLoop (ETT : List EdgeRec) : Nat → Nat → Nat → Except Failure Nat
  | 0, _, _ => .error .diverges
  | fuel + 1, i, En =>
    if i < (ETT.length + SIZE_MOD - 1) % SIZE_MOD then
      match ETT[i]?, ETT[(i + 1) % UINT_MOD]? with
      | some a, some b =>
        countLoop ETT fuel ((i + 1) % UINT_MOD) (if samePair a b then En else En + 1)
      | _, _ => .error .outOfBounds
    else .ok En

/-! ## Lines 53-84: allocation and the merge pass -/

/-- The variables the merge pass updates. -/
structure MergeState where
  En : Nat
  EV : MatrixXi
  FE : MatrixXi
  EF : MatrixXi
  deriving DecidableEq

/-- Lines 65-69 followed by `++En` of line 83. -/
def borderEdge (r1 : EdgeRec) (s : MergeState) : Except Failure MergeState :=
  match assign s.EV s.En 0 r1.v1 with
  | .error e => .error e
  | .ok EV0 =>
    match assign EV0 s.En 1 r1.v2 with
    | .error e => .error e
    | .ok EV1 =>
      match assign s.EF s.En 0 r1.f with
      | .error e => .error e
      | .ok EF0 =>
        match assign s.FE r1.f r1.i s.En with
        | .error e => .error e
        | .ok FE0 => .ok ⟨s.En + 1, EV1, FE0, EF0⟩

/-- Lines 73-80 followed by `++En` of line 83. -/
def sharedEdge (r1 r2 : EdgeRec) (s : MergeState) : Except Failure MergeState :=
  match assign s.EV s.En 0 r1.v1 with
  | .error e => .error e
  | .ok EV0 =>
    match assign EV0 s.En 1 r1.v2 with
    | .error e => .error e
    | .ok EV1 =>
      match assign s.EF s.En 0 r1.f with
      | .error e => .error e
      | .ok EF0 =>
        match assign EF0 s.En 1 r2.f with
        | .error e => .error e
        | .ok EF1 =>
          match assign s.FE r1.f r1.i s.En with
          | .error e => .error e
          | .ok FE0 =>
            match assign FE0 r2.f r2.i s.En with
            | .error e => .error e
            | .ok FE1 => .ok ⟨s.En + 1, EV1, FE1, EF1⟩

/-- The loop of lines 58-84, from counter value `i`. -/
def mergeLoop (ETT : List EdgeRec) : Nat → Nat → MergeState → Except Failure MergeState
  | 0, _, _ => .error .diverges
  | fuel + 1, i, s =>
    if i < ETT.length then
      if i = (ETT.length + SIZE_MOD - 1) % SIZE_MOD then
        match ETT[i]? with
        | some r1 =>
          match borderEdge r1 s with
          | .error e => .error e
          | .ok s1 => mergeLoop ETT fuel ((i + 1) % UINT_MOD) s1
        | none => .error .outOfBounds
      else
        match ETT[i]?, ETT[(i + 1) % UINT_MOD]? with
        | some r1, some r2 =>
          if samePair r1 r2 then
            match sharedEdge r1 r2 s with
            | .error e => .error e
            | .ok s1 => mergeLoop ETT fuel (((i + 1) % UINT_MOD + 1) % UINT_MOD) s1
          else
            match borderEdge r1 s with
            | .error e => .error e
            | .ok s1 => mergeLoop ETT fuel ((i + 1) % UINT_MOD) s1
        | _, _ => .error .outOfBounds
    else .ok s

/-! ## Lines 86-106: the orientation fix-up pass -/

/-- The condition of line 96 for slot `j`, with its short-circuit `&&`. -/
def slotMatches (F : FaceArray) (EV : MatrixXi) (i : Nat) (fid : Int) (j : Nat) :
    Except Failure Bool :=
  match faceCoeffAt F fid j with
  | .error e => .error e
  | .ok a =>
    match coeff EV i 0 with
    | .error e => .error e
    | .ok e0 =>
      if a = e0 then
        match faceCoeffAt F fid ((j + 1) % 3) with
        | .error e => .error e
        | .ok b =>
          match coeff EV i 1 with
          | .error e => .error e
          | .ok e1 => .ok (b == e1)
      else .ok false

/-- The inner loop of lines 94-98 from slot `j`; the result is the final `flip`. -/
def searchEdge (F : FaceArray) (EV : MatrixXi) (i : Nat) (fid : Int) :
    Nat → Nat → Bool → Except Failure Bool
  | 0, _, flip => .ok flip
  | n + 1, j, flip =>
    match slotMatches F EV i fid j with
    | .error e => .error e
    | .ok m => searchEdge F EV i fid n (j + 1) (if m then false else flip)

/-- Lines 100-105: the swap of the two columns of row `i`. -/
def swapRow (EF : MatrixXi) (i : Nat) : Except Failure MatrixXi :=
  match coeff EF i 0 with
  | .error e => .error e
  | .ok tmp =>
    match coeff EF i 1 with
    | .error e => .error e
    | .ok x =>
      match assign EF i 0 x with
      | .error e => .error e
      | .ok EF0 => assign EF0 i 1 tmp

/-- The loop of lines 89-106, from counter value `i`. -/
def fixLoop (F : FaceArray) (EV : MatrixXi) : Nat → Nat → MatrixXi → Except Failure MatrixXi
  | 0, _, _ => .error .diverges
  | fuel + 1, i, EF =>
    if i < EF.length then
      match coeff EF i 0 with
      | .error e => .error e
      | .ok fid =>
        match searchEdge F EV i fid 3 0 true with
        | .error e => .error e
        | .ok flip =>
          if flip then
            match swapRow EF i with
            | .error e => .error e
            | .ok EF1 => fixLoop F EV fuel ((i + 1) % UINT_MOD) EF1
          else fixLoop F EV fuel ((i + 1) % UINT_MOD) EF
    else .ok EF

/-! ## The builder -/

/-- Lines 47-51: the count the output matrices are allocated with. -/
def countPass (ETT : List EdgeRec) : Except Failure Nat :=
  countLoop ETT (ETT.length + 1) 0 1

/-- Lines 53-84: allocation with `En` rows, then the merge pass. -/
def mergePass (F : FaceArray) (ETT : List EdgeRec) (En : Nat) : Except Failure MergeState :=
  mergeLoop ETT (ETT.length + 1) 0
    ⟨0, Constant En 2 (-1), Constant F.length 3 (-1), Constant En 2 (-1)⟩

/-- Lines 89-106. -/
def fixupPass (F : FaceArray) (EV EF : MatrixXi) : Except Failure MatrixXi :=
  fixLoop F EV (EF.length + 1) 0 EF

/-- Lines 47-106: the three passes over the sorted records `ETT`. -/
def passes (F : FaceArray) (ETT : List EdgeRec) : Except Failure Adjacency := do
  let En ← countPass ETT
  let s ← mergePass F ETT En
  let EF ← fixupPass F s.EV s.EF
  pure ⟨s.EV, s.FE, EF⟩

/-- `MeshToMatrix::GetTriEdgeAdjacency(V, F, EV, FE, EF)`, lines 25-107. -/
def GetTriEdgeAdjacency {R : Type} (_V : MatrixXd R) (F : FaceArray) :
    Except Failure Adjacency :=
  passes F (sortETT (buildETT F))

/-! ## Vocabulary of the statements -/

/-- All counters of the source stay in the range of `int`: `3 * F.rows() < 2 ^ 31`. -/
def InRange (F : FaceArray) : Prop := 3 * F.length < 2 ^ 31

instance InRange_decidable (F : FaceArray) : Decidable (InRange F) := by
  unfold InRange
  exact inferInstance

/-- The face slots `(f, k)` of a face array, `k` in `0, 1, 2`. -/
def slots (F : FaceArray) : List (Nat × Nat) :=
  (List.range F.length).flatMap fun f => (List.range 3).map fun i => (f, i)

/-- The directed edge of a slot: `(F(f, k), F(f, (k + 1) % 3))`. -/
def ends (F : FaceArray) (s : Nat × Nat) : Int × Int :=
  (faceCoeff F s.1 s.2, faceCoeff F s.1 ((s.2 + 1) % 3))

/-- Two vertex pairs are the same undirected pair. -/
def sameEdge (p q : Int × Int) : Bool :=
  (p.1 == q.1 && p.2 == q.2) || (p.1 == q.2 && p.2 == q.1)

/-- The number of face slots that use the undirected pair `p`. -/
def useCount (F : FaceArray) (p : Int × Int) : Nat :=
  (slots F).countP fun s => sameEdge (ends F s) p

/-- Edge-manifold: every undirected pair that occurs is used by at most two slots. -/
def EdgeManifold (F : FaceArray) : Prop :=
  ∀ s ∈ slots F, useCount F (ends F s) ≤ 2

instance EdgeManifold_decidable (F : FaceArray) : Decidable (EdgeManifold F) := by
  unfold EdgeManifold
  exact inferInstance

/-- Closed edge-manifold: every undirected pair that occurs is used by exactly two
slots. -/
def ClosedManifold (F : FaceArray) : Prop :=
  ∀ s ∈ slots F, useCount F (ends F s) = 2

instance ClosedManifold_decidable (F : FaceArray) : Decidable (ClosedManifold F) := by
  unfold ClosedManifold
  exact inferInstance

/-- The undirected pair of a directed edge: smaller vertex ID first. -/
def undirected (p : Int × Int) : Int × Int := (min p.1 p.2, max p.1 p.2)

/-- The number of distinct undirected pairs used by the face slots. -/
def distinctPairs (F : FaceArray) : Nat :=
  ((slots F).map fun s => undirected (ends F s)).dedup.length

/-- Face `t` has a slot that runs from `a` to `b` in this order. -/
def traverses (t : Face) (a b : Int) : Bool :=
  (corner t 0 == a && corner t 1 == b) || (corner t 1 == a && corner t 2 == b) ||
    (corner t 2 == a && corner t 0 == b)

/-! ## The merge pass as a walk over the sorted list -/

/-- The vertex pair of a record. -/
def key (r : EdgeRec) : Int × Int := (r.v1, r.v2)

/-- The groups the merge pass forms: a record alone, or two neighbours with the same
pair. -/
def plan : List EdgeRec → List (EdgeRec × Option EdgeRec)
  | [] => []
  | [r] => [(r, none)]
  | r1 :: r2 :: rest =>
    if samePair r1 r2 then (r1, some r2) :: plan rest
    else (r1, none) :: plan (r2 :: rest)

/-- The body of the merge loop on one group. -/
def stepPlan (s : MergeState) (e : EdgeRec × Option EdgeRec) : Except Failure MergeState :=
  match e.2 with
  | none => borderEdge e.1 s
  | some r2 => sharedEdge e.1 r2 s

/-- The merge loop as a fold over the groups. -/
def runPlan : MergeState → List (EdgeRec × Option EdgeRec) → Except Failure MergeState
  | s, [] => .ok s
  | s, e :: es =>
    match stepPlan s e with
    | .error x => .error x
    | .ok s1 => runPlan s1 es

/-- The number of neighbours in the list whose pairs differ. -/
def runBreaks : List EdgeRec → Nat
  | [] => 0
  | [_] => 0
  | a :: b :: rest => (if samePair a b then 0 else 1) + runBreaks (b :: rest)

/-- The records of a group. -/
def recsOf (e : EdgeRec × Option EdgeRec) : List EdgeRec :=
  match e.2 with
  | none => [e.1]
  | some r2 => [e.1, r2]

/-- The row of `EV` written for a group. -/
def evRow (e : EdgeRec × Option EdgeRec) : List Int := [e.1.v1, e.1.v2]

/-- The row of `EF` the merge pass leaves for a group. -/
def efRow (e : EdgeRec × Option EdgeRec) : List Int :=
  match e.2 with
  | none => [(e.1.f : Int), -1]
  | some r2 => [(e.1.f : Int), (r2.f : Int)]

/-- The row of `EF` after the fix-up pass. -/
def fixedRow (F : FaceArray) (e : EdgeRec × Option EdgeRec) : List Int :=
  if traverses (F.getD e.1.f (0, 0, 0)) e.1.v1 e.1.v2 then efRow e else (efRow e).reverse

/-- The total form of `assign`. -/
def put (M : MatrixXi) (r c : Nat) (v : Int) : MatrixXi :=
  M.set r ((M.getD r []).set c v)

/-- The cells of `FE` written for the groups, the first group having edge ID `k`. -/
def writes : Nat → List (EdgeRec × Option EdgeRec) → List (Nat × Nat × Int)
  | _, [] => []
  | k, e :: es => (recsOf e).map (fun r => (r.f, r.i, (k : Int))) ++ writes (k + 1) es

/-- All the writes of a list, in order. -/
def putAll (M : MatrixXi) (W : List (Nat × Nat × Int)) : MatrixXi :=
  W.foldl (fun M w => put M w.1 w.2.1 w.2.2) M

/-- Read `M(r, c)` as an option. -/
def cell (M : MatrixXi) (r c : Nat) : Option Int :=
  match M[r]? with
  | some row => row[c]?
  | none => none

/-! ## Notions used in the proofs -/

/-- An `n x m` matrix. -/
def Rect (n m : Nat) (M : MatrixXi) : Prop :=
  M.length = n ∧ ∀ row ∈ M, row.length = m

/-- Order of the vertex pairs, non-strict. -/
def keyLe (a b : EdgeRec) : Prop := a.v1 < b.v1 ∨ (a.v1 = b.v1 ∧ a.v2 ≤ b.v2)

/-- Order of the vertex pairs, strict. -/
def keyLt (a b : EdgeRec) : Prop := a.v1 < b.v1 ∨ (a.v1 = b.v1 ∧ a.v2 < b.v2)

/-- No pair occurs in more than two records of the list. -/
def TwoFold (l : List EdgeRec) : Prop := ∀ r ∈ l, l.countP (samePair r) ≤ 2

instance recLe_total : IsTotal EdgeRec recLe := ⟨fun a b => by unfold recLe; omega⟩

instance recLe_trans : IsTrans EdgeRec recLe :=
  ⟨fun a b c h1 h2 => by unfold recLe at *; omega⟩

/-- The sorted incidence records of a face array. -/
def sortedETT (F : FaceArray) : List EdgeRec := sortETT (buildETT F)

/-- The groups the merge pass forms on a face array, in edge-ID order. -/
def edgesOf (F : FaceArray) : List (EdgeRec × Option EdgeRec) := plan (sortedETT F)

/-- The matrix `FE` the merge pass leaves. -/
def finalFE (F : FaceArray) : MatrixXi :=
  putAll (Constant F.length 3 (-1)) (writes 0 (edgesOf F))

/-- The strict order `operator<` of `std::vector<int>` on records: lexicographic. -/
def recLt (a b : EdgeRec) : Prop :=
  a.v1 < b.v1 ∨ (a.v1 = b.v1 ∧ (a.v2 < b.v2 ∨ (a.v2 = b.v2 ∧
    (a.f < b.f ∨ (a.f = b.f ∧ a.i < b.i)))))

instance recLt_decidable : DecidableRel recLt := fun a b => by
  unfold recLt
  exact inferInstance

instance recLe_antisymm : IsAntisymm EdgeRec recLe :=
  ⟨fun a b h1 h2 => by
    obtain ⟨a1, a2, a3, a4⟩ := a
    obtain ⟨b1, b2, b3, b4⟩ := b
    simp only [recLe] at h1 h2
    simp only [EdgeRec.mk.injEq]
    omega⟩

/-- Two face arrays use the same set of undirected vertex pairs. -/
def SamePairs (F G : FaceArray) : Prop :=
  (∀ s ∈ slots F, ∃ t ∈ slots G, undirected (ends G t) = undirected (ends F s)) ∧
  (∀ t ∈ slots G, ∃ s ∈ slots F, undirected (ends F s) = undirected (ends G t))

instance SamePairs_decidable (F G : FaceArray) : Decidable (SamePairs F G) := by
  unfold SamePairs
  exact inferInstance

/-- Lexicographic order of vertex pairs, strict. -/
def pairLt (p q : Int × Int) : Prop := p.1 < q.1 ∨ (p.1 = q.1 ∧ p.2 < q.2)

/-- The vertex pairs of the groups of a face array, in edge-ID order. -/
def edgeKeys (F : FaceArray) : List (Int × Int) := (edgesOf F).map fun e => key e.1

/-! ## Lines 111-189: the exporters `GetTriMeshData` and `GetTriFFAdjacency` -/

/-- Modelled from the spec: one face record of the mesh container, whose declaration
is not part of the source file.  `V` holds, for the three corners, the pointer
difference `V(j) - &vert[0]`; `FFp` holds the pointer difference
`FFp(j) - &face[0]` of the adjacent-face reference; `FFi` holds the stored local
slot `FFi(j)`. -/
structure MeshFace where
  V : Int × Int × Int
  FFp : Int × Int × Int
  FFi : Int × Int × Int
  deriving DecidableEq

/-- Modelled from the spec: the part of the mesh container `TriMeshType` the
exporters read, whose declaration is not part of the source file: the counts
`VN()` and `FN()`, the vertex positions `vert[i].cP()` and the face records. -/
structure TriMesh (R : Type) where
  vn : Nat
  fn : Nat
  vert : List (R × R × R)
  face : List MeshFace

/-- The conversion of a pointer difference or index to `int`. -/
def toInt32 (x : Int) : Int := (x + 2 ^ 31) % 2 ^ 32 - 2 ^ 31

/-- Component `j` of a position, for `j` in `0, 1, 2`. -/
def coord {R : Type} (p : R × R × R) : Nat → R
  | 0 => p.1
  | 1 => p.2.1
  | _ => p.2.2

/-- A loop `for (int i = ...; i < ...; i++)` of `n` iterations from counter value
`i`, each of which fills one row; it stops at the first failure. -/
def fillRows {α : Type} (row : Nat → Except Failure α) : Nat → Nat → Except Failure (List α)
  | 0, _ => .ok []
  | n + 1, i =>
    match row i with
    | .error e => .error e
    | .ok r =>
      match fillRows row n (i + 1) with
      | .error e => .error e
      | .ok rs => .ok (r :: rs)

/-- Lines 121-122: row `i` of `vert`. -/
def vertRow {R : Type} (mesh : TriMesh R) (i : Nat) : Except Failure (List R) :=
  match mesh.vert[i]? with
  | some p => .ok [coord p 0, coord p 1, coord p 2]
  | none => .error .outOfBounds

/-- Lines 132-133: the entry `faces(i, j)` and its assertion. -/
def faceEntry {R : Type} (mesh : TriMesh R) (t : MeshFace) (j : Nat) : Except Failure Int :=
  if 0 ≤ toInt32 (corner t.V j) ∧ toInt32 (corner t.V j) < (mesh.vn : Int) then
    .ok (toInt32 (corner t.V j))
  else .error .assertionFailed

/-- Lines 130-134: row `i` of `faces`. -/
def faceRow {R : Type} (mesh : TriMesh R) (i : Nat) : Except Failure (List Int) :=
  match mesh.face[i]? with
  | none => .error .outOfBounds
  | some t =>
    match faceEntry mesh t 0 with
    | .error e => .error e
    | .ok a =>
      match faceEntry mesh t 1 with
      | .error e => .error e
      | .ok b =>
        match faceEntry mesh t 2 with
        | .error e => .error e
        | .ok c => .ok [a, b, c]

/-- `MeshToMatrix::GetTriMeshData(mesh, faces, vert)`, lines 112-135; the result is
the pair `(faces, vert)`. -/
def GetTriMeshData {R : Type} (mesh : TriMesh R) : Except Failure (MatrixXi × MatrixXd R) :=
  match fillRows (vertRow mesh) mesh.vn 0 with
  | .error e => .error e
  | .ok vert =>
    match fillRows (faceRow mesh) mesh.fn 0 with
    | .error e => .error e
    | .ok faces => .ok (faces, vert)

/-- Lines 172-187: the entries `FFp(i, j)` and `FFi(i, j)`. -/
def adjEntry {R : Type} (mesh : TriMesh R) (i : Nat) (t : MeshFace) (j : Nat) :
    Except Failure (Int × Int) :=
  if corner t.FFp j = (i : Int) then .ok (-1, -1)
  else if 0 ≤ toInt32 (corner t.FFp j) ∧ toInt32 (corner t.FFp j) < (mesh.fn : Int) then
    .ok (toInt32 (corner t.FFp j), corner t.FFi j)
  else .error .assertionFailed

/-- Lines 170-188: row `i` of `FFp` and row `i` of `FFi`. -/
def adjRow {R : Type} (mesh : TriMesh R) (i : Nat) : Except Failure (List Int × List Int) :=
  match mesh.face[i]? with
  | none => .error .outOfBounds
  | some t =>
    match adjEntry mesh i t 0 with
    | .error e => .error e
    | .ok a =>
      match adjEntry mesh i t 1 with
      | .error e => .error e
      | .ok b =>
        match adjEntry mesh i t 2 with
        | .error e => .error e
        | .ok c => .ok ([a.1, b.1, c.1], [a.2, b.2, c.2])

/-- `MeshToMatrix::GetTriFFAdjacency(mesh, FFp, FFi)`, lines 158-189; the result is
the pair `(FFp, FFi)`.  The topology rebuild `UpdateTopology::FaceFace` of line 162
is not part of the source file and is the parameter `rebuild`. -/
def GetTriFFAdjacency {R : Type} (rebuild : TriMesh R → TriMesh R) (mesh : TriMesh R) :
    Except Failure (MatrixXi × MatrixXi) :=
  match fillRows (adjRow (rebuild mesh)) (rebuild mesh).fn 0 with
  | .error e => .error e
  | .ok rows => .ok (rows.map Prod.fst, rows.map Prod.snd)

/-- The pair `(FFp(i, j), FFi(i, j))` written when the assertion of line 187 holds. -/
def adjPair (i : Nat) (t : MeshFace) (j : Nat) : Int × Int :=
  if corner t.FFp j = (i : Int) then (-1, -1) else (toInt32 (corner t.FFp j), corner t.FFi j)

/-- The three undirected pairs of a face. -/
def facePairs (t : Face) : List (Int × Int) :=
  [undirected (t.1, t.2.1), undirected (t.2.1, t.2.2), undirected (t.2.2, t.1)]

/-- A face with its vertex order rotated: `(a, b, c)` becomes `(b, c, a)`. -/
def rotateFace (t : Face) : Face := (t.2.1, t.2.2, t.1)

/-- A face with its vertex order reversed: `(a, b, c)` becomes `(c, b, a)`. -/
def reverseFace (t : Face) : Face := (t.2.2, t.2.1, t.1)

/-! ## Lemmas: counters -/

theorem size_pred {n : Nat} (h0 : 0 < n) (h : n < UINT_MOD) :
    (n + SIZE_MOD - 1) % SIZE_MOD = n - 1 := by
  unfold UINT_MOD at h
  unfold SIZE_MOD
  omega

theorem uint_succ {i n : Nat} (hi : i < n) (h : n < UINT_MOD) :
    (i + 1) % UINT_MOD = i + 1 := by
  unfold UINT_MOD at *
  omega

theorem samePair_iff (a b : EdgeRec) : samePair a b = true ↔ key a = key b := by
  simp [samePair, key]

/-! ## Lemmas: the loops walk the list -/

theorem countLoop_succ (ETT : List EdgeRec) (fuel i En : Nat) :
    countLoop ETT (fuel + 1) i En =
      if i < (ETT.length + SIZE_MOD - 1) % SIZE_MOD then
        match ETT[i]?, ETT[(i + 1) % UINT_MOD]? with
        | some a, some b =>
          countLoop ETT fuel ((i + 1) % UINT_MOD) (if samePair a b then En else En + 1)
        | _, _ => .error .outOfBounds
      else .ok En := rfl

theorem countLoop_eq (ETT : List EdgeRec) (hlen : ETT.length < UINT_MOD) :
    ∀ (fuel i En : Nat), i < ETT.length → ETT.length - i ≤ fuel →
      countLoop ETT fuel i En = .ok (En + runBreaks (ETT.drop i)) := by
  intro fuel
  induction fuel with
  | zero => intro i En hi hf; omega
  | succ fuel ih =>
    intro i En hi hf
    have hpred := size_pred (by omega : 0 < ETT.length) hlen
    have hsucc := uint_succ hi hlen
    rw [countLoop_succ, hpred, hsucc]
    by_cases hlast : i < ETT.length - 1
    · have hi1 : i + 1 < ETT.length := by omega
      rw [if_pos hlast, List.getElem?_eq_getElem hi, List.getElem?_eq_getElem hi1]
      simp only
      rw [ih (i + 1) _ hi1 (by omega)]
      rw [List.drop_eq_getElem_cons hi, List.drop_eq_getElem_cons hi1]
      simp only [runBreaks]
      split <;> simp [Nat.add_assoc]
    · rw [if_neg hlast]
      have hd : ETT.drop i = [ETT[i]] := by
        rw [List.drop_eq_getElem_cons hi]
        have : ETT.drop (i + 1) = [] := List.drop_eq_nil_of_le (by omega)
        rw [this]
      rw [hd]
      simp [runBreaks]

theorem mergeLoop_eq (ETT : List EdgeRec) (hlen : ETT.length < UINT_MOD) :
    ∀ (fuel i : Nat) (s : MergeState), i ≤ ETT.length → ETT.length - i < fuel →
      mergeLoop ETT fuel i s = runPlan s (plan (ETT.drop i)) := by
  intro fuel
  induction fuel with
  | zero => intro i s hi hf; omega
  | succ fuel ih =>
    intro i s hi hf
    unfold mergeLoop
    by_cases hlt : i < ETT.length
    · have hpred := size_pred (by omega : 0 < ETT.length) hlen
      have hsucc := uint_succ hlt hlen
      rw [if_pos hlt, hpred, hsucc]
      by_cases hlast : i = ETT.length - 1
      · rw [if_pos hlast, List.getElem?_eq_getElem hlt]
        have hd : ETT.drop i = [ETT[i]] := by
          rw [List.drop_eq_getElem_cons hlt]
          have : ETT.drop (i + 1) = [] := List.drop_eq_nil_of_le (by omega)
          rw [this]
        have hd1 : ETT.drop (i + 1) = [] := List.drop_eq_nil_of_le (by omega)
        rw [hd]
        simp only [plan, runPlan, stepPlan]
        cases hb : borderEdge ETT[i] s with
        | error e => rfl
        | ok s1 =>
          simp only
          rw [ih (i + 1) s1 (by omega) (by omega), hd1]
          simp [plan, runPlan]
      · have hi1 : i + 1 < ETT.length := by omega
        have hsucc2 := uint_succ hi1 hlen
        rw [if_neg hlast, List.getElem?_eq_getElem hlt, List.getElem?_eq_getElem hi1]
        rw [List.drop_eq_getElem_cons hlt, List.drop_eq_getElem_cons hi1]
        simp only [plan]
        by_cases hsame : samePair ETT[i] ETT[i + 1] = true
        · simp only [hsame, if_true, runPlan, stepPlan]
          cases hb : sharedEdge ETT[i] ETT[i + 1] s with
          | error e => rfl
          | ok s1 =>
            simp only
            rw [hsucc2, ih (i + 1 + 1) s1 (by omega) (by omega)]
        · simp only [hsame, runPlan, stepPlan]
          cases hb : borderEdge ETT[i] s with
          | error e => rfl
          | ok s1 =>
            simp only [Bool.false_eq_true, if_false]
            rw [ih (i + 1) s1 (by omega) (by omega), List.drop_eq_getElem_cons hi1]
    · rw [if_neg hlt]
      have : ETT.drop i = [] := List.drop_eq_nil_of_le (by omega)
      rw [this]
      simp [plan, runPlan]

/-! ## Lemmas: matrices -/

theorem getElem?_at_end (done : MatrixXi) (row : List Int) (rest : MatrixXi) :
    (done ++ row :: rest)[done.length]? = some row := by
  rw [List.getElem?_append_right (Nat.le_refl _)]
  simp

theorem set_at_end (done : MatrixXi) (row x : List Int) (rest : MatrixXi) :
    (done ++ row :: rest).set done.length x = done ++ x :: rest := by
  simp

theorem assign_at_end (done : MatrixXi) (row : List Int) (rest : MatrixXi) (r c : Nat) (v : Int)
    (hr : r = done.length) (hc : c < row.length) :
    assign (done ++ row :: rest) r c v = .ok (done ++ row.set c v :: rest) := by
  subst hr
  unfold assign
  rw [getElem?_at_end]
  simp only [hc, if_true, set_at_end]

theorem assign_overflow (M : MatrixXi) (r c : Nat) (v : Int) (h : M.length ≤ r) :
    assign M r c v = .error .outOfBounds := by
  unfold assign
  rw [List.getElem?_eq_none h]

theorem coeff_at_end (done : MatrixXi) (row : List Int) (rest : MatrixXi) (r c : Nat) (v : Int)
    (hr : r = done.length) (hc : row[c]? = some v) :
    coeff (done ++ row :: rest) r c = .ok v := by
  subst hr
  unfold coeff
  rw [getElem?_at_end]
  simp only [hc]

theorem Constant_rect (n m : Nat) (v : Int) : Rect n m (Constant n m v) := by
  constructor
  · simp [Constant]
  · intro row hrow
    simp only [Constant] at hrow
    rw [List.eq_of_mem_replicate hrow]
    simp

theorem put_rect {n m : Nat} {M : MatrixXi} (hM : Rect n m M) (r c : Nat) (v : Int) :
    Rect n m (put M r c v) := by
  obtain ⟨h1, h2⟩ := hM
  constructor
  · simp [put, h1]
  · intro row hrow
    unfold put at hrow
    by_cases hr : r < M.length
    · rcases List.mem_or_eq_of_mem_set hrow with h | h
      · exact h2 row h
      · rw [h, List.length_set, List.getD_eq_getElem _ _ hr]
        exact h2 _ (List.getElem_mem hr)
    · rw [List.set_eq_of_length_le (by omega)] at hrow
      exact h2 row hrow

theorem assign_eq_put {n m : Nat} {M : MatrixXi} (hM : Rect n m M) {r c : Nat} (v : Int)
    (hr : r < n) (hc : c < m) : assign M r c v = .ok (put M r c v) := by
  obtain ⟨h1, h2⟩ := hM
  have hr' : r < M.length := by omega
  unfold assign put
  rw [List.getElem?_eq_getElem hr', List.getD_eq_getElem _ _ hr']
  have : M[r].length = m := h2 _ (List.getElem_mem hr')
  simp [this, hc]

theorem cell_put_same {n m : Nat} {M : MatrixXi} (hM : Rect n m M) {r c : Nat} (v : Int)
    (hr : r < n) (hc : c < m) : cell (put M r c v) r c = some v := by
  obtain ⟨h1, h2⟩ := hM
  have hr' : r < M.length := by omega
  have : M[r].length = m := h2 _ (List.getElem_mem hr')
  unfold cell put
  rw [List.getD_eq_getElem _ _ hr']
  simp [hr', this, hc]

theorem cell_put_other (M : MatrixXi) (r c r1 c1 : Nat) (v : Int)
    (h : ¬ (r1 = r ∧ c1 = c)) : cell (put M r c v) r1 c1 = cell M r1 c1 := by
  unfold cell put
  by_cases hr : r1 = r
  · subst hr
    have hc : ¬ c1 = c := fun hc => h ⟨rfl, hc⟩
    by_cases hlt : r1 < M.length
    · rw [List.getD_eq_getElem _ _ hlt]
      simp [hlt, List.getElem?_set, Ne.symm hc]
    · rw [List.set_eq_of_length_le (by omega)]
  · rw [List.getElem?_set_ne (Ne.symm hr)]

theorem cell_Constant {n m r c : Nat} (v : Int) (hr : r < n) (hc : c < m) :
    cell (Constant n m v) r c = some v := by
  unfold cell Constant
  simp [hr, hc]

/-! ## Lemmas: the effect of the merge pass -/

theorem stepPlan_ok (n : Nat) (e : EdgeRec × Option EdgeRec) (dEV dEF FE : MatrixXi) (k : Nat)
    (hlen : dEV.length = dEF.length) (hFE : Rect n 3 FE)
    (hb : ∀ r ∈ recsOf e, r.f < n ∧ r.i < 3) :
    stepPlan ⟨dEV.length, dEV ++ List.replicate (k + 1) [-1, -1], FE,
        dEF ++ List.replicate (k + 1) [-1, -1]⟩ e =
      .ok ⟨dEV.length + 1, dEV ++ evRow e :: List.replicate k [-1, -1],
        putAll FE ((recsOf e).map fun r => (r.f, r.i, (dEV.length : Int))),
        dEF ++ efRow e :: List.replicate k [-1, -1]⟩ := by
  obtain ⟨r1, o⟩ := e
  cases o with
  | none =>
    have h1 := hb r1 (by simp [recsOf])
    simp only [stepPlan, borderEdge, List.replicate_succ]
    rw [assign_at_end dEV _ _ _ 0 r1.v1 rfl (by simp)]
    simp only [List.set_cons_zero]
    rw [assign_at_end dEV _ _ _ 1 r1.v2 rfl (by simp)]
    simp only
    rw [assign_at_end dEF _ _ _ 0 r1.f hlen (by simp)]
    simp only
    rw [assign_eq_put hFE _ h1.1 h1.2]
    simp [evRow, efRow, recsOf, putAll]
  | some r2 =>
    have h1 := hb r1 (by simp [recsOf])
    have h2 := hb r2 (by simp [recsOf])
    simp only [stepPlan, sharedEdge, List.replicate_succ]
    rw [assign_at_end dEV _ _ _ 0 r1.v1 rfl (by simp)]
    simp only [List.set_cons_zero]
    rw [assign_at_end dEV _ _ _ 1 r1.v2 rfl (by simp)]
    simp only
    rw [assign_at_end dEF _ _ _ 0 r1.f hlen (by simp)]
    simp only [List.set_cons_zero]
    rw [assign_at_end dEF _ _ _ 1 r2.f hlen (by simp)]
    simp only
    rw [assign_eq_put hFE _ h1.1 h1.2]
    simp only
    rw [assign_eq_put (put_rect hFE _ _ _) _ h2.1 h2.2]
    simp [evRow, efRow, recsOf, putAll]

theorem stepPlan_overflow (e : EdgeRec × Option EdgeRec) (s : MergeState)
    (h : s.EV.length ≤ s.En) : stepPlan s e = .error .outOfBounds := by
  obtain ⟨r1, o⟩ := e
  cases o <;> simp [stepPlan, borderEdge, sharedEdge, assign_overflow _ _ _ _ h]

theorem putAll_rect {n m : Nat} (W : List (Nat × Nat × Int)) :
    ∀ {M : MatrixXi}, Rect n m M → Rect n m (putAll M W) := by
  induction W with
  | nil => intro M hM; exact hM
  | cons w W ih =>
    intro M hM
    exact ih (put_rect hM _ _ _)

theorem putAll_append (M : MatrixXi) (W1 W2 : List (Nat × Nat × Int)) :
    putAll M (W1 ++ W2) = putAll (putAll M W1) W2 := by
  simp [putAll, List.foldl_append]

theorem runPlan_ok (n : Nat) : ∀ (es : List (EdgeRec × Option EdgeRec)) (dEV dEF FE : MatrixXi)
    (k : Nat), dEV.length = dEF.length → Rect n 3 FE →
    (∀ e ∈ es, ∀ r ∈ recsOf e, r.f < n ∧ r.i < 3) → es.length ≤ k →
    runPlan ⟨dEV.length, dEV ++ List.replicate k [-1, -1], FE,
        dEF ++ List.replicate k [-1, -1]⟩ es =
      .ok ⟨dEV.length + es.length,
        dEV ++ (es.map evRow ++ List.replicate (k - es.length) [-1, -1]),
        putAll FE (writes dEV.length es),
        dEF ++ (es.map efRow ++ List.replicate (k - es.length) [-1, -1])⟩ := by
  intro es
  induction es with
  | nil =>
    intro dEV dEF FE k _ _ _ _
    simp [runPlan, writes, putAll]
  | cons e es ih =>
    intro dEV dEF FE k hlen hFE hb hk
    obtain ⟨k, rfl⟩ : ∃ k1, k = k1 + 1 := ⟨k - 1, by simp at hk; omega⟩
    simp only [runPlan]
    rw [stepPlan_ok n e dEV dEF FE k hlen hFE (hb e (List.mem_cons_self _ _))]
    simp only
    have hl1 : (dEV ++ [evRow e]).length = dEV.length + 1 := by simp
    have hl2 : (dEV ++ [evRow e]).length = (dEF ++ [efRow e]).length := by simp [hlen]
    have := ih (dEV ++ [evRow e]) (dEF ++ [efRow e]) _ k hl2
      (putAll_rect ((recsOf e).map fun r => (r.f, r.i, (dEV.length : Int))) hFE)
      (fun e1 h1 => hb e1 (List.mem_cons_of_mem _ h1)) (by simp at hk; omega)
    rw [hl1] at this
    simp only [List.append_assoc, List.singleton_append] at this
    rw [this]
    simp [writes, putAll_append, Nat.add_assoc, Nat.add_comm 1]

theorem runPlan_overflow (n : Nat) : ∀ (es : List (EdgeRec × Option EdgeRec))
    (dEV dEF FE : MatrixXi) (k : Nat), dEV.length = dEF.length → Rect n 3 FE →
    (∀ e ∈ es, ∀ r ∈ recsOf e, r.f < n ∧ r.i < 3) → k < es.length →
    runPlan ⟨dEV.length, dEV ++ List.replicate k [-1, -1], FE,
        dEF ++ List.replicate k [-1, -1]⟩ es = .error .outOfBounds := by
  intro es
  induction es with
  | nil => intro dEV dEF FE k _ _ _ hk; simp at hk
  | cons e es ih =>
    intro dEV dEF FE k hlen hFE hb hk
    simp only [runPlan]
    cases k with
    | zero =>
      rw [stepPlan_overflow e _ (by simp)]
    | succ k =>
      rw [stepPlan_ok n e dEV dEF FE k hlen hFE (hb e (List.mem_cons_self _ _))]
      simp only
      have hl1 : (dEV ++ [evRow e]).length = dEV.length + 1 := by simp
      have hl2 : (dEV ++ [evRow e]).length = (dEF ++ [efRow e]).length := by simp [hlen]
      have := ih (dEV ++ [evRow e]) (dEF ++ [efRow e]) _ k hl2
        (putAll_rect ((recsOf e).map fun r => (r.f, r.i, (dEV.length : Int))) hFE)
        (fun e1 h1 => hb e1 (List.mem_cons_of_mem _ h1)) (by simp at hk; omega)
      rw [hl1] at this
      simp only [List.append_assoc, List.singleton_append] at this
      exact this

/-! ## Lemmas: the effect of the fix-up pass -/

theorem faceCoeffAt_ok (F : FaceArray) (f j : Nat) (hf : f < F.length) (hj : j < 3) :
    faceCoeffAt F (f : Int) j = .ok (corner (F.getD f (0, 0, 0)) j) := by
  unfold faceCoeffAt
  have h0 : ¬ ((f : Int) < 0) := by omega
  rw [if_neg h0, Int.toNat_ofNat, List.getElem?_eq_getElem hf, List.getD_eq_getElem _ _ hf]
  simp [hj]

theorem coeff_of_row (M : MatrixXi) (i c : Nat) (row : List Int) (v : Int)
    (hM : M[i]? = some row) (hc : row[c]? = some v) : coeff M i c = .ok v := by
  unfold coeff
  rw [hM]
  simp only [hc]

theorem slotMatches_eq (F : FaceArray) (EV : MatrixXi) (i f j : Nat) (a b : Int)
    (hf : f < F.length) (hj : j < 3) (hEV : EV[i]? = some [a, b]) :
    slotMatches F EV i (f : Int) j =
      .ok (corner (F.getD f (0, 0, 0)) j == a && corner (F.getD f (0, 0, 0)) ((j + 1) % 3) == b) := by
  unfold slotMatches
  rw [faceCoeffAt_ok F f j hf hj, faceCoeffAt_ok F f _ hf (Nat.mod_lt _ (by decide)),
    coeff_of_row EV i 0 [a, b] a hEV rfl, coeff_of_row EV i 1 [a, b] b hEV rfl]
  generalize F.getD f (0, 0, 0) = t
  by_cases h : corner t j = a <;> simp [h]

theorem searchEdge_eq (F : FaceArray) (EV : MatrixXi) (i f : Nat) (a b : Int)
    (hf : f < F.length) (hEV : EV[i]? = some [a, b]) :
    searchEdge F EV i (f : Int) 3 0 true = .ok (!traverses (F.getD f (0, 0, 0)) a b) := by
  simp only [searchEdge]
  rw [slotMatches_eq F EV i f 0 a b hf (by decide) hEV]
  simp only
  rw [slotMatches_eq F EV i f 1 a b hf (by decide) hEV]
  simp only
  rw [slotMatches_eq F EV i f 2 a b hf (by decide) hEV]
  simp only [traverses]
  generalize F.getD f (0, 0, 0) = t
  cases h0 : (corner t 0 == a && corner t 1 == b) <;>
  cases h1 : (corner t 1 == a && corner t 2 == b) <;>
  cases h2 : (corner t 2 == a && corner t 0 == b) <;> simp_all

theorem efRow_zero (e : EdgeRec × Option EdgeRec) : (efRow e)[0]? = some (e.1.f : Int) := by
  obtain ⟨r1, o⟩ := e
  cases o <;> rfl

theorem swapRow_at_end (done : MatrixXi) (e : EdgeRec × Option EdgeRec) (rest : MatrixXi)
    (i : Nat) (hi : i = done.length) :
    swapRow (done ++ efRow e :: rest) i = .ok (done ++ (efRow e).reverse :: rest) := by
  obtain ⟨r1, o⟩ := e
  cases o with
  | none =>
    unfold swapRow
    rw [coeff_at_end done _ rest i 0 (r1.f : Int) hi rfl, coeff_at_end done _ rest i 1 (-1) hi rfl]
    simp only
    rw [assign_at_end done _ rest i 0 _ hi (by simp [efRow])]
    simp only
    rw [assign_at_end done _ rest i 1 _ hi (by simp [efRow])]
    rfl
  | some r2 =>
    unfold swapRow
    rw [coeff_at_end done _ rest i 0 (r1.f : Int) hi rfl,
      coeff_at_end done _ rest i 1 (r2.f : Int) hi rfl]
    simp only
    rw [assign_at_end done _ rest i 0 _ hi (by simp [efRow])]
    simp only
    rw [assign_at_end done _ rest i 1 _ hi (by simp [efRow])]
    rfl

theorem fixLoop_eq (F : FaceArray) (es : List (EdgeRec × Option EdgeRec))
    (hlen : es.length < UINT_MOD) (hf : ∀ e ∈ es, e.1.f < F.length) :
    ∀ (fuel i : Nat) (done : MatrixXi), done.length = i → i ≤ es.length →
      es.length - i < fuel →
      fixLoop F (es.map evRow) fuel i (done ++ (es.drop i).map efRow) =
        .ok (done ++ (es.drop i).map (fixedRow F)) := by
  intro fuel
  induction fuel with
  | zero => intro i done _ _ h; omega
  | succ fuel ih =>
    intro i done hd hi hfuel
    unfold fixLoop
    by_cases hlt : i < es.length
    · have hEFlen : i < (done ++ (es.drop i).map efRow).length := by
        simp [hd]; omega
      rw [if_pos hEFlen, List.drop_eq_getElem_cons hlt, uint_succ hlt hlen]
      simp only [List.map_cons]
      have hmem : es[i] ∈ es := List.getElem_mem hlt
      have hEV : (es.map evRow)[i]? = some [es[i].1.v1, es[i].1.v2] := by
        rw [List.getElem?_map, List.getElem?_eq_getElem hlt]
        rfl
      rw [coeff_at_end done _ _ i 0 _ hd.symm (efRow_zero es[i])]
      simp only
      rw [searchEdge_eq F _ i es[i].1.f _ _ (hf _ hmem) hEV]
      simp only
      have hd1 : ∀ row : List Int, (done ++ [row]).length = i + 1 := by
        intro row; simp [hd]
      cases ht : traverses (F.getD es[i].1.f (0, 0, 0)) es[i].1.v1 es[i].1.v2 with
      | true =>
        simp only [Bool.not_true, Bool.false_eq_true, if_false]
        have := ih (i + 1) (done ++ [efRow es[i]]) (hd1 _) (by omega) (by omega)
        simp only [List.append_assoc, List.singleton_append] at this
        rw [this]
        simp only [fixedRow, ht, if_true]
      | false =>
        simp only [Bool.not_false, if_true]
        rw [swapRow_at_end done _ _ i hd.symm]
        simp only
        have := ih (i + 1) (done ++ [(efRow es[i]).reverse]) (hd1 _) (by omega) (by omega)
        simp only [List.append_assoc, List.singleton_append] at this
        rw [this]
        simp only [fixedRow, ht, Bool.false_eq_true, if_false]
    · have hEFlen : ¬ i < (done ++ (es.drop i).map efRow).length := by
        simp [hd]; omega
      rw [if_neg hEFlen]
      have : es.drop i = [] := List.drop_eq_nil_of_le (by omega)
      rw [this]
      rfl

/-! ## Lemmas: groups of a list sorted by pair -/

theorem samePair_eq (a b : EdgeRec) : samePair a b = true ↔ a.v1 = b.v1 ∧ a.v2 = b.v2 := by
  simp [samePair]

theorem samePair_refl (a : EdgeRec) : samePair a a = true := by
  simp [samePair]

theorem samePair_symm {a b : EdgeRec} (h : samePair a b = true) : samePair b a = true := by
  rw [samePair_eq] at *
  omega

theorem samePair_trans {a b c : EdgeRec} (h1 : samePair a b = true) (h2 : samePair b c = true) :
    samePair a c = true := by
  rw [samePair_eq] at *
  omega

theorem samePair_congr {a b : EdgeRec} (h : samePair a b = true) (x : EdgeRec) :
    samePair a x = samePair b x := by
  rw [Bool.eq_iff_iff]
  exact ⟨fun h1 => samePair_trans (samePair_symm h) h1, fun h1 => samePair_trans h h1⟩

theorem keyLt_of_le_of_ne {a b : EdgeRec} (h1 : keyLe a b) (h2 : ¬ samePair a b = true) :
    keyLt a b := by
  rw [samePair_eq] at h2
  unfold keyLe at h1
  unfold keyLt
  omega

theorem keyLt_of_lt_of_le {a b c : EdgeRec} (h1 : keyLt a b) (h2 : keyLe b c) : keyLt a c := by
  unfold keyLe at h2
  unfold keyLt at *
  omega

theorem keyLt_not_same {a b : EdgeRec} (h1 : keyLt a b) : ¬ samePair a b = true := by
  rw [samePair_eq]
  unfold keyLt at h1
  omega

theorem samePair_of_between {a b c : EdgeRec} (h1 : keyLe a b) (h2 : keyLe b c)
    (h3 : samePair a c = true) : samePair a b = true := by
  rw [samePair_eq] at *
  unfold keyLe at *
  omega

theorem TwoFold_sublist {l1 l2 : List EdgeRec} (h : l1.Sublist l2) (h2 : TwoFold l2) :
    TwoFold l1 := fun r hr =>
  Nat.le_trans (List.Sublist.countP_le _ h) (h2 r (h.subset hr))

theorem countP_eq_zero_of_forall {l : List EdgeRec} {r : EdgeRec}
    (h : ∀ x ∈ l, ¬ samePair r x = true) : l.countP (samePair r) = 0 := by
  rw [List.countP_eq_zero]
  exact h

theorem no_third {r1 r2 : EdgeRec} {rest : List EdgeRec} (h2 : TwoFold (r1 :: r2 :: rest))
    (hs : samePair r1 r2 = true) : ∀ x ∈ rest, ¬ samePair r1 x = true := by
  intro x hx hsx
  have h := h2 r1 (List.mem_cons_self _ _)
  have hpos : 0 < rest.countP (samePair r1) := List.countP_pos_iff.mpr ⟨x, hx, hsx⟩
  simp only [List.countP_cons, hs, samePair_refl, if_true] at h
  omega

theorem plan_flatten (l : List EdgeRec) : (plan l).flatMap recsOf = l := by
  induction l using plan.induct with
  | case1 => rfl
  | case2 r => rfl
  | case3 r1 r2 rest h ih => simp [plan, h, recsOf, ih]
  | case4 r1 r2 rest h ih => simp [plan, h, recsOf, ih]

theorem plan_recs_mem {l : List EdgeRec} {e : EdgeRec × Option EdgeRec} {r : EdgeRec}
    (he : e ∈ plan l) (hr : r ∈ recsOf e) : r ∈ l := by
  have : r ∈ (plan l).flatMap recsOf := List.mem_flatMap.mpr ⟨e, he, hr⟩
  rwa [plan_flatten] at this

theorem plan_fst_mem {l : List EdgeRec} {e : EdgeRec × Option EdgeRec} (he : e ∈ plan l) :
    e.1 ∈ l := by
  apply plan_recs_mem he
  obtain ⟨r1, o⟩ := e
  cases o <;> simp [recsOf]

theorem plan_snd_same (l : List EdgeRec) :
    ∀ e ∈ plan l, ∀ r2, e.2 = some r2 → samePair e.1 r2 = true := by
  induction l using plan.induct with
  | case1 => intro e he; simp [plan] at he
  | case2 r =>
    intro e he r2 h2
    simp only [plan, List.mem_singleton] at he
    subst he
    simp at h2
  | case3 r1 r2 rest h ih =>
    intro e he x hx
    simp only [plan, h, if_true, List.mem_cons] at he
    rcases he with he | he
    · subst he
      simp only [Option.some.injEq] at hx
      subst hx
      exact h
    · exact ih e he x hx
  | case4 r1 r2 rest h ih =>
    intro e he x hx
    simp only [plan, h, Bool.false_eq_true, if_false, List.mem_cons] at he
    rcases he with he | he
    · subst he
      simp at hx
    · exact ih e he x hx

theorem plan_strict (l : List EdgeRec) (hs : l.Pairwise keyLe) (h2 : TwoFold l) :
    (plan l).Pairwise (fun e e1 => keyLt e.1 e1.1) := by
  induction l using plan.induct with
  | case1 => simp [plan]
  | case2 r => simp [plan]
  | case3 r1 r2 rest h ih =>
    simp only [plan, h, if_true, List.pairwise_cons]
    rw [List.pairwise_cons, List.pairwise_cons] at hs
    refine ⟨fun e he => ?_, ih hs.2.2 (TwoFold_sublist ?_ h2)⟩
    · have hm := plan_fst_mem he
      exact keyLt_of_le_of_ne (hs.1 _ (List.mem_cons_of_mem _ hm)) (no_third h2 h _ hm)
    · exact (List.sublist_cons_self _ _).trans (List.sublist_cons_self _ _)
  | case4 r1 r2 rest h ih =>
    simp only [plan, h, Bool.false_eq_true, if_false, List.pairwise_cons]
    rw [List.pairwise_cons] at hs
    refine ⟨fun e he => ?_, ih hs.2 (TwoFold_sublist (List.sublist_cons_self _ _) h2)⟩
    have hm := plan_fst_mem he
    have h12 : keyLt r1 r2 := keyLt_of_le_of_ne (hs.1 _ (List.mem_cons_self _ _)) h
    rw [List.pairwise_cons] at hs
    rcases List.mem_cons.mp hm with hm | hm
    · rw [hm]; exact h12
    · exact keyLt_of_lt_of_le h12 (hs.2.1 _ hm)

theorem runBreaks_cons_le (r : EdgeRec) (rest : List EdgeRec) :
    runBreaks (r :: rest) ≤ 1 + runBreaks rest := by
  cases rest with
  | nil => simp [runBreaks]
  | cons r3 rest =>
    simp only [runBreaks]
    split <;> omega

theorem plan_length_ge (l : List EdgeRec) : l ≠ [] → 1 + runBreaks l ≤ (plan l).length := by
  induction l using plan.induct with
  | case1 => intro h; exact absurd rfl h
  | case2 r => intro _; simp [plan, runBreaks]
  | case3 r1 r2 rest h ih =>
    intro _
    simp only [plan, h, if_true, runBreaks, List.length_cons]
    cases rest with
    | nil => simp [runBreaks, plan]
    | cons r3 rest =>
      have := ih (by simp)
      have := runBreaks_cons_le r2 (r3 :: rest)
      omega
  | case4 r1 r2 rest h ih =>
    intro _
    simp only [plan, h, Bool.false_eq_true, if_false, runBreaks, List.length_cons]
    have := ih (by simp)
    omega

theorem plan_length_manifold (l : List EdgeRec) (h2 : TwoFold l) :
    l ≠ [] → (plan l).length = 1 + runBreaks l := by
  induction l using plan.induct with
  | case1 => intro h; exact absurd rfl h
  | case2 r => intro _; simp [plan, runBreaks]
  | case3 r1 r2 rest h ih =>
    intro _
    simp only [plan, h, if_true, runBreaks, List.length_cons]
    cases rest with
    | nil => simp [runBreaks, plan]
    | cons r3 rest =>
      have h3 : ¬ samePair r2 r3 = true := fun h23 =>
        no_third h2 h r3 (List.mem_cons_self _ _) (samePair_trans h h23)
      have := ih (TwoFold_sublist
        ((List.sublist_cons_self _ _).trans (List.sublist_cons_self _ _)) h2) (by simp)
      simp only [runBreaks, h3, Bool.false_eq_true, if_false]
      omega
  | case4 r1 r2 rest h ih =>
    intro _
    simp only [plan, h, Bool.false_eq_true, if_false, runBreaks, List.length_cons]
    have := ih (TwoFold_sublist (List.sublist_cons_self _ _) h2) (by simp)
    omega

theorem plan_length_gt (l : List EdgeRec) (hs : l.Pairwise keyLe) :
    (∃ r ∈ l, 3 ≤ l.countP (samePair r)) → 1 + runBreaks l < (plan l).length := by
  induction l using plan.induct with
  | case1 => rintro ⟨r, hr, _⟩; simp at hr
  | case2 r0 =>
    rintro ⟨r, _, h3⟩
    have := List.countP_le_length (samePair r) (l := [r0])
    simp at this
    omega
  | case3 r1 r2 rest h ih =>
    rintro ⟨r, hr, h3⟩
    rw [List.pairwise_cons, List.pairwise_cons] at hs
    by_cases hx : ∃ x ∈ rest, samePair r1 x = true
    · obtain ⟨x, hx, hsx⟩ := hx
      cases rest with
      | nil => simp at hx
      | cons r3 rest =>
        have h23 : samePair r2 r3 = true := by
          have h2x : samePair r2 x = true := samePair_trans (samePair_symm h) hsx
          rcases List.mem_cons.mp hx with hx | hx
          · rw [← hx]; exact h2x
          · have hp := hs.2.2
            rw [List.pairwise_cons] at hp
            exact samePair_of_between (hs.2.1 _ (List.mem_cons_self _ _)) (hp.1 _ hx) h2x
        have := plan_length_ge (r3 :: rest) (by simp)
        simp only [plan, h, if_true, runBreaks, h23, List.length_cons]
        simp only [plan, List.length_cons] at this
        omega
    · have hx : ∀ x ∈ rest, ¬ samePair r1 x = true := fun x hx1 hx2 => hx ⟨x, hx1, hx2⟩
      have hr1 : ¬ samePair r r1 = true := by
        intro hrr
        have hf : samePair r = samePair r1 := funext (samePair_congr hrr)
        rw [hf] at h3
        simp only [List.countP_cons, h, samePair_refl, if_true,
          countP_eq_zero_of_forall hx] at h3
        omega
      have hr2 : ¬ samePair r r2 = true := fun hrr => hr1 (samePair_trans hrr (samePair_symm h))
      have hmem : r ∈ rest := by
        rcases List.mem_cons.mp hr with hr | hr
        · exact absurd (hr ▸ samePair_refl r) hr1
        · rcases List.mem_cons.mp hr with hr | hr
          · exact absurd (hr ▸ samePair_refl r) hr2
          · exact hr
      have hc : 3 ≤ rest.countP (samePair r) := by
        simpa only [List.countP_cons, hr1, hr2, Bool.false_eq_true, if_false, Nat.add_zero]
          using h3
      have := ih hs.2.2 ⟨r, hmem, hc⟩
      have := runBreaks_cons_le r2 rest
      simp only [plan, h, if_true, runBreaks, List.length_cons]
      omega
  | case4 r1 r2 rest h ih =>
    rintro ⟨r, hr, h3⟩
    rw [List.pairwise_cons] at hs
    have h12 : keyLt r1 r2 := keyLt_of_le_of_ne (hs.1 _ (List.mem_cons_self _ _)) h
    have hp := hs.2
    rw [List.pairwise_cons] at hp
    have hx : ∀ x ∈ r2 :: rest, ¬ samePair r1 x = true := by
      intro x hx
      rcases List.mem_cons.mp hx with hx | hx
      · rw [hx]; exact h
      · exact keyLt_not_same (keyLt_of_lt_of_le h12 (hp.1 _ hx))
    have hr1 : ¬ samePair r r1 = true := by
      intro hrr
      have hf : samePair r = samePair r1 := funext (samePair_congr hrr)
      rw [hf, List.countP_cons, countP_eq_zero_of_forall hx] at h3
      simp only [samePair_refl, if_true] at h3
      omega
    have hmem : r ∈ r2 :: rest := by
      rcases List.mem_cons.mp hr with hr | hr
      · exact absurd (hr ▸ samePair_refl r) hr1
      · exact hr
    have hc : 3 ≤ (r2 :: rest).countP (samePair r) := by
      rw [List.countP_cons] at h3
      simpa only [hr1, Bool.false_eq_true, if_false, Nat.add_zero] using h3
    have := ih hs.2 ⟨r, hmem, hc⟩
    simp only [plan, h, Bool.false_eq_true, if_false, runBreaks, List.length_cons]
    omega

theorem runBreaks_lt_length (l : List EdgeRec) : l ≠ [] → runBreaks l < l.length := by
  induction l using runBreaks.induct with
  | case1 => intro h; exact absurd rfl h
  | case2 r => intro _; simp [runBreaks]
  | case3 r1 r2 rest ih =>
    intro _
    have := ih (by simp)
    simp only [runBreaks, List.length_cons] at *
    split <;> omega

theorem distinct_of_full_breaks (l : List EdgeRec) (hs : l.Pairwise keyLe) :
    1 + runBreaks l = l.length → l.Pairwise (fun a b => keyLt a b) := by
  induction l using runBreaks.induct with
  | case1 => intro _; exact List.Pairwise.nil
  | case2 r => intro _; simp
  | case3 r1 r2 rest ih =>
    intro hfull
    have hlt := runBreaks_lt_length (r2 :: rest) (by simp)
    rw [List.pairwise_cons] at hs
    simp only [runBreaks, List.length_cons] at hfull hlt
    have h12 : ¬ samePair r1 r2 = true := by
      intro h
      simp only [h, if_true] at hfull
      omega
    simp only [h12, Bool.false_eq_true, if_false] at hfull
    have htail := ih hs.2 (by simp only [List.length_cons]; omega)
    have hk : keyLt r1 r2 := keyLt_of_le_of_ne (hs.1 _ (List.mem_cons_self _ _)) h12
    have hp := hs.2
    rw [List.pairwise_cons] at hp
    refine List.Pairwise.cons (fun x hx => ?_) htail
    rcases List.mem_cons.mp hx with hx | hx
    · rw [hx]; exact hk
    · exact keyLt_of_lt_of_le hk (hp.1 _ hx)

/-! ## Lemmas: the sorted incidence records -/

theorem recLe_keyLe {a b : EdgeRec} (h : recLe a b) : keyLe a b := by
  unfold recLe at h
  unfold keyLe
  omega

theorem sortETT_perm (l : List EdgeRec) : (sortETT l).Perm l :=
  List.perm_insertionSort recLe l

theorem sortETT_sorted (l : List EdgeRec) : (sortETT l).Pairwise keyLe :=
  (List.sorted_insertionSort recLe l).imp recLe_keyLe

theorem buildETT_eq (F : FaceArray) :
    buildETT F = (slots F).map fun s => edgeRecord F s.1 s.2 := by
  unfold buildETT slots
  rw [List.map_flatMap]
  simp [Function.comp_def]

theorem mem_slots (F : FaceArray) (s : Nat × Nat) :
    s ∈ slots F ↔ s.1 < F.length ∧ s.2 < 3 := by
  obtain ⟨f, i⟩ := s
  simp only [slots, List.mem_flatMap, List.mem_range, List.mem_map, Prod.mk.injEq]
  constructor
  · rintro ⟨a, ha, b, hb, rfl, rfl⟩
    exact ⟨ha, hb⟩
  · rintro ⟨h1, h2⟩
    exact ⟨f, h1, i, h2, rfl, rfl⟩

theorem slots_length (F : FaceArray) : (slots F).length = 3 * F.length := by
  simp [slots, List.length_flatMap, Function.comp_def, Nat.mul_comm]

theorem slots_nodup (F : FaceArray) : (slots F).Nodup := by
  unfold slots
  rw [List.nodup_flatMap]
  constructor
  · intro f _
    exact (List.nodup_range 3).map (fun a b h => by simpa using h)
  · refine (List.nodup_range F.length).imp ?_
    intro a b hab
    simp only [Function.onFun, List.Disjoint]
    intro x h1 h2
    simp only [List.mem_map, List.mem_range] at h1 h2
    obtain ⟨_, _, rfl⟩ := h1
    obtain ⟨_, _, h⟩ := h2
    simp only [Prod.mk.injEq] at h
    exact hab h.1.symm

theorem edgeRecord_slot (F : FaceArray) (f i : Nat) :
    (edgeRecord F f i).f = f ∧ (edgeRecord F f i).i = i := by
  unfold edgeRecord
  simp only
  split <;> simp

theorem sortedETT_length (F : FaceArray) : (sortedETT F).length = 3 * F.length := by
  unfold sortedETT
  rw [(sortETT_perm _).length_eq, buildETT_eq, List.length_map, slots_length]

theorem sortedETT_ne_nil {F : FaceArray} (h : F ≠ []) : sortedETT F ≠ [] := by
  intro h0
  have h1 := sortedETT_length F
  have h2 : (sortedETT F).length = 0 := by rw [h0]; rfl
  have : F.length = 0 := by omega
  exact h (List.length_eq_zero.mp this)

theorem sortedETT_uint {F : FaceArray} (h : InRange F) : (sortedETT F).length < UINT_MOD := by
  rw [sortedETT_length]
  unfold InRange at h
  unfold UINT_MOD
  omega

theorem mem_sortedETT (F : FaceArray) (r : EdgeRec) :
    r ∈ sortedETT F ↔ ∃ s ∈ slots F, r = edgeRecord F s.1 s.2 := by
  unfold sortedETT
  rw [(sortETT_perm _).mem_iff, buildETT_eq, List.mem_map]
  constructor
  · rintro ⟨s, hs, rfl⟩; exact ⟨s, hs, rfl⟩
  · rintro ⟨s, hs, rfl⟩; exact ⟨s, hs, rfl⟩

theorem sortedETT_bounds (F : FaceArray) (r : EdgeRec) (hr : r ∈ sortedETT F) :
    r.f < F.length ∧ r.i < 3 ∧ r = edgeRecord F r.f r.i := by
  obtain ⟨s, hs, rfl⟩ := (mem_sortedETT F r).mp hr
  have h := (mem_slots F s).mp hs
  have h1 := edgeRecord_slot F s.1 s.2
  rw [h1.1, h1.2]
  exact ⟨h.1, h.2, rfl⟩

theorem edgeRecord_mem (F : FaceArray) {f k : Nat} (hf : f < F.length) (hk : k < 3) :
    edgeRecord F f k ∈ sortedETT F :=
  (mem_sortedETT F _).mpr ⟨(f, k), (mem_slots F (f, k)).mpr ⟨hf, hk⟩, rfl⟩

theorem samePair_edgeRecord (F : FaceArray) (s t : Nat × Nat) :
    samePair (edgeRecord F s.1 s.2) (edgeRecord F t.1 t.2) = sameEdge (ends F t) (ends F s) := by
  rw [Bool.eq_iff_iff, samePair_eq]
  simp only [sameEdge, ends, edgeRecord, Bool.or_eq_true, Bool.and_eq_true, beq_iff_eq]
  generalize faceCoeff F s.1 s.2 = a
  generalize faceCoeff F s.1 ((s.2 + 1) % 3) = b
  generalize faceCoeff F t.1 t.2 = c
  generalize faceCoeff F t.1 ((t.2 + 1) % 3) = d
  split <;> split <;> simp only <;> omega

theorem count_sortedETT (F : FaceArray) (s : Nat × Nat) :
    (sortedETT F).countP (samePair (edgeRecord F s.1 s.2)) = useCount F (ends F s) := by
  unfold sortedETT useCount
  rw [(sortETT_perm _).countP_eq, buildETT_eq, List.countP_map]
  congr 1
  funext t
  exact samePair_edgeRecord F s t

theorem twoFold_of_manifold {F : FaceArray} (h : EdgeManifold F) : TwoFold (sortedETT F) := by
  intro r hr
  obtain ⟨s, hs, rfl⟩ := (mem_sortedETT F r).mp hr
  rw [count_sortedETT]
  exact h s hs

theorem sortedETT_sorted (F : FaceArray) : (sortedETT F).Pairwise keyLe :=
  sortETT_sorted _

theorem edgesOf_bounds (F : FaceArray) :
    ∀ e ∈ edgesOf F, ∀ r ∈ recsOf e, r.f < F.length ∧ r.i < 3 := by
  intro e he r hr
  have := sortedETT_bounds F r (plan_recs_mem he hr)
  exact ⟨this.1, this.2.1⟩

theorem edgesOf_uint {F : FaceArray} (h : InRange F) : (edgesOf F).length < UINT_MOD := by
  have h1 : ((edgesOf F).flatMap recsOf).length = 3 * F.length := by
    unfold edgesOf
    rw [plan_flatten, sortedETT_length]
  have h2 : (edgesOf F).length ≤ ((edgesOf F).flatMap recsOf).length := by
    rw [List.length_flatMap]
    generalize edgesOf F = es
    induction es with
    | nil => simp
    | cons e es ih =>
      simp only [List.map_cons, List.sum_cons, List.length_cons, Function.comp]
      have : 1 ≤ (recsOf e).length := by
        obtain ⟨r1, o⟩ := e
        cases o <;> simp [recsOf]
      simp only [Function.comp] at ih
      omega
  unfold InRange at h
  unfold UINT_MOD
  omega

/-! ## The builder in closed form -/

theorem countPass_eq {F : FaceArray} (hne : F ≠ []) (hr : InRange F) :
    countPass (sortedETT F) = .ok (1 + runBreaks (sortedETT F)) := by
  unfold countPass
  have h0 : 0 < (sortedETT F).length := List.length_pos.mpr (sortedETT_ne_nil hne)
  rw [countLoop_eq _ (sortedETT_uint hr) _ 0 1 h0 (by omega)]
  simp

theorem mergePass_eq_runPlan {F : FaceArray} (hr : InRange F) (En : Nat) :
    mergePass F (sortedETT F) En =
      runPlan ⟨0, Constant En 2 (-1), Constant F.length 3 (-1), Constant En 2 (-1)⟩
        (edgesOf F) := by
  unfold mergePass
  rw [mergeLoop_eq _ (sortedETT_uint hr) _ 0 _ (Nat.zero_le _) (by omega)]
  simp [edgesOf]

theorem mergePass_ok {F : FaceArray} (hr : InRange F) :
    mergePass F (sortedETT F) (edgesOf F).length =
      .ok ⟨(edgesOf F).length, (edgesOf F).map evRow,
        putAll (Constant F.length 3 (-1)) (writes 0 (edgesOf F)), (edgesOf F).map efRow⟩ := by
  rw [mergePass_eq_runPlan hr]
  have := runPlan_ok F.length (edgesOf F) [] [] (Constant F.length 3 (-1)) (edgesOf F).length
    rfl (Constant_rect _ _ _) (edgesOf_bounds F) (Nat.le_refl _)
  simpa [Constant] using this

theorem mergePass_overflow {F : FaceArray} (hr : InRange F) (En : Nat)
    (h : En < (edgesOf F).length) :
    mergePass F (sortedETT F) En = .error .outOfBounds := by
  rw [mergePass_eq_runPlan hr]
  have := runPlan_overflow F.length (edgesOf F) [] [] (Constant F.length 3 (-1)) En
    rfl (Constant_rect _ _ _) (edgesOf_bounds F) h
  simpa [Constant] using this

theorem fixupPass_ok {F : FaceArray} (hr : InRange F) :
    fixupPass F ((edgesOf F).map evRow) ((edgesOf F).map efRow) =
      .ok ((edgesOf F).map (fixedRow F)) := by
  unfold fixupPass
  have hf : ∀ e ∈ edgesOf F, e.1.f < F.length := fun e he =>
    (sortedETT_bounds F e.1 (plan_fst_mem he)).1
  have := fixLoop_eq F (edgesOf F) (edgesOf_uint hr) hf ((edgesOf F).length + 1) 0 [] rfl
    (Nat.zero_le _) (by omega)
  simpa using this

theorem GetTriEdgeAdjacency_unfold {R : Type} (V : MatrixXd R) (F : FaceArray) :
    GetTriEdgeAdjacency V F =
      (countPass (sortedETT F) >>= fun En =>
        mergePass F (sortedETT F) En >>= fun s =>
          fixupPass F s.EV s.EF >>= fun EF => pure ⟨s.EV, s.FE, EF⟩) := rfl

theorem ok_bind {α β : Type} (a : α) (f : α → Except Failure β) :
    (Except.ok a >>= f) = f a := rfl

theorem error_bind {α β : Type} (e : Failure) (f : α → Except Failure β) :
    (Except.error e >>= f) = Except.error e := rfl

/-- The builder on a non-empty edge-manifold face array. -/
theorem builder_manifold {R : Type} (V : MatrixXd R) {F : FaceArray} (hne : F ≠ [])
    (hr : InRange F) (hm : EdgeManifold F) :
    GetTriEdgeAdjacency V F =
      .ok ⟨(edgesOf F).map evRow, putAll (Constant F.length 3 (-1)) (writes 0 (edgesOf F)),
        (edgesOf F).map (fixedRow F)⟩ := by
  have hlen : (edgesOf F).length = 1 + runBreaks (sortedETT F) :=
    plan_length_manifold _ (twoFold_of_manifold hm) (sortedETT_ne_nil hne)
  rewrite [GetTriEdgeAdjacency_unfold, countPass_eq hne hr, ok_bind, ← hlen, mergePass_ok hr,
    ok_bind, fixupPass_ok hr, ok_bind]
  rfl

/-- The builder on a non-empty face array with a pair used three times or more. -/
theorem builder_overflow {R : Type} (V : MatrixXd R) {F : FaceArray} (hr : InRange F)
    (h3 : ∃ s ∈ slots F, 3 ≤ useCount F (ends F s)) :
    GetTriEdgeAdjacency V F = .error .outOfBounds := by
  obtain ⟨s, hs, h3⟩ := h3
  have hmem : edgeRecord F s.1 s.2 ∈ sortedETT F := (mem_sortedETT F _).mpr ⟨s, hs, rfl⟩
  have hne : F ≠ [] := by
    intro h0
    subst h0
    simp [slots] at hs
  have hlen : 1 + runBreaks (sortedETT F) < (edgesOf F).length :=
    plan_length_gt _ (sortedETT_sorted F) ⟨_, hmem, by rw [count_sortedETT]; exact h3⟩
  rewrite [GetTriEdgeAdjacency_unfold, countPass_eq hne hr, ok_bind,
    mergePass_overflow hr _ hlen, error_bind]
  rfl

/-! ## Lemmas: the cells of `FE` -/

theorem cell_putAll {n m : Nat} (W : List (Nat × Nat × Int)) :
    ∀ (M : MatrixXi), Rect n m M → (W.map fun w => (w.1, w.2.1)).Nodup →
      (∀ w ∈ W, w.1 < n ∧ w.2.1 < m) →
      (∀ w ∈ W, cell (putAll M W) w.1 w.2.1 = some w.2.2) ∧
      (∀ r c, (r, c) ∉ W.map (fun w => (w.1, w.2.1)) → cell (putAll M W) r c = cell M r c) := by
  induction W with
  | nil =>
    intro M _ _ _
    exact ⟨fun w hw => absurd hw (List.not_mem_nil _), fun r c _ => rfl⟩
  | cons w0 W ih =>
    intro M hM hnd hb
    rw [List.map_cons, List.nodup_cons] at hnd
    have hb0 := hb w0 (List.mem_cons_self _ _)
    obtain ⟨ih1, ih2⟩ := ih (put M w0.1 w0.2.1 w0.2.2) (put_rect hM _ _ _) hnd.2
      (fun w hw => hb w (List.mem_cons_of_mem _ hw))
    constructor
    · intro w hw
      rcases List.mem_cons.mp hw with hw | hw
      · subst hw
        show cell (putAll (put M w.1 w.2.1 w.2.2) W) w.1 w.2.1 = some w.2.2
        rw [ih2 _ _ hnd.1]
        exact cell_put_same hM _ hb0.1 hb0.2
      · exact ih1 w hw
    · intro r c hrc
      rw [List.map_cons, List.mem_cons, not_or] at hrc
      show cell (putAll (put M w0.1 w0.2.1 w0.2.2) W) r c = cell M r c
      rw [ih2 _ _ hrc.2]
      apply cell_put_other
      intro h
      exact hrc.1 (by rw [h.1, h.2])

theorem writes_slots (es : List (EdgeRec × Option EdgeRec)) : ∀ (k : Nat),
    (writes k es).map (fun w => (w.1, w.2.1)) =
      (es.flatMap recsOf).map (fun r => (r.f, r.i)) := by
  induction es with
  | nil => intro k; rfl
  | cons e es ih =>
    intro k
    simp only [writes, List.map_append, List.map_map, List.flatMap_cons, ih (k + 1)]
    rfl

theorem mem_writes (es : List (EdgeRec × Option EdgeRec)) : ∀ (k j : Nat)
    (e : EdgeRec × Option EdgeRec) (r : EdgeRec), es[j]? = some e → r ∈ recsOf e →
    (r.f, r.i, ((k + j : Nat) : Int)) ∈ writes k es := by
  induction es with
  | nil => intro k j e r h; simp at h
  | cons e0 es ih =>
    intro k j e r h hr
    simp only [writes, List.mem_append]
    cases j with
    | zero =>
      left
      simp only [List.getElem?_cons_zero, Option.some.injEq] at h
      subst h
      exact List.mem_map.mpr ⟨r, hr, rfl⟩
    | succ j =>
      right
      simp only [List.getElem?_cons_succ] at h
      have := ih (k + 1) j e r h hr
      have hk : k + 1 + j = k + (j + 1) := by omega
      rwa [hk] at this

theorem sortedETT_slots (F : FaceArray) :
    ((sortedETT F).map fun r => (r.f, r.i)).Perm (slots F) := by
  have h1 : ((sortedETT F).map fun r => (r.f, r.i)).Perm
      ((buildETT F).map fun r => (r.f, r.i)) := (sortETT_perm _).map _
  have h2 : ((buildETT F).map fun r => (r.f, r.i)) = slots F := by
    rw [buildETT_eq, List.map_map]
    conv_rhs => rw [← List.map_id (slots F)]
    apply List.map_congr_left
    intro s _
    have := edgeRecord_slot F s.1 s.2
    simp [this.1, this.2]
  rwa [h2] at h1

theorem sortedETT_nodup (F : FaceArray) : (sortedETT F).Nodup :=
  List.Nodup.of_map _ ((sortedETT_slots F).nodup_iff.mpr (slots_nodup F))

theorem finalFE_rect (F : FaceArray) : Rect F.length 3 (finalFE F) :=
  putAll_rect _ (Constant_rect _ _ _)

theorem finalFE_cell (F : FaceArray) (j : Nat) (e : EdgeRec × Option EdgeRec) (r : EdgeRec)
    (he : (edgesOf F)[j]? = some e) (hr : r ∈ recsOf e) :
    cell (finalFE F) r.f r.i = some (j : Int) := by
  have hnd : ((writes 0 (edgesOf F)).map fun w => (w.1, w.2.1)).Nodup := by
    rw [writes_slots]
    unfold edgesOf
    rw [plan_flatten]
    exact (sortedETT_slots F).nodup_iff.mpr (slots_nodup F)
  have hb : ∀ w ∈ writes 0 (edgesOf F), w.1 < F.length ∧ w.2.1 < 3 := by
    intro w hw
    have hw1 : (w.1, w.2.1) ∈ (writes 0 (edgesOf F)).map fun w => (w.1, w.2.1) :=
      List.mem_map.mpr ⟨w, hw, rfl⟩
    rw [writes_slots] at hw1
    unfold edgesOf at hw1
    rw [plan_flatten] at hw1
    exact (mem_slots F _).mp ((sortedETT_slots F).mem_iff.mp hw1)
  have h := (cell_putAll (writes 0 (edgesOf F)) _ (Constant_rect F.length 3 (-1)) hnd hb).1
    _ (mem_writes (edgesOf F) 0 j e r he hr)
  simpa [finalFE] using h

/-! ## Lemmas: which records a group holds -/

theorem later_differ {r1 r2 : EdgeRec} {rest : List EdgeRec}
    (hs : (r1 :: r2 :: rest).Pairwise keyLe) (h : ¬ samePair r1 r2 = true) :
    ∀ y ∈ r2 :: rest, ¬ samePair r1 y = true := by
  rw [List.pairwise_cons] at hs
  have h12 : keyLt r1 r2 := keyLt_of_le_of_ne (hs.1 _ (List.mem_cons_self _ _)) h
  have hp := hs.2
  rw [List.pairwise_cons] at hp
  intro y hy
  rcases List.mem_cons.mp hy with hy | hy
  · rw [hy]; exact h
  · exact keyLt_not_same (keyLt_of_lt_of_le h12 (hp.1 _ hy))

theorem plan_collects (l : List EdgeRec) (hs : l.Pairwise keyLe) (h2 : TwoFold l) :
    ∀ e ∈ plan l, ∀ x ∈ l, samePair e.1 x = true → x ∈ recsOf e := by
  induction l using plan.induct with
  | case1 => intro e he; simp [plan] at he
  | case2 r =>
    intro e he x hx _
    simp only [plan, List.mem_singleton] at he
    subst he
    simpa [recsOf] using hx
  | case3 r1 r2 rest h ih =>
    intro e he x hx hsame
    have hsub : rest.Sublist (r1 :: r2 :: rest) :=
      (List.sublist_cons_self _ _).trans (List.sublist_cons_self _ _)
    simp only [plan, h, if_true, List.mem_cons] at he
    rcases he with he | he
    · subst he
      simp only [recsOf, List.mem_cons, List.mem_singleton, List.not_mem_nil, or_false]
      rcases List.mem_cons.mp hx with hx | hx
      · exact Or.inl hx
      · rcases List.mem_cons.mp hx with hx | hx
        · exact Or.inr hx
        · exact absurd hsame (no_third h2 h x hx)
    · have hm := plan_fst_mem he
      have hn1 : ¬ samePair r1 e.1 = true := no_third h2 h _ hm
      rcases List.mem_cons.mp hx with hx | hx
      · subst hx
        exact absurd (samePair_symm hsame) hn1
      · rcases List.mem_cons.mp hx with hx | hx
        · subst hx
          exact absurd (samePair_trans h (samePair_symm hsame)) hn1
        · exact ih (hs.sublist hsub) (TwoFold_sublist hsub h2) e he x hx hsame
  | case4 r1 r2 rest h ih =>
    intro e he x hx hsame
    have hone := later_differ hs h
    have hsub : (r2 :: rest).Sublist (r1 :: r2 :: rest) := List.sublist_cons_self _ _
    simp only [plan, h, Bool.false_eq_true, if_false, List.mem_cons] at he
    rcases he with he | he
    · subst he
      simp only [recsOf, List.mem_singleton]
      rcases List.mem_cons.mp hx with hx | hx
      · exact hx
      · exact absurd hsame (hone x hx)
    · have hm := plan_fst_mem he
      rcases List.mem_cons.mp hx with hx | hx
      · subst hx
        exact absurd (samePair_symm hsame) (hone _ hm)
      · exact ih (hs.sublist hsub) (TwoFold_sublist hsub h2) e he x hx hsame

theorem plan_count (l : List EdgeRec) (hs : l.Pairwise keyLe) (h2 : TwoFold l) :
    ∀ e ∈ plan l, l.countP (samePair e.1) = (recsOf e).length := by
  induction l using plan.induct with
  | case1 => intro e he; simp [plan] at he
  | case2 r =>
    intro e he
    simp only [plan, List.mem_singleton] at he
    subst he
    simp [recsOf, List.countP_cons, samePair_refl]
  | case3 r1 r2 rest h ih =>
    intro e he
    have hsub : rest.Sublist (r1 :: r2 :: rest) :=
      (List.sublist_cons_self _ _).trans (List.sublist_cons_self _ _)
    simp only [plan, h, if_true, List.mem_cons] at he
    rcases he with he | he
    · subst he
      simp [recsOf, List.countP_cons, samePair_refl, h,
        countP_eq_zero_of_forall (no_third h2 h)]
    · have hm := plan_fst_mem he
      have hn1 : ¬ samePair r1 e.1 = true := no_third h2 h _ hm
      have hn1' : ¬ samePair e.1 r1 = true := fun hh => hn1 (samePair_symm hh)
      have hn2' : ¬ samePair e.1 r2 = true := fun hh =>
        hn1 (samePair_trans h (samePair_symm hh))
      rw [← ih (hs.sublist hsub) (TwoFold_sublist hsub h2) e he]
      simp [List.countP_cons, hn1', hn2']
  | case4 r1 r2 rest h ih =>
    intro e he
    have hone := later_differ hs h
    have hsub : (r2 :: rest).Sublist (r1 :: r2 :: rest) := List.sublist_cons_self _ _
    simp only [plan, h, Bool.false_eq_true, if_false, List.mem_cons] at he
    rcases he with he | he
    · subst he
      rw [List.countP_cons, countP_eq_zero_of_forall hone]
      simp [recsOf, samePair_refl]
    · have hm := plan_fst_mem he
      have hn1' : ¬ samePair e.1 r1 = true := fun hh => hone _ hm (samePair_symm hh)
      rw [← ih (hs.sublist hsub) (TwoFold_sublist hsub h2) e he, List.countP_cons]
      simp [hn1']

theorem recsOf_same {l : List EdgeRec} {e : EdgeRec × Option EdgeRec} {r : EdgeRec}
    (he : e ∈ plan l) (hr : r ∈ recsOf e) : samePair e.1 r = true := by
  obtain ⟨r1, o⟩ := e
  cases o with
  | none =>
    simp only [recsOf, List.mem_singleton] at hr
    subst hr
    exact samePair_refl _
  | some r2 =>
    simp only [recsOf, List.mem_cons, List.mem_singleton, List.not_mem_nil, or_false] at hr
    rcases hr with hr | hr
    · subst hr
      exact samePair_refl _
    · subst hr
      exact plan_snd_same l _ he _ rfl

theorem count_of_pairwise_lt (l : List EdgeRec) (hs : l.Pairwise (fun a b => keyLt a b)) :
    ∀ r ∈ l, l.countP (samePair r) = 1 := by
  induction l with
  | nil => intro r hr; simp at hr
  | cons a l ih =>
    intro r hr
    rw [List.pairwise_cons] at hs
    rw [List.countP_cons]
    rcases List.mem_cons.mp hr with hr | hr
    · subst hr
      rw [countP_eq_zero_of_forall (fun x hx => keyLt_not_same (hs.1 x hx))]
      simp [samePair_refl]
    · rw [ih hs.2 r hr]
      have : ¬ samePair r a = true := fun hh => keyLt_not_same (hs.1 r hr) (samePair_symm hh)
      simp [this]

/-! ## Lemmas: from slots to edges -/

theorem edgeRecord_key (F : FaceArray) (f k : Nat) :
    (edgeRecord F f k).v1 = min (faceCoeff F f k) (faceCoeff F f ((k + 1) % 3)) ∧
    (edgeRecord F f k).v2 = max (faceCoeff F f k) (faceCoeff F f ((k + 1) % 3)) := by
  unfold edgeRecord
  simp only
  split <;> constructor <;> simp only <;> omega

theorem mem_edgesOf_index {F : FaceArray} {e : EdgeRec × Option EdgeRec} (he : e ∈ edgesOf F) :
    ∃ j : Nat, (edgesOf F)[j]? = some e := by
  obtain ⟨j, hj, hje⟩ := List.mem_iff_getElem.mp he
  exact ⟨j, by rw [List.getElem?_eq_getElem hj, hje]⟩

theorem index_mem_edgesOf {F : FaceArray} {e : EdgeRec × Option EdgeRec} {j : Nat}
    (he : (edgesOf F)[j]? = some e) : e ∈ edgesOf F ∧ j < (edgesOf F).length := by
  obtain ⟨hj, hje⟩ := List.getElem?_eq_some.mp he
  exact ⟨hje ▸ List.getElem_mem hj, hj⟩

theorem slot_edge (F : FaceArray) {f k : Nat} (hf : f < F.length) (hk : k < 3) :
    ∃ (j : Nat) (e : EdgeRec × Option EdgeRec),
      (edgesOf F)[j]? = some e ∧ edgeRecord F f k ∈ recsOf e ∧
      cell (finalFE F) f k = some (j : Int) := by
  have hmem := edgeRecord_mem F hf hk
  have hfl : edgeRecord F f k ∈ (edgesOf F).flatMap recsOf := by
    unfold edgesOf
    rwa [plan_flatten]
  obtain ⟨e, he, hr⟩ := List.mem_flatMap.mp hfl
  obtain ⟨j, hj⟩ := mem_edgesOf_index he
  refine ⟨j, e, hj, hr, ?_⟩
  have := finalFE_cell F j e _ hj hr
  rwa [(edgeRecord_slot F f k).1, (edgeRecord_slot F f k).2] at this

theorem evRow_of_rec {F : FaceArray} {e : EdgeRec × Option EdgeRec} {r : EdgeRec}
    (he : e ∈ edgesOf F) (hr : r ∈ recsOf e) : evRow e = [r.v1, r.v2] := by
  have := (samePair_eq _ _).mp (recsOf_same he hr)
  simp [evRow, this.1, this.2]

theorem builder_empty {R : Type} (V : MatrixXd R) :
    GetTriEdgeAdjacency V [] = .error .outOfBounds := rfl

theorem sortedETT_ordered (F : FaceArray) (r : EdgeRec) (hr : r ∈ sortedETT F) :
    r.v1 ≤ r.v2 := by
  obtain ⟨s, _, rfl⟩ := (mem_sortedETT F r).mp hr
  have := edgeRecord_key F s.1 s.2
  omega

theorem sameEdge_congr {p q : Int × Int} (h : sameEdge p q = true) (x : Int × Int) :
    sameEdge x p = sameEdge x q := by
  obtain ⟨p1, p2⟩ := p
  obtain ⟨q1, q2⟩ := q
  obtain ⟨x1, x2⟩ := x
  rw [Bool.eq_iff_iff]
  simp only [sameEdge, Bool.or_eq_true, Bool.and_eq_true, beq_iff_eq] at *
  omega

theorem useCount_congr (F : FaceArray) {p q : Int × Int} (h : sameEdge p q = true) :
    useCount F p = useCount F q := by
  unfold useCount
  congr 1
  funext s
  exact sameEdge_congr h _

theorem samePair_of_sameEdge (F : FaceArray) (r : EdgeRec) (f k : Nat) (hle : r.v1 ≤ r.v2)
    (h : sameEdge (ends F (f, k)) (r.v1, r.v2) = true) :
    samePair r (edgeRecord F f k) = true := by
  rw [samePair_eq, (edgeRecord_key F f k).1, (edgeRecord_key F f k).2]
  simp only [sameEdge, ends, Bool.or_eq_true, Bool.and_eq_true, beq_iff_eq] at h
  omega

theorem edge_at_row {F : FaceArray} {e : Nat} {a b : Int}
    (h : ((edgesOf F).map evRow)[e]? = some [a, b]) :
    ∃ ed, (edgesOf F)[e]? = some ed ∧ ed.1.v1 = a ∧ ed.1.v2 = b := by
  rw [List.getElem?_map] at h
  cases hed : (edgesOf F)[e]? with
  | none => rw [hed] at h; simp at h
  | some ed =>
    rw [hed] at h
    simp only [Option.map_some', Option.some.injEq, evRow, List.cons.injEq, and_true] at h
    exact ⟨ed, rfl, h.1, h.2⟩

theorem fixedRow_at_row (F : FaceArray) {e : Nat} {ed : EdgeRec × Option EdgeRec}
    (h : (edgesOf F)[e]? = some ed) :
    ((edgesOf F).map (fixedRow F))[e]? = some (fixedRow F ed) := by
  rw [List.getElem?_map, h]
  rfl

theorem traverses_iff (t : Face) (a b : Int) :
    traverses t a b = true ↔ ∃ k, k < 3 ∧ corner t k = a ∧ corner t ((k + 1) % 3) = b := by
  simp only [traverses, Bool.or_eq_true, Bool.and_eq_true, beq_iff_eq]
  constructor
  · rintro ((h | h) | h)
    · exact ⟨0, by decide, h.1, h.2⟩
    · exact ⟨1, by decide, h.1, h.2⟩
    · exact ⟨2, by decide, h.1, h.2⟩
  · rintro ⟨k, hk, h1, h2⟩
    have : k = 0 ∨ k = 1 ∨ k = 2 := by omega
    rcases this with rfl | rfl | rfl
    · exact Or.inl (Or.inl ⟨h1, h2⟩)
    · exact Or.inl (Or.inr ⟨h1, h2⟩)
    · exact Or.inr ⟨h1, h2⟩

/-- The group at row `e` holds the record of every slot whose undirected pair is the
row of `EV`. -/
theorem slot_in_group {F : FaceArray} (hm : EdgeManifold F) {e : Nat}
    {ed : EdgeRec × Option EdgeRec} (hed : (edgesOf F)[e]? = some ed) {f k : Nat}
    (hf : f < F.length) (hk : k < 3)
    (hs : sameEdge (ends F (f, k)) (ed.1.v1, ed.1.v2) = true) :
    edgeRecord F f k ∈ recsOf ed := by
  have he := (index_mem_edgesOf hed).1
  have hle := sortedETT_ordered F _ (plan_fst_mem he)
  exact plan_collects _ (sortedETT_sorted F) (twoFold_of_manifold hm) ed he _
    (edgeRecord_mem F hf hk) (samePair_of_sameEdge F ed.1 f k hle hs)

/-- The number of records in the group at a row is the use count of its pair. -/
theorem group_size {F : FaceArray} (hm : EdgeManifold F) {ed : EdgeRec × Option EdgeRec}
    (he : ed ∈ edgesOf F) : (recsOf ed).length = useCount F (ed.1.v1, ed.1.v2) := by
  rw [← plan_count _ (sortedETT_sorted F) (twoFold_of_manifold hm) ed he]
  obtain ⟨s, hs, hrec⟩ := (mem_sortedETT F _).mp (plan_fst_mem he)
  have hk := edgeRecord_key F s.1 s.2
  rw [hrec, count_sortedETT]
  apply useCount_congr
  simp only [sameEdge, ends, Bool.or_eq_true, Bool.and_eq_true, beq_iff_eq]
  rw [hk.1, hk.2]
  omega

theorem sameEdge_of_samePair (F : FaceArray) (r : EdgeRec) (f k : Nat)
    (h : samePair r (edgeRecord F f k) = true) :
    sameEdge (ends F (f, k)) (r.v1, r.v2) = true := by
  rw [samePair_eq, (edgeRecord_key F f k).1, (edgeRecord_key F f k).2] at h
  simp only [sameEdge, ends, Bool.or_eq_true, Bool.and_eq_true, beq_iff_eq]
  omega

/-- The faces of the records of the group at a row are the faces that have a slot
with the pair of the row. -/
theorem group_faces {F : FaceArray} (hm : EdgeManifold F) {e : Nat}
    {ed : EdgeRec × Option EdgeRec} (hed : (edgesOf F)[e]? = some ed) (g : Nat) :
    (∃ r ∈ recsOf ed, r.f = g) ↔
      (g < F.length ∧ ∃ k, k < 3 ∧ sameEdge (ends F (g, k)) (ed.1.v1, ed.1.v2) = true) := by
  have he := (index_mem_edgesOf hed).1
  constructor
  · rintro ⟨r, hr, rfl⟩
    have hb := sortedETT_bounds F r (plan_recs_mem he hr)
    refine ⟨hb.1, r.i, hb.2.1, ?_⟩
    apply sameEdge_of_samePair
    rw [← hb.2.2]
    exact recsOf_same he hr
  · rintro ⟨hg, k, hk, hs⟩
    exact ⟨_, slot_in_group hm hed hg hk hs, (edgeRecord_slot F g k).1⟩

theorem fixedRow_entries (F : FaceArray) (ed : EdgeRec × Option EdgeRec) :
    ∃ x y : Int, fixedRow F ed = [x, y] ∧ -1 ≤ x ∧ -1 ≤ y ∧
      (∀ g : Nat, (x = (g : Int) ∨ y = (g : Int)) ↔ ∃ r ∈ recsOf ed, r.f = g) ∧
      ((x ≠ -1 ∧ y ≠ -1) ↔ (recsOf ed).length = 2) := by
  obtain ⟨r1, o⟩ := ed
  cases o with
  | none =>
    cases ht : traverses (F.getD r1.f (0, 0, 0)) r1.v1 r1.v2 with
    | true =>
      refine ⟨r1.f, -1, by simp only [fixedRow, ht, efRow, if_true], by omega, by omega, ?_, ?_⟩
      · intro g
        simp only [recsOf, List.mem_singleton, exists_eq_left]
        omega
      · simp [recsOf]
    | false =>
      refine ⟨-1, r1.f, by simp only [fixedRow, ht, efRow, Bool.false_eq_true, if_false]; rfl,
        by omega, by omega, ?_, ?_⟩
      · intro g
        simp only [recsOf, List.mem_singleton, exists_eq_left]
        omega
      · simp [recsOf]
  | some r2 =>
    cases ht : traverses (F.getD r1.f (0, 0, 0)) r1.v1 r1.v2 with
    | true =>
      refine ⟨r1.f, r2.f, by simp only [fixedRow, ht, efRow, if_true], by omega, by omega, ?_, ?_⟩
      · intro g
        simp only [recsOf, List.mem_cons, List.mem_singleton, List.not_mem_nil, or_false,
          exists_eq_or_imp, exists_eq_left]
        omega
      · simp only [recsOf, List.length_cons, List.length_nil]
        exact ⟨fun _ => trivial, fun _ => ⟨by omega, by omega⟩⟩
    | false =>
      refine ⟨r2.f, r1.f, by simp only [fixedRow, ht, efRow, Bool.false_eq_true, if_false]; rfl,
        by omega, by omega, ?_, ?_⟩
      · intro g
        simp only [recsOf, List.mem_cons, List.mem_singleton, List.not_mem_nil, or_false,
          exists_eq_or_imp, exists_eq_left]
        omega
      · simp only [recsOf, List.length_cons, List.length_nil]
        exact ⟨fun _ => trivial, fun _ => ⟨by omega, by omega⟩⟩

theorem edgesOf_distinct {F : FaceArray} (hm : EdgeManifold F) :
    (edgesOf F).length = distinctPairs F := by
  have hstrict := plan_strict _ (sortedETT_sorted F) (twoFold_of_manifold hm)
  have hnd : ((edgesOf F).map fun e => key e.1).Nodup := by
    unfold edgesOf
    refine List.Pairwise.map _ ?_ hstrict
    intro a b hab heq
    apply keyLt_not_same hab
    rw [samePair_eq]
    simp only [key, Prod.mk.injEq] at heq
    exact heq
  have hkeys : (buildETT F).map key = (slots F).map fun s => undirected (ends F s) := by
    rw [buildETT_eq, List.map_map]
    apply List.map_congr_left
    intro s _
    have := edgeRecord_key F s.1 s.2
    simp [key, undirected, ends, this.1, this.2]
  have hperm : ((sortedETT F).map key).dedup.Perm
      ((slots F).map fun s => undirected (ends F s)).dedup := by
    rw [← hkeys]
    exact ((sortETT_perm _).map key).dedup
  have hsame : ((edgesOf F).map fun e => key e.1).Perm ((sortedETT F).map key).dedup := by
    rw [List.perm_ext_iff_of_nodup hnd (List.nodup_dedup _)]
    intro p
    rw [List.mem_dedup, List.mem_map, List.mem_map]
    constructor
    · rintro ⟨e, he, rfl⟩
      exact ⟨e.1, plan_fst_mem he, rfl⟩
    · rintro ⟨r, hr, rfl⟩
      have hfl : r ∈ (edgesOf F).flatMap recsOf := by
        unfold edgesOf
        rwa [plan_flatten]
      obtain ⟨e, he, hre⟩ := List.mem_flatMap.mp hfl
      exact ⟨e, he, (samePair_iff _ _).mp (recsOf_same he hre)⟩
  have h := (hsame.trans hperm).length_eq
  rw [List.length_map] at h
  exact h

theorem flatMap_pairs_length (es : List (EdgeRec × Option EdgeRec))
    (h : ∀ e ∈ es, (recsOf e).length = 2) : (es.flatMap recsOf).length = 2 * es.length := by
  induction es with
  | nil => rfl
  | cons e es ih =>
    rw [List.flatMap_cons, List.length_append, h e (List.mem_cons_self _ _),
      ih (fun e1 h1 => h e1 (List.mem_cons_of_mem _ h1)), List.length_cons]
    omega

theorem manifold_of_closed {F : FaceArray} (h : ClosedManifold F) : EdgeManifold F :=
  fun s hs => Nat.le_of_eq (h s hs)

theorem closed_group_size {F : FaceArray} (hc : ClosedManifold F)
    {ed : EdgeRec × Option EdgeRec} (he : ed ∈ edgesOf F) : (recsOf ed).length = 2 := by
  rw [← plan_count _ (sortedETT_sorted F) (twoFold_of_manifold (manifold_of_closed hc)) ed he]
  obtain ⟨s, hs, hrec⟩ := (mem_sortedETT F _).mp (plan_fst_mem he)
  rw [hrec, count_sortedETT]
  exact hc s hs

theorem useCount_le_one {F : FaceArray}
    (h : ∀ r ∈ sortedETT F, (sortedETT F).countP (samePair r) = 1) (p : Int × Int) :
    useCount F p ≤ 1 := by
  by_cases hp : ∃ s ∈ slots F, sameEdge (ends F s) p = true
  · obtain ⟨s, hs, hsp⟩ := hp
    rw [← useCount_congr F hsp, ← count_sortedETT]
    exact Nat.le_of_eq (h _ ((mem_sortedETT F _).mpr ⟨s, hs, rfl⟩))
  · have : useCount F p = 0 := by
      unfold useCount
      rw [List.countP_eq_zero]
      intro s hs hsp
      exact hp ⟨s, hs, hsp⟩
    omega

/-! ## The verified statements -/

/-- C1: on a non-empty edge-manifold face array the builder returns, and for every
face `f` and slot `k` the entry `FE[f][k]` is an edge ID `e` with
`0 <= e < rows(EV)` (never -1) whose row `EV[e]` is the pair
`(min, max)` of `F[f][k]` and `F[f][(k+1) mod 3]`. -/
theorem C1_face_edge_valid {R : Type} (V : MatrixXd R) (F : FaceArray) (hne : F ≠ [])
    (hr : InRange F) (hm : EdgeManifold F) :
    ∃ A, GetTriEdgeAdjacency V F = .ok A ∧
      ∀ f k, f < F.length → k < 3 →
        ∃ e : Nat, e < A.EV.length ∧ cell A.FE f k = some (e : Int) ∧ (e : Int) ≠ -1 ∧
          A.EV[e]? = some [min (faceCoeff F f k) (faceCoeff F f ((k + 1) % 3)),
            max (faceCoeff F f k) (faceCoeff F f ((k + 1) % 3))] := by
  refine ⟨_, builder_manifold V hne hr hm, ?_⟩
  intro f k hf hk
  obtain ⟨j, e, hj, hrec, hcell⟩ := slot_edge F hf hk
  obtain ⟨he, hjlt⟩ := index_mem_edgesOf hj
  refine ⟨j, by simpa using hjlt, hcell, by omega, ?_⟩
  simp only [List.getElem?_map, hj, Option.map_some']
  rw [evRow_of_rec he hrec, (edgeRecord_key F f k).1, (edgeRecord_key F f k).2]

/-- Witness of C1 on the single triangle `(0, 1, 2)`. -/
theorem C1_face_edge_valid_witness :
    ∃ A, GetTriEdgeAdjacency ([] : MatrixXd Int) [(0, 1, 2)] = .ok A ∧
      ∀ f k, f < [((0 : Int), (1 : Int), (2 : Int))].length → k < 3 →
        ∃ e : Nat, e < A.EV.length ∧ cell A.FE f k = some (e : Int) ∧ (e : Int) ≠ -1 ∧
          A.EV[e]? = some [min (faceCoeff [(0, 1, 2)] f k) (faceCoeff [(0, 1, 2)] f ((k + 1) % 3)),
            max (faceCoeff [(0, 1, 2)] f k) (faceCoeff [(0, 1, 2)] f ((k + 1) % 3))] :=
  C1_face_edge_valid [] [(0, 1, 2)] (by decide) (by decide) (by decide)

/-- C6: on a face array with 0 rows the builder does not return empty matrices:
the counting pre-pass evaluates `ETT.size() - 1` on an empty vector, which wraps to
`2 ^ 64 - 1`, and reads `ETT[0]` outside the vector. -/
theorem C6_empty_mesh_reads_outside {R : Type} (V : MatrixXd R) :
    GetTriEdgeAdjacency V [] = .error .outOfBounds ∧
      GetTriEdgeAdjacency V [] ≠ .ok ⟨[], [], []⟩ := by
  rw [builder_empty]
  exact ⟨rfl, fun h => by cases h⟩

/-- C2 (counterexample): on the single triangle `(0, 1, 2)` the builder returns 3
edges, and the boundary edge `(0, 2)`, used by one slot only, has
`EF[1] = (-1, 0)`, not `(0, -1)`. -/
theorem C2_single_triangle_counterexample :
    GetTriEdgeAdjacency ([] : MatrixXd Int) [(0, 1, 2)] =
        .ok ⟨[[0, 1], [0, 2], [1, 2]], [[0, 2, 1]], [[0, -1], [-1, 0], [0, -1]]⟩ ∧
      useCount [(0, 1, 2)] (0, 2) = 1 :=
  ⟨rfl, by decide⟩

/-- C2 (amended): on a non-empty edge-manifold face array, a boundary edge `e`, whose
pair `EV[e]` is used by exactly one face slot, of face `f`, has `EF[e] = (f, -1)`
when `f` has a slot running from `EV[e][0]` to `EV[e][1]`, and `EF[e] = (-1, f)`
otherwise. -/
theorem C2_boundary_edge_row {R : Type} (V : MatrixXd R) (F : FaceArray) (hne : F ≠ [])
    (hr : InRange F) (hm : EdgeManifold F) :
    ∃ A, GetTriEdgeAdjacency V F = .ok A ∧
      ∀ (e : Nat) (a b : Int) (f k : Nat), A.EV[e]? = some [a, b] → f < F.length → k < 3 →
        sameEdge (ends F (f, k)) (a, b) = true → useCount F (a, b) = 1 →
        A.EF[e]? = some (if traverses (F.getD f (0, 0, 0)) a b = true then [(f : Int), -1]
          else [-1, (f : Int)]) := by
  refine ⟨_, builder_manifold V hne hr hm, ?_⟩
  intro e a b f k hEV hf hk hs hcount
  obtain ⟨ed, hed, h1, h2⟩ := edge_at_row hEV
  have he := (index_mem_edgesOf hed).1
  have hsize := group_size hm he
  rw [h1, h2, hcount] at hsize
  have hrec : edgeRecord F f k ∈ recsOf ed := slot_in_group hm hed hf hk (by rw [h1, h2]; exact hs)
  simp only
  rw [fixedRow_at_row F hed]
  obtain ⟨r1, o⟩ := ed
  cases o with
  | some r2 => simp [recsOf] at hsize
  | none =>
    simp only [recsOf, List.mem_singleton] at hrec
    simp only at h1 h2
    have hf1 : r1.f = f := by rw [← hrec]; exact (edgeRecord_slot F f k).1
    simp only [fixedRow, efRow, h1, h2, hf1]
    split <;> rfl

/-- Witness of C2 (amended) on the single triangle `(0, 1, 2)`. -/
theorem C2_boundary_edge_row_witness :
    ∃ A, GetTriEdgeAdjacency ([] : MatrixXd Int) [(0, 1, 2)] = .ok A ∧
      ∀ (e : Nat) (a b : Int) (f k : Nat), A.EV[e]? = some [a, b] →
        f < [((0 : Int), (1 : Int), (2 : Int))].length → k < 3 →
        sameEdge (ends [(0, 1, 2)] (f, k)) (a, b) = true → useCount [(0, 1, 2)] (a, b) = 1 →
        A.EF[e]? = some (if traverses ([(0, 1, 2)].getD f (0, 0, 0)) a b = true
          then [(f : Int), -1] else [-1, (f : Int)]) :=
  C2_boundary_edge_row [] [(0, 1, 2)] (by decide) (by decide) (by decide)

/-- C3 (counterexample): on the single triangle `(0, 1, 2)` the edge with ID 1 has
`EF[1][0] = -1`, which is not a face ID. -/
theorem C3_left_face_counterexample :
    ∃ A, GetTriEdgeAdjacency ([] : MatrixXd Int) [(0, 1, 2)] = .ok A ∧
      A.EV[1]? = some [0, 2] ∧ cell A.EF 1 0 = some (-1) :=
  ⟨_, rfl, rfl, rfl⟩

/-- C3 (amended): on a non-empty edge-manifold face array, for every edge `e` such
that some face has a slot running from `EV[e][0]` to `EV[e][1]`, the entry
`EF[e][0]` is a face ID `f` (not -1) and `f` has a slot `k` with
`F[f][k] = EV[e][0]` and `F[f][(k+1) mod 3] = EV[e][1]`. -/
theorem C3_left_face_orientation {R : Type} (V : MatrixXd R) (F : FaceArray) (hne : F ≠ [])
    (hr : InRange F) (hm : EdgeManifold F) :
    ∃ A, GetTriEdgeAdjacency V F = .ok A ∧
      ∀ (e : Nat) (a b : Int), A.EV[e]? = some [a, b] →
        (∃ g k, g < F.length ∧ k < 3 ∧ ends F (g, k) = (a, b)) →
        ∃ f : Nat, f < F.length ∧ cell A.EF e 0 = some (f : Int) ∧ (f : Int) ≠ -1 ∧
          ∃ k, k < 3 ∧ faceCoeff F f k = a ∧ faceCoeff F f ((k + 1) % 3) = b := by
  refine ⟨_, builder_manifold V hne hr hm, ?_⟩
  rintro e a b hEV ⟨g, k, hg, hk, hends⟩
  obtain ⟨ed, hed, h1, h2⟩ := edge_at_row hEV
  have he := (index_mem_edgesOf hed).1
  have hrec : edgeRecord F g k ∈ recsOf ed := by
    apply slot_in_group hm hed hg hk
    rw [h1, h2, hends]
    simp [sameEdge]
  have hslot : traverses (F.getD g (0, 0, 0)) a b = true := by
    rw [traverses_iff]
    simp only [ends, Prod.mk.injEq] at hends
    exact ⟨k, hk, hends.1, hends.2⟩
  have hb1 := sortedETT_bounds F _ (plan_fst_mem he)
  simp only [cell]
  rw [fixedRow_at_row F hed]
  simp only
  cases ht : traverses (F.getD ed.1.f (0, 0, 0)) ed.1.v1 ed.1.v2 with
  | true =>
    refine ⟨ed.1.f, hb1.1, ?_, by omega, ?_⟩
    · simp only [fixedRow, ht, if_true]
      exact efRow_zero ed
    · rw [h1, h2] at ht
      exact (traverses_iff _ _ _).mp ht
  | false =>
    obtain ⟨r1, o⟩ := ed
    simp only at h1 h2 ht
    have hg1 : (edgeRecord F g k).f = g := (edgeRecord_slot F g k).1
    cases o with
    | none =>
      simp only [recsOf, List.mem_singleton] at hrec
      subst hrec
      rw [hg1, h1, h2, hslot] at ht
      exact absurd ht (by decide)
    | some r2 =>
      simp only [recsOf, List.mem_cons, List.mem_singleton, List.not_mem_nil, or_false] at hrec
      rcases hrec with hrec | hrec
      · subst hrec
        rw [hg1, h1, h2, hslot] at ht
        exact absurd ht (by decide)
      · refine ⟨g, hg, ?_, by omega, (traverses_iff _ _ _).mp hslot⟩
        simp only [fixedRow, ht, Bool.false_eq_true, if_false, efRow]
        rw [← hrec, hg1]
        rfl

/-- Witness of C3 (amended) on the single triangle `(0, 1, 2)`. -/
theorem C3_left_face_orientation_witness :
    ∃ A, GetTriEdgeAdjacency ([] : MatrixXd Int) [(0, 1, 2)] = .ok A ∧
      ∀ (e : Nat) (a b : Int), A.EV[e]? = some [a, b] →
        (∃ g k, g < [((0 : Int), (1 : Int), (2 : Int))].length ∧ k < 3 ∧
          ends [(0, 1, 2)] (g, k) = (a, b)) →
        ∃ f : Nat, f < [((0 : Int), (1 : Int), (2 : Int))].length ∧
          cell A.EF e 0 = some (f : Int) ∧ (f : Int) ≠ -1 ∧
          ∃ k, k < 3 ∧ faceCoeff [(0, 1, 2)] f k = a ∧
            faceCoeff [(0, 1, 2)] f ((k + 1) % 3) = b :=
  C3_left_face_orientation [] [(0, 1, 2)] (by decide) (by decide) (by decide)

/-- C4: on a closed edge-manifold triangle mesh (non-empty, every pair that occurs
used by exactly two face slots) the builder returns `EF` with both columns
different from -1 in every row, `FE` with no -1 entry, and
`2 * rows(EV) = 3 * rows(F)`. -/
theorem C4_closed_mesh {R : Type} (V : MatrixXd R) (F : FaceArray) (hne : F ≠ [])
    (hr : InRange F) (hc : ClosedManifold F) :
    ∃ A, GetTriEdgeAdjacency V F = .ok A ∧
      (∀ e, e < A.EF.length → ∃ x y : Int, A.EF[e]? = some [x, y] ∧ x ≠ -1 ∧ y ≠ -1) ∧
      A.FE.length = F.length ∧
      (∀ f k, f < F.length → k < 3 → ∃ v : Int, cell A.FE f k = some v ∧ v ≠ -1) ∧
      A.EF.length = A.EV.length ∧ 2 * A.EV.length = 3 * F.length := by
  have hm := manifold_of_closed hc
  refine ⟨_, builder_manifold V hne hr hm, ?_, (finalFE_rect F).1, ?_, by simp, ?_⟩
  · intro e he
    simp only [List.length_map] at he
    have hed : (edgesOf F)[e]? = some (edgesOf F)[e] := List.getElem?_eq_getElem he
    obtain ⟨x, y, hrow, _, _, _, hxy⟩ := fixedRow_entries F (edgesOf F)[e]
    refine ⟨x, y, ?_, hxy.mpr (closed_group_size hc (List.getElem_mem he))⟩
    simp only
    rw [fixedRow_at_row F hed, hrow]
  · intro f k hf hk
    obtain ⟨j, e, _, _, hcell⟩ := slot_edge F hf hk
    exact ⟨j, hcell, by omega⟩
  · simp only [List.length_map]
    have h1 : ((edgesOf F).flatMap recsOf).length = 3 * F.length := by
      unfold edgesOf
      rw [plan_flatten, sortedETT_length]
    rw [flatMap_pairs_length _ (fun e he => closed_group_size hc he)] at h1
    exact h1

/-- Witness of C4 on the tetrahedron: 4 faces give exactly 6 edges. -/
theorem C4_closed_mesh_witness :
    GetTriEdgeAdjacency ([] : MatrixXd Int) [(0, 1, 2), (0, 3, 1), (1, 3, 2), (0, 2, 3)] =
        .ok ⟨[[0, 1], [0, 2], [0, 3], [1, 2], [1, 3], [2, 3]],
          [[0, 3, 1], [2, 4, 0], [4, 5, 3], [1, 5, 2]],
          [[0, 1], [3, 0], [1, 3], [0, 2], [2, 1], [3, 2]]⟩ ∧
    ∃ A, GetTriEdgeAdjacency ([] : MatrixXd Int) [(0, 1, 2), (0, 3, 1), (1, 3, 2), (0, 2, 3)] =
        .ok A ∧
      (∀ e, e < A.EF.length → ∃ x y : Int, A.EF[e]? = some [x, y] ∧ x ≠ -1 ∧ y ≠ -1) ∧
      A.FE.length = [((0 : Int), (1 : Int), (2 : Int)), (0, 3, 1), (1, 3, 2), (0, 2, 3)].length ∧
      (∀ f k, f < [((0 : Int), (1 : Int), (2 : Int)), (0, 3, 1), (1, 3, 2), (0, 2, 3)].length →
        k < 3 → ∃ v : Int, cell A.FE f k = some v ∧ v ≠ -1) ∧
      A.EF.length = A.EV.length ∧
      2 * A.EV.length = 3 * [((0 : Int), (1 : Int), (2 : Int)), (0, 3, 1), (1, 3, 2),
        (0, 2, 3)].length :=
  ⟨rfl, C4_closed_mesh [] [(0, 1, 2), (0, 3, 1), (1, 3, 2), (0, 2, 3)]
    (by decide) (by decide) (by decide)⟩

/-- C5 (counterexample): on three triangles that all share the edge `(0, 1)` the run
ends in an access outside the allocated rows, not in a not-edge-manifold failure. -/
theorem C5_three_fan_counterexample :
    3 ≤ useCount [(0, 1, 2), (0, 1, 3), (0, 1, 4)] (0, 1) ∧
      GetTriEdgeAdjacency ([] : MatrixXd Int) [(0, 1, 2), (0, 1, 3), (0, 1, 4)] =
        .error .outOfBounds ∧
      GetTriEdgeAdjacency ([] : MatrixXd Int) [(0, 1, 2), (0, 1, 3), (0, 1, 4)] ≠
        .error .notEdgeManifold :=
  ⟨by decide, rfl, fun h => by cases h⟩

/-- C5 (amended): on a face array in which some undirected pair is used by three or
more face slots the builder signals no not-edge-manifold failure. -/
theorem C5_no_manifold_failure {R : Type} (V : MatrixXd R) (F : FaceArray)
    (hr : InRange F) (h3 : ∃ s ∈ slots F, 3 ≤ useCount F (ends F s)) :
    GetTriEdgeAdjacency V F ≠ .error .notEdgeManifold := by
  rw [builder_overflow V hr h3]
  exact fun h => (nomatch h)

/-- Witness of C5 (amended) on three triangles sharing the edge `(0, 1)`. -/
theorem C5_no_manifold_failure_witness :
    GetTriEdgeAdjacency ([] : MatrixXd Int) [(0, 1, 2), (0, 1, 3), (0, 1, 4)] ≠
      .error .notEdgeManifold :=
  C5_no_manifold_failure [] [(0, 1, 2), (0, 1, 3), (0, 1, 4)] (by decide)
    ⟨(0, 0), by decide, by decide⟩

/-- C7: on a non-empty edge-manifold face array, `rows(EV)` is the number of
distinct undirected pairs used by the face slots, and for every edge `e` the
entries of `EF[e]` other than -1 are exactly the faces that have a slot whose
undirected pair is `EV[e]`; both columns are set exactly when the pair is used by
two face slots. -/
theorem C7_edges_and_faces {R : Type} (V : MatrixXd R) (F : FaceArray) (hne : F ≠ [])
    (hr : InRange F) (hm : EdgeManifold F) :
    ∃ A, GetTriEdgeAdjacency V F = .ok A ∧ A.EV.length = distinctPairs F ∧
      A.EF.length = A.EV.length ∧
      ∀ e, e < A.EV.length → ∃ a b x y : Int,
        A.EV[e]? = some [a, b] ∧ A.EF[e]? = some [x, y] ∧ -1 ≤ x ∧ -1 ≤ y ∧
        (∀ g : Nat, (x = (g : Int) ∨ y = (g : Int)) ↔
          (g < F.length ∧ ∃ k, k < 3 ∧ sameEdge (ends F (g, k)) (a, b) = true)) ∧
        ((x ≠ -1 ∧ y ≠ -1) ↔ useCount F (a, b) = 2) := by
  refine ⟨_, builder_manifold V hne hr hm, ?_, by simp, ?_⟩
  · simp only [List.length_map]
    exact edgesOf_distinct hm
  · intro e he
    simp only [List.length_map] at he
    have hed : (edgesOf F)[e]? = some (edgesOf F)[e] := List.getElem?_eq_getElem he
    have hmem : (edgesOf F)[e] ∈ edgesOf F := List.getElem_mem he
    obtain ⟨x, y, hrow, hx, hy, hfaces, hboth⟩ := fixedRow_entries F (edgesOf F)[e]
    refine ⟨(edgesOf F)[e].1.v1, (edgesOf F)[e].1.v2, x, y, ?_, ?_, hx, hy, ?_, ?_⟩
    · simp only [List.getElem?_map, hed, Option.map_some']
      rfl
    · simp only
      rw [fixedRow_at_row F hed, hrow]
    · intro g
      rw [hfaces g]
      exact group_faces hm hed g
    · rw [hboth, group_size hm hmem]

/-- Witness of C7 on the square split along a diagonal: 5 edges, the edge `(0, 2)`
has `EF` entries `1, 0`, the other four have one face and one -1. -/
theorem C7_edges_and_faces_witness :
    GetTriEdgeAdjacency ([] : MatrixXd Int) [(0, 1, 2), (0, 2, 3)] =
        .ok ⟨[[0, 1], [0, 2], [0, 3], [1, 2], [2, 3]], [[0, 3, 1], [1, 4, 2]],
          [[0, -1], [1, 0], [-1, 1], [0, -1], [1, -1]]⟩ ∧
    ∃ A, GetTriEdgeAdjacency ([] : MatrixXd Int) [(0, 1, 2), (0, 2, 3)] = .ok A ∧
      A.EV.length = distinctPairs [(0, 1, 2), (0, 2, 3)] ∧
      A.EF.length = A.EV.length ∧
      ∀ e, e < A.EV.length → ∃ a b x y : Int,
        A.EV[e]? = some [a, b] ∧ A.EF[e]? = some [x, y] ∧ -1 ≤ x ∧ -1 ≤ y ∧
        (∀ g : Nat, (x = (g : Int) ∨ y = (g : Int)) ↔
          (g < [((0 : Int), (1 : Int), (2 : Int)), (0, 2, 3)].length ∧
            ∃ k, k < 3 ∧ sameEdge (ends [(0, 1, 2), (0, 2, 3)] (g, k)) (a, b) = true)) ∧
        ((x ≠ -1 ∧ y ≠ -1) ↔ useCount [(0, 1, 2), (0, 2, 3)] (a, b) = 2) :=
  ⟨rfl, C7_edges_and_faces [] [(0, 1, 2), (0, 2, 3)] (by decide) (by decide) (by decide)⟩

/-- C8: for every face array `F`, the row count `En` the matrix `EV` is allocated with
satisfies `En <= 3 * rows(F)`, so does `rows(EV)` of every returned `EV`, and
equality holds only when no undirected pair is used by more than one face slot. -/
theorem C8_edge_count_bound {R : Type} (V : MatrixXd R) (F : FaceArray) (hr : InRange F) :
    (∀ n, countPass (sortETT (buildETT F)) = .ok n →
      n ≤ 3 * F.length ∧ (n = 3 * F.length → ∀ p : Int × Int, useCount F p ≤ 1)) ∧
    (∀ A, GetTriEdgeAdjacency V F = .ok A →
      A.EV.length ≤ 3 * F.length ∧
        (A.EV.length = 3 * F.length → ∀ p : Int × Int, useCount F p ≤ 1)) := by
  have hcount : ∀ n, F ≠ [] → n = 1 + runBreaks (sortedETT F) →
      n ≤ 3 * F.length ∧ (n = 3 * F.length → ∀ p : Int × Int, useCount F p ≤ 1) := by
    intro n hne hn
    have hlt := runBreaks_lt_length _ (sortedETT_ne_nil hne)
    have hl := sortedETT_length F
    refine ⟨by omega, fun heq => ?_⟩
    have hfull : 1 + runBreaks (sortedETT F) = (sortedETT F).length := by omega
    exact useCount_le_one
      (count_of_pairwise_lt _ (distinct_of_full_breaks _ (sortedETT_sorted F) hfull))
  constructor
  · intro n hn
    by_cases hne : F = []
    · subst hne
      cases hn
    · have h1 := countPass_eq hne hr
      change countPass (sortedETT F) = .ok n at hn
      rw [h1] at hn
      injection hn with hn
      exact hcount n hne hn.symm
  · intro A h
    have hne : F ≠ [] := by
      intro h0
      rw [h0, builder_empty] at h
      cases h
    by_cases hm : EdgeManifold F
    · rw [builder_manifold V hne hr hm] at h
      injection h with h
      subst h
      have hlen : (edgesOf F).length = 1 + runBreaks (sortedETT F) :=
        plan_length_manifold _ (twoFold_of_manifold hm) (sortedETT_ne_nil hne)
      simp only [List.length_map]
      exact hcount _ hne hlen
    · exfalso
      unfold EdgeManifold at hm
      push_neg at hm
      obtain ⟨s, hs, h3⟩ := hm
      rw [builder_overflow V hr ⟨s, hs, by omega⟩] at h
      cases h

/-- Witness of C8 on the single triangle, where `rows(EV) = 3 = 3 * rows(F)`. -/
theorem C8_edge_count_bound_witness :
    countPass (sortETT (buildETT [(0, 1, 2)])) = .ok 3 ∧
    GetTriEdgeAdjacency ([] : MatrixXd Int) [(0, 1, 2)] =
      .ok ⟨[[0, 1], [0, 2], [1, 2]], [[0, 2, 1]], [[0, -1], [-1, 0], [0, -1]]⟩ ∧
    (∀ n, countPass (sortETT (buildETT [(0, 1, 2)])) = .ok n →
      n ≤ 3 * [((0 : Int), (1 : Int), (2 : Int))].length ∧
        (n = 3 * [((0 : Int), (1 : Int), (2 : Int))].length →
          ∀ p : Int × Int, useCount [(0, 1, 2)] p ≤ 1)) ∧
    (∀ A, GetTriEdgeAdjacency ([] : MatrixXd Int) [(0, 1, 2)] = .ok A →
      A.EV.length ≤ 3 * [((0 : Int), (1 : Int), (2 : Int))].length ∧
        (A.EV.length = 3 * [((0 : Int), (1 : Int), (2 : Int))].length →
          ∀ p : Int × Int, useCount [(0, 1, 2)] p ≤ 1)) :=
  ⟨rfl, rfl, C8_edge_count_bound ([] : MatrixXd Int) [(0, 1, 2)] (by decide)⟩

/-- C9: on a non-empty edge-manifold face array the count `En` of the counting
pre-pass equals the number of edge IDs the merge pass allocates; `EV` and `EF` have
exactly `En` rows, all three passes finish without an access outside the allocated
matrices, and every row of `EV` is written with the pair of a face slot. -/
theorem C9_count_matches_allocation {R : Type} (V : MatrixXd R) (F : FaceArray)
    (hne : F ≠ []) (hr : InRange F) (hm : EdgeManifold F) :
    ∃ (n : Nat) (s : MergeState) (EF : MatrixXi),
      countPass (sortETT (buildETT F)) = .ok n ∧
      mergePass F (sortETT (buildETT F)) n = .ok s ∧
      s.En = n ∧ s.EV.length = n ∧ s.EF.length = n ∧ s.FE.length = F.length ∧
      fixupPass F s.EV s.EF = .ok EF ∧ EF.length = n ∧
      GetTriEdgeAdjacency V F = .ok ⟨s.EV, s.FE, EF⟩ ∧
      ∀ e, e < n → ∃ f k, f < F.length ∧ k < 3 ∧
        s.EV[e]? = some [min (faceCoeff F f k) (faceCoeff F f ((k + 1) % 3)),
          max (faceCoeff F f k) (faceCoeff F f ((k + 1) % 3))] := by
  have hlen : (edgesOf F).length = 1 + runBreaks (sortedETT F) :=
    plan_length_manifold _ (twoFold_of_manifold hm) (sortedETT_ne_nil hne)
  have hcount := countPass_eq hne hr
  rw [← hlen] at hcount
  refine ⟨(edgesOf F).length, _, _, hcount, mergePass_ok hr, rfl, by simp, by simp,
    (finalFE_rect F).1, fixupPass_ok hr, by simp, builder_manifold V hne hr hm, ?_⟩
  intro e he
  have hmem : (edgesOf F)[e] ∈ edgesOf F := List.getElem_mem he
  have hb := sortedETT_bounds F _ (plan_fst_mem hmem)
  refine ⟨(edgesOf F)[e].1.f, (edgesOf F)[e].1.i, hb.1, hb.2.1, ?_⟩
  simp only [List.getElem?_map, List.getElem?_eq_getElem he, Option.map_some']
  rw [← (edgeRecord_key F _ _).1, ← (edgeRecord_key F _ _).2, ← hb.2.2]
  rfl

/-- Witness of C9 on the single triangle `(0, 1, 2)`. -/
theorem C9_count_matches_allocation_witness :
    ∃ (n : Nat) (s : MergeState) (EF : MatrixXi),
      countPass (sortETT (buildETT [(0, 1, 2)])) = .ok n ∧
      mergePass [(0, 1, 2)] (sortETT (buildETT [(0, 1, 2)])) n = .ok s ∧
      s.En = n ∧ s.EV.length = n ∧ s.EF.length = n ∧
      s.FE.length = [((0 : Int), (1 : Int), (2 : Int))].length ∧
      fixupPass [(0, 1, 2)] s.EV s.EF = .ok EF ∧ EF.length = n ∧
      GetTriEdgeAdjacency ([] : MatrixXd Int) [(0, 1, 2)] = .ok ⟨s.EV, s.FE, EF⟩ ∧
      ∀ e, e < n → ∃ f k, f < [((0 : Int), (1 : Int), (2 : Int))].length ∧ k < 3 ∧
        s.EV[e]? = some [min (faceCoeff [(0, 1, 2)] f k) (faceCoeff [(0, 1, 2)] f ((k + 1) % 3)),
          max (faceCoeff [(0, 1, 2)] f k) (faceCoeff [(0, 1, 2)] f ((k + 1) % 3))] :=
  C9_count_matches_allocation [] [(0, 1, 2)] (by decide) (by decide) (by decide)

/-! ## Lemmas: the order of the edge IDs -/

theorem edgesOf_strict {F : FaceArray} (hm : EdgeManifold F) {i j : Nat}
    {ei ej : EdgeRec × Option EdgeRec} (hij : i < j) (hi : (edgesOf F)[i]? = some ei)
    (hj : (edgesOf F)[j]? = some ej) : keyLt ei.1 ej.1 := by
  have hstrict := plan_strict _ (sortedETT_sorted F) (twoFold_of_manifold hm)
  obtain ⟨hi1, hi2⟩ := List.getElem?_eq_some.mp hi
  obtain ⟨hj1, hj2⟩ := List.getElem?_eq_some.mp hj
  have := List.pairwise_iff_getElem.mp hstrict i j hi1 hj1 hij
  rw [← hi2, ← hj2]
  exact this

/-- C13: on a non-empty edge-manifold face array every row of `EV` has the
smaller vertex ID first, and the rows of `EV` are strictly increasing in
lexicographic order (so `EV[e] < EV[e+1]` and no pair has two edge records). -/
theorem C13_EV_sorted {R : Type} (V : MatrixXd R) (F : FaceArray) (hne : F ≠ [])
    (hr : InRange F) (hm : EdgeManifold F) :
    ∃ A, GetTriEdgeAdjacency V F = .ok A ∧
      (∀ e, e < A.EV.length → ∃ a b : Int, A.EV[e]? = some [a, b] ∧ a ≤ b) ∧
      (∀ (e : Nat) (a b c d : Int), A.EV[e]? = some [a, b] → A.EV[e + 1]? = some [c, d] →
        a < c ∨ (a = c ∧ b < d)) ∧
      (∀ (e1 e2 : Nat) (a b c d : Int), e1 < e2 → A.EV[e1]? = some [a, b] →
        A.EV[e2]? = some [c, d] → a < c ∨ (a = c ∧ b < d)) ∧
      (∀ (e1 e2 : Nat) (a b : Int), A.EV[e1]? = some [a, b] → A.EV[e2]? = some [a, b] →
        e1 = e2) := by
  have hlt : ∀ (e1 e2 : Nat) (a b c d : Int), e1 < e2 →
      ((edgesOf F).map evRow)[e1]? = some [a, b] →
      ((edgesOf F).map evRow)[e2]? = some [c, d] → a < c ∨ (a = c ∧ b < d) := by
    intro e1 e2 a b c d h12 h1 h2
    obtain ⟨ed1, hed1, ha, hb⟩ := edge_at_row h1
    obtain ⟨ed2, hed2, hc, hd⟩ := edge_at_row h2
    have := edgesOf_strict hm h12 hed1 hed2
    unfold keyLt at this
    rw [ha, hb, hc, hd] at this
    exact this
  refine ⟨_, builder_manifold V hne hr hm, ?_, ?_, hlt, ?_⟩
  · intro e he
    simp only [List.length_map] at he
    refine ⟨(edgesOf F)[e].1.v1, (edgesOf F)[e].1.v2, ?_, ?_⟩
    · simp only [List.getElem?_map, List.getElem?_eq_getElem he, Option.map_some']
      rfl
    · exact sortedETT_ordered F _ (plan_fst_mem (List.getElem_mem he))
  · intro e a b c d h1 h2
    exact hlt e (e + 1) a b c d (Nat.lt_succ_self e) h1 h2
  · intro e1 e2 a b h1 h2
    rcases Nat.lt_trichotomy e1 e2 with h | h | h
    · have := hlt e1 e2 a b a b h h1 h2
      omega
    · exact h
    · have := hlt e2 e1 a b a b h h2 h1
      omega

/-- Witness of C13 on the two triangles `(2, 1, 0)` and `(3, 2, 0)`, whose edges
are found in the order `(1,2), (0,1), (0,2), (2,3), (0,3)` and numbered in sorted
order. -/
theorem C13_EV_sorted_witness :
    GetTriEdgeAdjacency ([] : MatrixXd Int) [(2, 1, 0), (3, 2, 0)] =
        .ok ⟨[[0, 1], [0, 2], [0, 3], [1, 2], [2, 3]], [[3, 0, 1], [4, 1, 2]],
          [[-1, 0], [0, 1], [1, -1], [-1, 0], [-1, 1]]⟩ ∧
    ∃ A, GetTriEdgeAdjacency ([] : MatrixXd Int) [(2, 1, 0), (3, 2, 0)] = .ok A ∧
      (∀ e, e < A.EV.length → ∃ a b : Int, A.EV[e]? = some [a, b] ∧ a ≤ b) ∧
      (∀ (e : Nat) (a b c d : Int), A.EV[e]? = some [a, b] → A.EV[e + 1]? = some [c, d] →
        a < c ∨ (a = c ∧ b < d)) ∧
      (∀ (e1 e2 : Nat) (a b c d : Int), e1 < e2 → A.EV[e1]? = some [a, b] →
        A.EV[e2]? = some [c, d] → a < c ∨ (a = c ∧ b < d)) ∧
      (∀ (e1 e2 : Nat) (a b : Int), A.EV[e1]? = some [a, b] → A.EV[e2]? = some [a, b] →
        e1 = e2) :=
  ⟨rfl, C13_EV_sorted [] [(2, 1, 0), (3, 2, 0)] (by decide) (by decide) (by decide)⟩

/-! ## Lemmas: the rows of `EF` before and after the fix-up pass -/

theorem cell_of_row {M : MatrixXi} {e : Nat} {row : List Int} (h : M[e]? = some row)
    (c : Nat) : cell M e c = row[c]? := by
  unfold cell
  rw [h]

theorem row_of_cell {M : MatrixXi} {e c : Nat} {v : Int} (h : cell M e c = some v) :
    ∃ row, M[e]? = some row ∧ row[c]? = some v := by
  unfold cell at h
  cases hrow : M[e]? with
  | none => rw [hrow] at h; cases h
  | some row =>
    rw [hrow] at h
    exact ⟨row, rfl, h⟩

theorem efRow_at_row (F : FaceArray) {e : Nat} {ed : EdgeRec × Option EdgeRec}
    (h : (edgesOf F)[e]? = some ed) :
    ((edgesOf F).map efRow)[e]? = some (efRow ed) := by
  rw [List.getElem?_map, h]
  rfl

theorem group_at_row {F : FaceArray} {e : Nat} {row : List Int}
    (h : ((edgesOf F).map (fixedRow F))[e]? = some row) :
    ∃ ed, (edgesOf F)[e]? = some ed ∧ row = fixedRow F ed := by
  rw [List.getElem?_map] at h
  cases hed : (edgesOf F)[e]? with
  | none => rw [hed] at h; cases h
  | some ed =>
    rw [hed] at h
    simp only [Option.map_some', Option.some.injEq] at h
    exact ⟨ed, rfl, h.symm⟩

/-- The three passes on a non-empty edge-manifold face array. -/
theorem builder_stages {R : Type} (V : MatrixXd R) {F : FaceArray} (hne : F ≠ [])
    (hr : InRange F) (hm : EdgeManifold F) :
    countPass (sortETT (buildETT F)) = .ok (edgesOf F).length ∧
    mergePass F (sortETT (buildETT F)) (edgesOf F).length =
      .ok ⟨(edgesOf F).length, (edgesOf F).map evRow, finalFE F, (edgesOf F).map efRow⟩ ∧
    GetTriEdgeAdjacency V F =
      .ok ⟨(edgesOf F).map evRow, finalFE F, (edgesOf F).map (fixedRow F)⟩ := by
  have hlen : (edgesOf F).length = 1 + runBreaks (sortedETT F) :=
    plan_length_manifold _ (twoFold_of_manifold hm) (sortedETT_ne_nil hne)
  have hcount := countPass_eq hne hr
  rw [← hlen] at hcount
  exact ⟨hcount, mergePass_ok hr, builder_manifold V hne hr hm⟩

/-- The fix-up pass keeps a row of `EF` when its first face runs along the row of
`EV`, and swaps its two entries otherwise. -/
theorem fixup_rule (F : FaceArray) {e : Nat} {a b x y : Int}
    (hEV : ((edgesOf F).map evRow)[e]? = some [a, b])
    (hEF : ((edgesOf F).map efRow)[e]? = some [x, y]) :
    ∃ fid : Nat, x = (fid : Int) ∧ fid < F.length ∧
      ((edgesOf F).map (fixedRow F))[e]? =
        some (if traverses (F.getD fid (0, 0, 0)) a b = true then [x, y] else [y, x]) := by
  obtain ⟨ed, hed, h1, h2⟩ := edge_at_row hEV
  rw [efRow_at_row F hed] at hEF
  simp only [Option.some.injEq] at hEF
  have he := (index_mem_edgesOf hed).1
  have hb := sortedETT_bounds F _ (plan_fst_mem he)
  have hx : x = (ed.1.f : Int) := by
    have h0 := efRow_zero ed
    rw [hEF] at h0
    simp only [List.getElem?_cons_zero, Option.some.injEq] at h0
    exact h0
  refine ⟨ed.1.f, hx, hb.1, ?_⟩
  rw [fixedRow_at_row F hed]
  simp only [fixedRow, h1, h2, hEF, List.reverse_cons, List.reverse_nil, List.nil_append,
    List.singleton_append]

/-- C16: on a non-empty edge-manifold face array `FE` and `EF` agree: face `f`
occurs in row `FE[f][k]` of `EF` for every slot `k`, and every entry
`EF[e][c] = f` other than -1 is a face that has a slot `k` with `FE[f][k] = e`. -/
theorem C16_FE_EF_consistent {R : Type} (V : MatrixXd R) (F : FaceArray) (hne : F ≠ [])
    (hr : InRange F) (hm : EdgeManifold F) :
    ∃ A, GetTriEdgeAdjacency V F = .ok A ∧
      (∀ f k, f < F.length → k < 3 →
        ∃ e : Nat, cell A.FE f k = some (e : Int) ∧
          (cell A.EF e 0 = some (f : Int) ∨ cell A.EF e 1 = some (f : Int))) ∧
      (∀ (e c : Nat) (v : Int), cell A.EF e c = some v → v ≠ -1 →
        ∃ f : Nat, v = (f : Int) ∧ f < F.length ∧
          ∃ k, k < 3 ∧ cell A.FE f k = some (e : Int)) := by
  refine ⟨_, builder_manifold V hne hr hm, ?_, ?_⟩
  · intro f k hf hk
    obtain ⟨j, ed, hj, hrec, hcell⟩ := slot_edge F hf hk
    obtain ⟨x, y, hrow, _, _, hfaces, _⟩ := fixedRow_entries F ed
    have hrow' := fixedRow_at_row F hj
    rw [hrow] at hrow'
    refine ⟨j, hcell, ?_⟩
    simp only
    rw [cell_of_row hrow' 0, cell_of_row hrow' 1]
    have := (hfaces f).mpr ⟨_, hrec, (edgeRecord_slot F f k).1⟩
    rcases this with h | h
    · left; simp [h]
    · right; simp [h]
  · intro e c v hcellv hv
    simp only at hcellv
    obtain ⟨row, hrow, hc⟩ := row_of_cell hcellv
    obtain ⟨ed, hed, hfix⟩ := group_at_row hrow
    obtain ⟨x, y, hxy, hx, hy, hfaces, _⟩ := fixedRow_entries F ed
    rw [hfix, hxy] at hc
    have hv0 : -1 ≤ v ∧ (x = v ∨ y = v) := by
      match c, hc with
      | 0, hc =>
        simp only [List.getElem?_cons_zero, Option.some.injEq] at hc
        exact ⟨hc ▸ hx, Or.inl hc⟩
      | 1, hc =>
        simp only [List.getElem?_cons_succ, List.getElem?_cons_zero, Option.some.injEq] at hc
        exact ⟨hc ▸ hy, Or.inr hc⟩
      | n + 2, hc => simp at hc
    have hnat : v = ((v.toNat : Nat) : Int) := by
      rw [Int.toNat_of_nonneg (by omega)]
    have hor : x = ((v.toNat : Nat) : Int) ∨ y = ((v.toNat : Nat) : Int) := by
      rw [← hnat]
      exact hv0.2
    obtain ⟨r, hr1, hr2⟩ := (hfaces v.toNat).mp hor
    have he := (index_mem_edgesOf hed).1
    have hb := sortedETT_bounds F r (plan_recs_mem he hr1)
    refine ⟨v.toNat, hnat, hr2 ▸ hb.1, r.i, hb.2.1, ?_⟩
    have := finalFE_cell F e ed r hed hr1
    rw [hr2] at this
    exact this

/-- Witness of C16 on the square `(0, 1, 2), (0, 2, 3)`. -/
theorem C16_FE_EF_consistent_witness :
    ∃ A, GetTriEdgeAdjacency ([] : MatrixXd Int) [(0, 1, 2), (0, 2, 3)] = .ok A ∧
      (∀ f k, f < [((0 : Int), (1 : Int), (2 : Int)), (0, 2, 3)].length → k < 3 →
        ∃ e : Nat, cell A.FE f k = some (e : Int) ∧
          (cell A.EF e 0 = some (f : Int) ∨ cell A.EF e 1 = some (f : Int))) ∧
      (∀ (e c : Nat) (v : Int), cell A.EF e c = some v → v ≠ -1 →
        ∃ f : Nat, v = (f : Int) ∧ f < [((0 : Int), (1 : Int), (2 : Int)), (0, 2, 3)].length ∧
          ∃ k, k < 3 ∧ cell A.FE f k = some (e : Int)) :=
  C16_FE_EF_consistent [] [(0, 1, 2), (0, 2, 3)] (by decide) (by decide) (by decide)

theorem sameEdge_of_ends {F : FaceArray} {s : Nat × Nat} {a b : Int}
    (h : ends F s = (a, b) ∨ ends F s = (b, a)) : sameEdge (ends F s) (a, b) = true := by
  rcases h with h | h <;> rw [h] <;> simp [sameEdge]

theorem traverses_of_ends {F : FaceArray} {f k : Nat} {a b : Int} (hk : k < 3)
    (h : ends F (f, k) = (a, b)) : traverses (F.getD f (0, 0, 0)) a b = true := by
  rw [traverses_iff]
  simp only [ends, Prod.mk.injEq] at h
  exact ⟨k, hk, h.1, h.2⟩

theorem ends_of_traverses {F : FaceArray} {f : Nat} {a b : Int}
    (h : traverses (F.getD f (0, 0, 0)) a b = true) : ∃ k, k < 3 ∧ ends F (f, k) = (a, b) := by
  obtain ⟨k, hk, h1, h2⟩ := (traverses_iff _ _ _).mp h
  exact ⟨k, hk, by simp only [ends, faceCoeff, h1, h2]⟩

/-- The row of `EF` of an edge that one slot runs along and another slot runs
against. -/
theorem opposite_row {F : FaceArray} (hm : EdgeManifold F) {e : Nat} {a b : Int}
    {f g k l : Nat} (hEV : ((edgesOf F).map evRow)[e]? = some [a, b])
    (hslots : (f, k) ≠ (g, l))
    (hf : f < F.length) (hk : k < 3) (hg : g < F.length) (hl : l < 3)
    (hfk : ends F (f, k) = (a, b)) (hgl : ends F (g, l) = (b, a)) :
    ((edgesOf F).map (fixedRow F))[e]? = some [(f : Int), (g : Int)] ∨
      (a = b ∧ ((edgesOf F).map (fixedRow F))[e]? = some [(g : Int), (f : Int)]) := by
  obtain ⟨ed, hed, h1, h2⟩ := edge_at_row hEV
  have hrF : edgeRecord F f k ∈ recsOf ed :=
    slot_in_group hm hed hf hk (by rw [h1, h2]; exact sameEdge_of_ends (Or.inl hfk))
  have hrG : edgeRecord F g l ∈ recsOf ed :=
    slot_in_group hm hed hg hl (by rw [h1, h2]; exact sameEdge_of_ends (Or.inr hgl))
  have hFf := edgeRecord_slot F f k
  have hGg := edgeRecord_slot F g l
  have hne : edgeRecord F f k ≠ edgeRecord F g l := by
    intro heq
    have e1 : f = g := by rw [← hFf.1, heq, hGg.1]
    have e2 : k = l := by rw [← hFf.2, heq, hGg.2]
    exact hslots (by rw [e1, e2])
  have htF := traverses_of_ends hk hfk
  rw [fixedRow_at_row F hed]
  obtain ⟨r1, o⟩ := ed
  simp only at h1 h2
  cases o with
  | none =>
    simp only [recsOf, List.mem_singleton] at hrF hrG
    exact absurd (hrF.trans hrG.symm) hne
  | some r2 =>
    simp only [recsOf, List.mem_cons, List.mem_singleton, List.not_mem_nil, or_false] at hrF hrG
    rcases hrF with hF1 | hF2
    · rcases hrG with hG1 | hG2
      · exact absurd (hF1.trans hG1.symm) hne
      · have e1 : r1.f = f := by rw [← hF1]; exact hFf.1
        have e2 : r2.f = g := by rw [← hG2]; exact hGg.1
        left
        simp only [fixedRow, efRow, h1, h2, e1, e2, htF, if_true]
    · rcases hrG with hG1 | hG2
      · have e1 : r1.f = g := by rw [← hG1]; exact hGg.1
        have e2 : r2.f = f := by rw [← hF2]; exact hFf.1
        cases htG : traverses (F.getD g (0, 0, 0)) a b with
        | false =>
          left
          simp only [fixedRow, efRow, h1, h2, e1, e2, htG, Bool.false_eq_true, if_false]
          rfl
        | true =>
          obtain ⟨l1, hl1, hends⟩ := ends_of_traverses htG
          have hrG1 : edgeRecord F g l1 ∈ recsOf (r1, some r2) :=
            slot_in_group hm hed hg hl1 (by
              simp only [h1, h2]
              exact sameEdge_of_ends (Or.inl hends))
          simp only [recsOf, List.mem_cons, List.mem_singleton, List.not_mem_nil,
            or_false] at hrG1
          rcases hrG1 with h3 | h3
          · right
            have e3 : l1 = l := by
              rw [← (edgeRecord_slot F g l1).2, h3, ← hG1, hGg.2]
            subst e3
            rw [hends] at hgl
            simp only [Prod.mk.injEq] at hgl
            refine ⟨hgl.1, ?_⟩
            simp only [fixedRow, efRow, h1, h2, e1, e2, htG, if_true]
          · left
            have e3 : g = f := by
              rw [← (edgeRecord_slot F g l1).1, h3, ← hF2, hFf.1]
            subst e3
            simp only [fixedRow, efRow, h1, h2, e1, e2, htG, if_true]
      · exact absurd (hF2.trans hG2.symm) hne

/-- C14: on a non-empty edge-manifold face array, an edge `e` with `EV[e] = (a, b)`
that one face `f` traverses from `a` to `b` and another slot, of face `g`, traverses
from `b` to `a` has `EF[e] = (f, g)` after the fix-up pass (for a degenerate pair
`a = b` the two faces may come in either order); and for every row the
fix-up pass swaps the two columns left by the merge pass exactly when the face
stored first has no slot running from `EV[e][0]` to `EV[e][1]`. -/
theorem C14_fixup_orientation {R : Type} (V : MatrixXd R) (F : FaceArray) (hne : F ≠ [])
    (hr : InRange F) (hm : EdgeManifold F) :
    ∃ (n : Nat) (s : MergeState) (A : Adjacency),
      countPass (sortETT (buildETT F)) = .ok n ∧
      mergePass F (sortETT (buildETT F)) n = .ok s ∧
      GetTriEdgeAdjacency V F = .ok A ∧ A.EV = s.EV ∧
      (∀ (e : Nat) (a b : Int) (f g k l : Nat), A.EV[e]? = some [a, b] → (f, k) ≠ (g, l) →
        f < F.length → k < 3 → g < F.length → l < 3 →
        ends F (f, k) = (a, b) → ends F (g, l) = (b, a) →
        A.EF[e]? = some [(f : Int), (g : Int)] ∨
          (a = b ∧ A.EF[e]? = some [(g : Int), (f : Int)])) ∧
      (∀ (e : Nat) (a b x y : Int), s.EV[e]? = some [a, b] → s.EF[e]? = some [x, y] →
        ∃ fid : Nat, x = (fid : Int) ∧ fid < F.length ∧
          A.EF[e]? = some (if traverses (F.getD fid (0, 0, 0)) a b = true then [x, y]
            else [y, x])) := by
  obtain ⟨h1, h2, h3⟩ := builder_stages V hne hr hm
  refine ⟨_, _, _, h1, h2, h3, rfl, ?_, ?_⟩
  · intro e a b f g k l hEV hab hf hk hg hl hfk hgl
    exact opposite_row hm hEV hab hf hk hg hl hfk hgl
  · intro e a b x y hEV hEF
    exact fixup_rule F hEV hEF

/-- Witness of C14 on the square `(0, 1, 2), (0, 2, 3)`: the merge pass leaves
`EF[1] = (0, 1)` for the diagonal `(0, 2)`, face 0 runs `2 -> 0`, and the fix-up
pass swaps the row to `(1, 0)`. -/
theorem C14_fixup_orientation_witness :
    mergePass [(0, 1, 2), (0, 2, 3)] (sortETT (buildETT [(0, 1, 2), (0, 2, 3)])) 5 =
      .ok ⟨5, [[0, 1], [0, 2], [0, 3], [1, 2], [2, 3]], [[0, 3, 1], [1, 4, 2]],
        [[0, -1], [0, 1], [1, -1], [0, -1], [1, -1]]⟩ ∧
    GetTriEdgeAdjacency ([] : MatrixXd Int) [(0, 1, 2), (0, 2, 3)] =
      .ok ⟨[[0, 1], [0, 2], [0, 3], [1, 2], [2, 3]], [[0, 3, 1], [1, 4, 2]],
        [[0, -1], [1, 0], [-1, 1], [0, -1], [1, -1]]⟩ ∧
    ∃ (n : Nat) (s : MergeState) (A : Adjacency),
      countPass (sortETT (buildETT [(0, 1, 2), (0, 2, 3)])) = .ok n ∧
      mergePass [(0, 1, 2), (0, 2, 3)] (sortETT (buildETT [(0, 1, 2), (0, 2, 3)])) n = .ok s ∧
      GetTriEdgeAdjacency ([] : MatrixXd Int) [(0, 1, 2), (0, 2, 3)] = .ok A ∧ A.EV = s.EV ∧
      (∀ (e : Nat) (a b : Int) (f g k l : Nat), A.EV[e]? = some [a, b] → (f, k) ≠ (g, l) →
        f < [((0 : Int), (1 : Int), (2 : Int)), (0, 2, 3)].length → k < 3 →
        g < [((0 : Int), (1 : Int), (2 : Int)), (0, 2, 3)].length → l < 3 →
        ends [(0, 1, 2), (0, 2, 3)] (f, k) = (a, b) →
        ends [(0, 1, 2), (0, 2, 3)] (g, l) = (b, a) →
        A.EF[e]? = some [(f : Int), (g : Int)] ∨
          (a = b ∧ A.EF[e]? = some [(g : Int), (f : Int)])) ∧
      (∀ (e : Nat) (a b x y : Int), s.EV[e]? = some [a, b] → s.EF[e]? = some [x, y] →
        ∃ fid : Nat, x = (fid : Int) ∧
          fid < [((0 : Int), (1 : Int), (2 : Int)), (0, 2, 3)].length ∧
          A.EF[e]? = some (if traverses ([(0, 1, 2), (0, 2, 3)].getD fid (0, 0, 0)) a b = true
            then [x, y] else [y, x])) :=
  ⟨rfl, rfl, C14_fixup_orientation [] [(0, 1, 2), (0, 2, 3)] (by decide) (by decide)
    (by decide)⟩

/-- C15 (counterexample): the two faces `(1, 0, 2)` and `(1, 0, 3)` both traverse
the shared edge from 1 to 0, neither has a slot running from 0 to 1, and the
builder returns `EV`/`FE`/`EF` with `EF[0] = (1, 0)`; no failure is signalled. -/
theorem C15_same_direction_counterexample :
    GetTriEdgeAdjacency ([] : MatrixXd Int) [(1, 0, 2), (1, 0, 3)] =
      .ok ⟨[[0, 1], [0, 2], [0, 3], [1, 2], [1, 3]], [[0, 1, 3], [0, 2, 4]],
        [[1, 0], [0, -1], [1, -1], [-1, 0], [-1, 1]]⟩ ∧
    traverses (1, 0, 2) 0 1 = false ∧ traverses (1, 0, 3) 0 1 = false ∧
    GetTriEdgeAdjacency ([] : MatrixXd Int) [(1, 0, 2), (1, 0, 3)] ≠
      .error .notEdgeManifold := by
  have h0 : GetTriEdgeAdjacency ([] : MatrixXd Int) [(1, 0, 2), (1, 0, 3)] =
      .ok ⟨[[0, 1], [0, 2], [0, 3], [1, 2], [1, 3]], [[0, 1, 3], [0, 2, 4]],
        [[1, 0], [0, -1], [1, -1], [-1, 0], [-1, 1]]⟩ := rfl
  refine ⟨h0, rfl, rfl, ?_⟩
  rewrite [h0]
  exact fun h => (nomatch h)

/-- C15 (amended): on a non-empty edge-manifold face array that contains an edge
which no face traverses from `EV[e][0]` to `EV[e][1]`, the builder signals no
failure: it returns `EV`/`FE`/`EF`, and the row `EF[e]` of such an edge is the row
left by the merge pass with its two columns swapped. -/
theorem C15_unmatched_edge_swapped {R : Type} (V : MatrixXd R) (F : FaceArray)
    (hne : F ≠ []) (hr : InRange F) (hm : EdgeManifold F) :
    ∃ (n : Nat) (s : MergeState) (A : Adjacency),
      countPass (sortETT (buildETT F)) = .ok n ∧
      mergePass F (sortETT (buildETT F)) n = .ok s ∧
      GetTriEdgeAdjacency V F = .ok A ∧ A.EV = s.EV ∧
      ∀ (e : Nat) (a b x y : Int), s.EV[e]? = some [a, b] → s.EF[e]? = some [x, y] →
        (∀ g, g < F.length → traverses (F.getD g (0, 0, 0)) a b = false) →
        A.EF[e]? = some [y, x] := by
  obtain ⟨h1, h2, h3⟩ := builder_stages V hne hr hm
  refine ⟨_, _, _, h1, h2, h3, rfl, ?_⟩
  intro e a b x y hEV hEF hnone
  obtain ⟨fid, _, hfid, hrow⟩ := fixup_rule F hEV hEF
  rw [hnone fid hfid] at hrow
  exact hrow

/-- Witness of C15 (amended) on the faces `(1, 0, 2)` and `(1, 0, 3)`. -/
theorem C15_unmatched_edge_swapped_witness :
    ∃ (n : Nat) (s : MergeState) (A : Adjacency),
      countPass (sortETT (buildETT [(1, 0, 2), (1, 0, 3)])) = .ok n ∧
      mergePass [(1, 0, 2), (1, 0, 3)] (sortETT (buildETT [(1, 0, 2), (1, 0, 3)])) n = .ok s ∧
      GetTriEdgeAdjacency ([] : MatrixXd Int) [(1, 0, 2), (1, 0, 3)] = .ok A ∧ A.EV = s.EV ∧
      ∀ (e : Nat) (a b x y : Int), s.EV[e]? = some [a, b] → s.EF[e]? = some [x, y] →
        (∀ g, g < [((1 : Int), (0 : Int), (2 : Int)), (1, 0, 3)].length →
          traverses ([(1, 0, 2), (1, 0, 3)].getD g (0, 0, 0)) a b = false) →
        A.EF[e]? = some [y, x] :=
  C15_unmatched_edge_swapped [] [(1, 0, 2), (1, 0, 3)] (by decide) (by decide) (by decide)

/-! ## Lemmas: the full order of the records -/

theorem recLt_of_le_of_ne {a b : EdgeRec} (h1 : recLe a b) (h2 : a ≠ b) : recLt a b := by
  obtain ⟨a1, a2, a3, a4⟩ := a
  obtain ⟨b1, b2, b3, b4⟩ := b
  simp only [recLe] at h1
  simp only [ne_eq, EdgeRec.mk.injEq] at h2
  simp only [recLt]
  omega

theorem buildETT_nodup (F : FaceArray) : (buildETT F).Nodup := by
  have h2 : ((buildETT F).map fun r => (r.f, r.i)) = slots F := by
    rw [buildETT_eq, List.map_map]
    conv_rhs => rw [← List.map_id (slots F)]
    apply List.map_congr_left
    intro s _
    have := edgeRecord_slot F s.1 s.2
    simp [this.1, this.2]
  apply List.Nodup.of_map (fun r => (r.f, r.i))
  rw [h2]
  exact slots_nodup F

theorem sortedETT_strict (F : FaceArray) : (sortedETT F).Pairwise recLt := by
  have h1 : (sortedETT F).Pairwise recLe := List.sorted_insertionSort recLe _
  have h2 : (sortedETT F).Pairwise (fun a b => a ≠ b) := sortedETT_nodup F
  exact (h1.and h2).imp (fun h => recLt_of_le_of_ne h.1 h.2)

theorem plan_pair_rel {P : EdgeRec → EdgeRec → Prop} (l : List EdgeRec)
    (h : l.Pairwise P) : ∀ e ∈ plan l, ∀ r2, e.2 = some r2 → P e.1 r2 := by
  induction l using plan.induct with
  | case1 => intro e he; simp [plan] at he
  | case2 r =>
    intro e he r2 h2
    simp only [plan, List.mem_singleton] at he
    subst he
    simp at h2
  | case3 r1 r2 rest hs ih =>
    intro e he x hx
    rw [List.pairwise_cons, List.pairwise_cons] at h
    simp only [plan, hs, if_true, List.mem_cons] at he
    rcases he with he | he
    · subst he
      simp only [Option.some.injEq] at hx
      subst hx
      exact h.1 _ (List.mem_cons_self _ _)
    · exact ih h.2.2 e he x hx
  | case4 r1 r2 rest hs ih =>
    intro e he x hx
    rw [List.pairwise_cons] at h
    simp only [plan, hs, Bool.false_eq_true, if_false, List.mem_cons] at he
    rcases he with he | he
    · subst he
      simp at hx
    · exact ih h.2 e he x hx

theorem slot_order_of_recLt {a b : EdgeRec} (h : recLt a b) (hs : samePair a b = true) :
    a.f < b.f ∨ (a.f = b.f ∧ a.i < b.i) := by
  rw [samePair_eq] at hs
  unfold recLt at h
  omega

/-- C19: for every face array `F` the `3 * rows(F)` incidence records are pairwise
distinct; sorted with the full four-component order they are strictly increasing,
every sorted arrangement of them is this one, and records with the same vertex pair
are ordered by (face ID, slot); hence the merge pass writes `EF[e][0] <= EF[e][1]`
for every shared edge. -/
theorem C19_records_strictly_sorted (F : FaceArray) :
    (buildETT F).length = 3 * F.length ∧ (buildETT F).Nodup ∧
    (sortETT (buildETT F)).Pairwise recLt ∧
    (∀ l : List EdgeRec, l.Perm (buildETT F) → l.Pairwise recLe →
      l = sortETT (buildETT F)) ∧
    (sortETT (buildETT F)).Pairwise
      (fun a b => samePair a b = true → a.f < b.f ∨ (a.f = b.f ∧ a.i < b.i)) ∧
    (∀ e ∈ plan (sortETT (buildETT F)), ∀ r2, e.2 = some r2 →
      samePair e.1 r2 = true ∧ e.1.f ≤ r2.f) ∧
    (F ≠ [] → InRange F → EdgeManifold F →
      ∃ (n : Nat) (s : MergeState), countPass (sortETT (buildETT F)) = .ok n ∧
        mergePass F (sortETT (buildETT F)) n = .ok s ∧
        ∀ (e : Nat) (x y : Int), s.EF[e]? = some [x, y] → y ≠ -1 → x ≤ y) := by
  have hstrict : (sortETT (buildETT F)).Pairwise recLt := sortedETT_strict F
  have hgroups : ∀ e ∈ plan (sortETT (buildETT F)), ∀ r2, e.2 = some r2 →
      samePair e.1 r2 = true ∧ e.1.f ≤ r2.f := by
    intro e he r2 h2
    have hs := plan_snd_same _ e he r2 h2
    have := slot_order_of_recLt (plan_pair_rel _ hstrict e he r2 h2) hs
    exact ⟨hs, by omega⟩
  refine ⟨?_, buildETT_nodup F, hstrict, ?_, ?_, hgroups, ?_⟩
  · rw [buildETT_eq, List.length_map, slots_length]
  · intro l hperm hsorted
    exact List.eq_of_perm_of_sorted (hperm.trans (sortETT_perm _).symm) hsorted
      (List.sorted_insertionSort recLe _)
  · exact hstrict.imp (fun h hs => slot_order_of_recLt h hs)
  · intro hne hr hm
    obtain ⟨h1, h2, _⟩ := builder_stages ([] : MatrixXd Int) hne hr hm
    refine ⟨_, _, h1, h2, ?_⟩
    intro e x y hEF hy
    simp only at hEF
    rw [List.getElem?_map] at hEF
    cases hed : (edgesOf F)[e]? with
    | none => rw [hed] at hEF; cases hEF
    | some ed =>
      rw [hed] at hEF
      simp only [Option.map_some', Option.some.injEq] at hEF
      have he := (index_mem_edgesOf hed).1
      obtain ⟨r1, o⟩ := ed
      cases o with
      | none =>
        simp only [efRow, List.cons.injEq, and_true] at hEF
        exact absurd hEF.2.symm hy
      | some r2 =>
        simp only [efRow, List.cons.injEq, and_true] at hEF
        have := (hgroups _ he r2 rfl).2
        simp only at this
        omega

/-- Witness of C19 on the square `(0, 1, 2), (0, 2, 3)`: the statement at this face
array, whose three side conditions hold. -/
theorem C19_records_strictly_sorted_witness :
    ([((0 : Int), (1 : Int), (2 : Int)), (0, 2, 3)] ≠ [] ∧
      InRange [(0, 1, 2), (0, 2, 3)] ∧ EdgeManifold [(0, 1, 2), (0, 2, 3)]) ∧
    sortETT (buildETT [(0, 1, 2), (0, 2, 3)]) =
      [⟨0, 1, 0, 0⟩, ⟨0, 2, 0, 2⟩, ⟨0, 2, 1, 0⟩, ⟨0, 3, 1, 2⟩, ⟨1, 2, 0, 1⟩, ⟨2, 3, 1, 1⟩] ∧
    ∃ (n : Nat) (s : MergeState),
      countPass (sortETT (buildETT [(0, 1, 2), (0, 2, 3)])) = .ok n ∧
      mergePass [(0, 1, 2), (0, 2, 3)] (sortETT (buildETT [(0, 1, 2), (0, 2, 3)])) n = .ok s ∧
      ∀ (e : Nat) (x y : Int), s.EF[e]? = some [x, y] → y ≠ -1 → x ≤ y :=
  ⟨⟨by decide, by decide, by decide⟩, rfl,
    (C19_records_strictly_sorted [(0, 1, 2), (0, 2, 3)]).2.2.2.2.2.2
      (by decide) (by decide) (by decide)⟩

/-! ## Lemmas: the edge list as a function of the set of pairs -/

theorem mem_edgeKeys (F : FaceArray) (p : Int × Int) :
    p ∈ edgeKeys F ↔ ∃ s ∈ slots F, undirected (ends F s) = p := by
  unfold edgeKeys
  rw [List.mem_map]
  constructor
  · rintro ⟨e, he, rfl⟩
    obtain ⟨s, hs, hrec⟩ := (mem_sortedETT F _).mp (plan_fst_mem he)
    refine ⟨s, hs, ?_⟩
    have := edgeRecord_key F s.1 s.2
    rw [hrec]
    simp [key, undirected, ends, this.1, this.2]
  · rintro ⟨s, hs, rfl⟩
    have hmem : edgeRecord F s.1 s.2 ∈ sortedETT F := (mem_sortedETT F _).mpr ⟨s, hs, rfl⟩
    have hfl : edgeRecord F s.1 s.2 ∈ (edgesOf F).flatMap recsOf := by
      unfold edgesOf
      rwa [plan_flatten]
    obtain ⟨e, he, hre⟩ := List.mem_flatMap.mp hfl
    refine ⟨e, he, ?_⟩
    have h1 := (samePair_iff _ _).mp (recsOf_same he hre)
    have := edgeRecord_key F s.1 s.2
    rw [h1]
    simp [key, undirected, ends, this.1, this.2]

theorem edgeKeys_strict {F : FaceArray} (hm : EdgeManifold F) :
    (edgeKeys F).Pairwise pairLt := by
  unfold edgeKeys edgesOf
  refine List.Pairwise.map _ ?_ (plan_strict _ (sortedETT_sorted F) (twoFold_of_manifold hm))
  intro a b hab
  exact hab

theorem evRows_of_keys (F : FaceArray) :
    (edgesOf F).map evRow = (edgeKeys F).map fun p => [p.1, p.2] := by
  unfold edgeKeys
  rw [List.map_map]
  rfl

theorem strict_lists_eq {l1 l2 : List (Int × Int)} (h1 : l1.Pairwise pairLt)
    (h2 : l2.Pairwise pairLt) (hmem : ∀ p, p ∈ l1 ↔ p ∈ l2) : l1 = l2 := by
  haveI : IsAntisymm (Int × Int) pairLt := ⟨fun a b hab hba => by
    unfold pairLt at hab hba
    omega⟩
  have hne : ∀ {a b : Int × Int}, pairLt a b → a ≠ b := by
    intro a b hab heq
    subst heq
    unfold pairLt at hab
    omega
  have hperm : l1.Perm l2 :=
    (List.perm_ext_iff_of_nodup (h1.imp hne) (h2.imp hne)).mpr hmem
  exact List.eq_of_perm_of_sorted hperm h1 h2

theorem slot_pairs_iff (F : FaceArray) (p : Int × Int) :
    (∃ s ∈ slots F, undirected (ends F s) = p) ↔ ∃ t ∈ F, p ∈ facePairs t := by
  constructor
  · rintro ⟨⟨f, k⟩, hs, rfl⟩
    obtain ⟨hf, hk⟩ := (mem_slots F (f, k)).mp hs
    simp only at hf hk
    refine ⟨F[f], List.getElem_mem hf, ?_⟩
    have hget : F.getD f (0, 0, 0) = F[f] := List.getD_eq_getElem _ _ hf
    have : k = 0 ∨ k = 1 ∨ k = 2 := by omega
    simp only [ends, faceCoeff, hget, facePairs, List.mem_cons, List.mem_singleton,
      List.not_mem_nil, or_false]
    rcases this with rfl | rfl | rfl
    · exact Or.inl rfl
    · exact Or.inr (Or.inl rfl)
    · exact Or.inr (Or.inr rfl)
  · rintro ⟨t, ht, hp⟩
    obtain ⟨f, hf, rfl⟩ := List.mem_iff_getElem.mp ht
    have hget : F.getD f (0, 0, 0) = F[f] := List.getD_eq_getElem _ _ hf
    simp only [facePairs, List.mem_cons, List.mem_singleton, List.not_mem_nil, or_false] at hp
    rcases hp with hp | hp | hp
    · exact ⟨(f, 0), (mem_slots F (f, 0)).mpr ⟨hf, by simp⟩, by
        simp only [ends, faceCoeff, hget, hp]; rfl⟩
    · exact ⟨(f, 1), (mem_slots F (f, 1)).mpr ⟨hf, by simp⟩, by
        simp only [ends, faceCoeff, hget, hp]; rfl⟩
    · exact ⟨(f, 2), (mem_slots F (f, 2)).mpr ⟨hf, by simp⟩, by
        simp only [ends, faceCoeff, hget, hp]; rfl⟩

theorem samePairs_of_facePairs {F G : FaceArray}
    (h : ∀ p, (∃ t ∈ F, p ∈ facePairs t) ↔ (∃ t ∈ G, p ∈ facePairs t)) : SamePairs F G := by
  constructor
  · intro s hs
    exact (slot_pairs_iff G _).mpr ((h _).mp ((slot_pairs_iff F _).mp ⟨s, hs, rfl⟩))
  · intro t ht
    exact (slot_pairs_iff F _).mpr ((h _).mpr ((slot_pairs_iff G _).mp ⟨t, ht, rfl⟩))

theorem samePairs_of_perm {F G : FaceArray} (h : F.Perm G) : SamePairs F G :=
  samePairs_of_facePairs fun _ =>
    ⟨fun ⟨t, ht, hp⟩ => ⟨t, h.mem_iff.mp ht, hp⟩, fun ⟨t, ht, hp⟩ => ⟨t, h.mem_iff.mpr ht, hp⟩⟩

theorem samePairs_of_map {F : FaceArray} (h : Face → Face)
    (hh : ∀ t p, p ∈ facePairs (h t) ↔ p ∈ facePairs t) : SamePairs F (F.map h) :=
  samePairs_of_facePairs fun p =>
    ⟨fun ⟨t, ht, hp⟩ => ⟨h t, List.mem_map_of_mem h ht, (hh t p).mpr hp⟩,
      fun ⟨u, hu, hp⟩ => by
        obtain ⟨t, ht, rfl⟩ := List.mem_map.mp hu
        exact ⟨t, ht, (hh t p).mp hp⟩⟩

theorem undirected_swap (a b : Int) : undirected (a, b) = undirected (b, a) := by
  simp only [undirected, Prod.mk.injEq]
  exact ⟨min_comm a b, max_comm a b⟩

theorem facePairs_rotate (t : Face) (p : Int × Int) :
    p ∈ facePairs (rotateFace t) ↔ p ∈ facePairs t := by
  simp only [facePairs, rotateFace, List.mem_cons, List.mem_singleton, List.not_mem_nil,
    or_false]
  tauto

theorem facePairs_reverse (t : Face) (p : Int × Int) :
    p ∈ facePairs (reverseFace t) ↔ p ∈ facePairs t := by
  simp only [facePairs, reverseFace, List.mem_cons, List.mem_singleton, List.not_mem_nil,
    or_false]
  rw [undirected_swap t.2.2 t.2.1, undirected_swap t.2.1 t.1, undirected_swap t.1 t.2.2]
  tauto

/-- C17: two non-empty edge-manifold face arrays that use the same set of
undirected vertex pairs get the same `EV`, row for row; in particular when the second
is a permutation of the faces of the first, or the first with the vertex order of
every face rotated, or reversed. -/
theorem C17_EV_depends_on_edge_set {R S : Type} (V : MatrixXd R) (W : MatrixXd S)
    (F G : FaceArray) (hneF : F ≠ []) (hneG : G ≠ []) (hrF : InRange F) (hrG : InRange G)
    (hmF : EdgeManifold F) (hmG : EdgeManifold G)
    (hsame : SamePairs F G ∨ F.Perm G ∨ G = F.map rotateFace ∨ G = F.map reverseFace) :
    ∃ A B, GetTriEdgeAdjacency V F = .ok A ∧ GetTriEdgeAdjacency W G = .ok B ∧
      A.EV = B.EV := by
  have hsame : SamePairs F G := by
    rcases hsame with h | h | h | h
    · exact h
    · exact samePairs_of_perm h
    · rw [h]; exact samePairs_of_map rotateFace facePairs_rotate
    · rw [h]; exact samePairs_of_map reverseFace facePairs_reverse
  refine ⟨_, _, builder_manifold V hneF hrF hmF, builder_manifold W hneG hrG hmG, ?_⟩
  simp only
  rw [evRows_of_keys F, evRows_of_keys G]
  congr 1
  apply strict_lists_eq (edgeKeys_strict hmF) (edgeKeys_strict hmG)
  intro p
  rw [mem_edgeKeys, mem_edgeKeys]
  constructor
  · rintro ⟨s, hs, rfl⟩
    obtain ⟨t, ht, h⟩ := hsame.1 s hs
    exact ⟨t, ht, h⟩
  · rintro ⟨t, ht, rfl⟩
    obtain ⟨s, hs, h⟩ := hsame.2 t ht
    exact ⟨s, hs, h⟩

/-- Witness of C17: the square `(0, 1, 2), (0, 2, 3)` and the same two faces
swapped, the first rotated and the second reversed. -/
theorem C17_EV_depends_on_edge_set_witness :
    GetTriEdgeAdjacency ([] : MatrixXd Int) [(0, 1, 2), (0, 2, 3)] =
      .ok ⟨[[0, 1], [0, 2], [0, 3], [1, 2], [2, 3]], [[0, 3, 1], [1, 4, 2]],
        [[0, -1], [1, 0], [-1, 1], [0, -1], [1, -1]]⟩ ∧
    GetTriEdgeAdjacency ([] : MatrixXd Int) [(3, 2, 0), (1, 2, 0)] =
      .ok ⟨[[0, 1], [0, 2], [0, 3], [1, 2], [2, 3]], [[4, 1, 2], [3, 1, 0]],
        [[1, -1], [1, 0], [0, -1], [1, -1], [-1, 0]]⟩ ∧
    ∃ A B, GetTriEdgeAdjacency ([] : MatrixXd Int) [(0, 1, 2), (0, 2, 3)] = .ok A ∧
      GetTriEdgeAdjacency ([] : MatrixXd Int) [(3, 2, 0), (1, 2, 0)] = .ok B ∧
      A.EV = B.EV :=
  ⟨rfl, rfl, C17_EV_depends_on_edge_set [] [] [(0, 1, 2), (0, 2, 3)] [(3, 2, 0), (1, 2, 0)]
    (by decide) (by decide) (by decide) (by decide) (by decide) (by decide)
    (Or.inl (by decide))⟩

/-! ## Lemmas: a run of equal pairs -/

theorem runBreaks_of_run (l : List EdgeRec)
    (h : ∀ a ∈ l, ∀ b ∈ l, samePair a b = true) : runBreaks l = 0 := by
  induction l using runBreaks.induct with
  | case1 => rfl
  | case2 r => rfl
  | case3 r1 r2 rest ih =>
    have h12 := h r1 (List.mem_cons_self _ _) r2 (List.mem_cons_of_mem _ (List.mem_cons_self _ _))
    have := ih (fun a ha b hb => h a (List.mem_cons_of_mem _ ha) b (List.mem_cons_of_mem _ hb))
    simp only [runBreaks, h12, if_true, this]

theorem plan_of_run (l : List EdgeRec)
    (h : ∀ a ∈ l, ∀ b ∈ l, samePair a b = true) : (plan l).length = (l.length + 1) / 2 := by
  induction l using plan.induct with
  | case1 => simp [plan]
  | case2 r => simp [plan]
  | case3 r1 r2 rest hs ih =>
    have := ih (fun a ha b hb =>
      h a (List.mem_cons_of_mem _ (List.mem_cons_of_mem _ ha)) b
        (List.mem_cons_of_mem _ (List.mem_cons_of_mem _ hb)))
    simp only [plan, hs, if_true, List.length_cons, this]
    omega
  | case4 r1 r2 rest hs ih =>
    exact absurd
      (h r1 (List.mem_cons_self _ _) r2 (List.mem_cons_of_mem _ (List.mem_cons_self _ _))) hs

/-- C18: on a face array in which some undirected pair is used by three or more
face slots, the merge pass forms strictly more groups (edge IDs) than the `n` rows
counted by the pre-pass: it fills the `n` allocated rows and then indexes `EV` at
row `n`, outside the matrix.  A run of `L` records with equal pairs counts as one
edge in the pre-pass and forms `(L + 1) / 2` groups in the merge pass. -/
theorem C18_nonmanifold_overflow {R : Type} (V : MatrixXd R) (F : FaceArray)
    (hr : InRange F) (h3 : ∃ s ∈ slots F, 3 ≤ useCount F (ends F s)) :
    (∃ n, countPass (sortETT (buildETT F)) = .ok n ∧
      n < (plan (sortETT (buildETT F))).length ∧
      mergePass F (sortETT (buildETT F)) n = .error .outOfBounds ∧
      GetTriEdgeAdjacency V F = .error .outOfBounds ∧
      ∃ s, runPlan ⟨0, Constant n 2 (-1), Constant F.length 3 (-1), Constant n 2 (-1)⟩
          ((plan (sortETT (buildETT F))).take n) = .ok s ∧
        s.En = n ∧ s.EV.length = n ∧ s.EF.length = n ∧
        ∀ (c : Nat) (v : Int), assign s.EV s.En c v = .error .outOfBounds ∧
          assign s.EF s.En c v = .error .outOfBounds) ∧
    (∀ l : List EdgeRec, (∀ a ∈ l, ∀ b ∈ l, samePair a b = true) →
      runBreaks l = 0 ∧ (plan l).length = (l.length + 1) / 2) := by
  refine ⟨?_, fun l hl => ⟨runBreaks_of_run l hl, plan_of_run l hl⟩⟩
  obtain ⟨s0, hs0, h30⟩ := h3
  have hmem : edgeRecord F s0.1 s0.2 ∈ sortedETT F := (mem_sortedETT F _).mpr ⟨s0, hs0, rfl⟩
  have hne : F ≠ [] := by
    intro h0
    subst h0
    simp [slots] at hs0
  have hlen : 1 + runBreaks (sortedETT F) < (edgesOf F).length :=
    plan_length_gt _ (sortedETT_sorted F) ⟨_, hmem, by rw [count_sortedETT]; exact h30⟩
  have htake : ((edgesOf F).take (1 + runBreaks (sortedETT F))).length =
      1 + runBreaks (sortedETT F) := by
    rw [List.length_take]
    omega
  have hrun := runPlan_ok F.length ((edgesOf F).take (1 + runBreaks (sortedETT F))) [] []
    (Constant F.length 3 (-1)) (1 + runBreaks (sortedETT F)) rfl (Constant_rect _ _ _)
    (fun e he => edgesOf_bounds F e (List.mem_of_mem_take he)) (Nat.le_of_eq htake)
  rw [htake] at hrun
  simp only [List.length_nil, List.nil_append, Nat.zero_add, Nat.sub_self,
    List.replicate_zero, List.append_nil] at hrun
  refine ⟨1 + runBreaks (sortedETT F), countPass_eq hne hr, hlen,
    mergePass_overflow hr _ hlen, builder_overflow V hr ⟨s0, hs0, h30⟩, _, hrun, rfl, ?_, ?_, ?_⟩
  · simp only [List.length_map, htake]
  · simp only [List.length_map, htake]
  · intro c v
    exact ⟨assign_overflow _ _ _ _ (by simp only [List.length_map, htake]; exact Nat.le_refl _),
      assign_overflow _ _ _ _ (by simp only [List.length_map, htake]; exact Nat.le_refl _)⟩

/-- Witness of C18 on three triangles sharing the edge `(0, 1)`: 7 rows are
counted, 8 groups are formed. -/
theorem C18_nonmanifold_overflow_witness :
    countPass (sortETT (buildETT [(0, 1, 2), (0, 1, 3), (0, 1, 4)])) = .ok 7 ∧
    (plan (sortETT (buildETT [(0, 1, 2), (0, 1, 3), (0, 1, 4)]))).length = 8 ∧
    ∃ n, countPass (sortETT (buildETT [(0, 1, 2), (0, 1, 3), (0, 1, 4)])) = .ok n ∧
      n < (plan (sortETT (buildETT [(0, 1, 2), (0, 1, 3), (0, 1, 4)]))).length ∧
      mergePass [(0, 1, 2), (0, 1, 3), (0, 1, 4)]
        (sortETT (buildETT [(0, 1, 2), (0, 1, 3), (0, 1, 4)])) n = .error .outOfBounds ∧
      GetTriEdgeAdjacency ([] : MatrixXd Int) [(0, 1, 2), (0, 1, 3), (0, 1, 4)] =
        .error .outOfBounds ∧
      ∃ s, runPlan ⟨0, Constant n 2 (-1),
            Constant [((0 : Int), (1 : Int), (2 : Int)), (0, 1, 3), (0, 1, 4)].length 3 (-1),
            Constant n 2 (-1)⟩
          ((plan (sortETT (buildETT [(0, 1, 2), (0, 1, 3), (0, 1, 4)]))).take n) = .ok s ∧
        s.En = n ∧ s.EV.length = n ∧ s.EF.length = n ∧
        ∀ (c : Nat) (v : Int), assign s.EV s.En c v = .error .outOfBounds ∧
          assign s.EF s.En c v = .error .outOfBounds :=
  ⟨rfl, rfl, (C18_nonmanifold_overflow ([] : MatrixXd Int) [(0, 1, 2), (0, 1, 3), (0, 1, 4)]
    (by decide) ⟨(0, 0), by decide, by decide⟩).1⟩

/-! ## Lemmas: the exporters -/

theorem toInt32_id {x : Int} (h0 : 0 ≤ x) (h1 : x < 2 ^ 31) : toInt32 x = x := by
  unfold toInt32
  omega

theorem fillRows_ok {α : Type} (row : Nat → Except Failure α) (g : Nat → α) :
    ∀ (n i : Nat), (∀ k, k < n → row (i + k) = .ok (g (i + k))) →
      fillRows row n i = .ok ((List.range n).map fun k => g (i + k)) := by
  intro n
  induction n with
  | zero => intro i _; rfl
  | succ n ih =>
    intro i h
    have h0 := h 0 (Nat.succ_pos n)
    rw [Nat.add_zero] at h0
    have htail := ih (i + 1) (fun k hk => by
      have := h (k + 1) (Nat.succ_lt_succ hk)
      rwa [Nat.add_assoc, Nat.add_comm 1 k])
    simp only [fillRows, h0, htail]
    rw [List.range_succ_eq_map, List.map_cons, List.map_map]
    simp only [Nat.add_zero, Except.ok.injEq, List.cons.injEq, true_and]
    apply List.map_congr_left
    intro k _
    simp only [Function.comp, Nat.succ_eq_add_one]
    rw [Nat.add_assoc, Nat.add_comm 1 k]

theorem fillRows_error {α : Type} (row : Nat → Except Failure α) (e : Failure) :
    ∀ (n i : Nat), (∀ k, k < n → (∃ r, row (i + k) = .ok r) ∨ row (i + k) = .error e) →
      (∃ k, k < n ∧ row (i + k) = .error e) → fillRows row n i = .error e := by
  intro n
  induction n with
  | zero => rintro i _ ⟨k, hk, _⟩; omega
  | succ n ih =>
    intro i hall hex
    have h0 := hall 0 (Nat.succ_pos n)
    rw [Nat.add_zero] at h0
    rcases h0 with ⟨r, h0⟩ | h0
    · have hex1 : ∃ k, k < n ∧ row (i + 1 + k) = .error e := by
        obtain ⟨k, hk, hke⟩ := hex
        cases k with
        | zero => rw [Nat.add_zero, h0] at hke; cases hke
        | succ k =>
          refine ⟨k, Nat.lt_of_succ_lt_succ hk, ?_⟩
          rwa [Nat.add_assoc, Nat.add_comm 1 k]
      have htail := ih (i + 1) (fun k hk => by
        have := hall (k + 1) (Nat.succ_lt_succ hk)
        rwa [Nat.add_assoc, Nat.add_comm 1 k]) hex1
      simp only [fillRows, h0, htail]
    · simp only [fillRows, h0]

theorem getElem?_range_map {α : Type} (f : Nat → α) {n k : Nat} (hk : k < n) :
    ((List.range n).map f)[k]? = some (f k) := by
  rw [List.getElem?_map, List.getElem?_range hk]
  rfl

theorem vertRow_ok {R : Type} (mesh : TriMesh R) {i : Nat} {p : R × R × R}
    (h : mesh.vert[i]? = some p) : vertRow mesh i = .ok [p.1, p.2.1, p.2.2] := by
  unfold vertRow
  rw [h]
  rfl

theorem faceEntry_cases {R : Type} (mesh : TriMesh R) (t : MeshFace) (j : Nat) :
    (faceEntry mesh t j = .ok (toInt32 (corner t.V j)) ∧
        0 ≤ toInt32 (corner t.V j) ∧ toInt32 (corner t.V j) < (mesh.vn : Int)) ∨
      (faceEntry mesh t j = .error .assertionFailed ∧
        ¬ (0 ≤ toInt32 (corner t.V j) ∧ toInt32 (corner t.V j) < (mesh.vn : Int))) := by
  unfold faceEntry
  by_cases h : 0 ≤ toInt32 (corner t.V j) ∧ toInt32 (corner t.V j) < (mesh.vn : Int)
  · left
    rw [if_pos h]
    exact ⟨rfl, h⟩
  · right
    rw [if_neg h]
    exact ⟨rfl, h⟩

theorem faceRow_cases {R : Type} (mesh : TriMesh R) {i : Nat} {t : MeshFace}
    (h : mesh.face[i]? = some t) :
    (faceRow mesh i = .ok [toInt32 (corner t.V 0), toInt32 (corner t.V 1),
          toInt32 (corner t.V 2)] ∧
        ∀ j, j < 3 → 0 ≤ toInt32 (corner t.V j) ∧ toInt32 (corner t.V j) < (mesh.vn : Int)) ∨
      (faceRow mesh i = .error .assertionFailed ∧
        ∃ j, j < 3 ∧ ¬ (0 ≤ toInt32 (corner t.V j) ∧ toInt32 (corner t.V j) < (mesh.vn : Int))) := by
  unfold faceRow
  rw [h]
  rcases faceEntry_cases mesh t 0 with ⟨e0, c0⟩ | ⟨e0, c0⟩
  · rcases faceEntry_cases mesh t 1 with ⟨e1, c1⟩ | ⟨e1, c1⟩
    · rcases faceEntry_cases mesh t 2 with ⟨e2, c2⟩ | ⟨e2, c2⟩
      · left
        simp only [e0, e1, e2]
        refine ⟨trivial, fun j hj => ?_⟩
        have : j = 0 ∨ j = 1 ∨ j = 2 := by omega
        rcases this with rfl | rfl | rfl
        · exact c0
        · exact c1
        · exact c2
      · right
        simp only [e0, e1, e2]
        exact ⟨trivial, 2, by decide, c2⟩
    · right
      simp only [e0, e1]
      exact ⟨trivial, 1, by decide, c1⟩
  · right
    simp only [e0]
    exact ⟨trivial, 0, by decide, c0⟩

theorem vert_fill {R : Type} (mesh : TriMesh R) (hv : mesh.vn ≤ mesh.vert.length) :
    ∃ vert : MatrixXd R, fillRows (vertRow mesh) mesh.vn 0 = .ok vert ∧
      vert.length = mesh.vn ∧
      ∀ i p, i < mesh.vn → mesh.vert[i]? = some p → vert[i]? = some [p.1, p.2.1, p.2.2] := by
  let g : Nat → List R := fun k =>
    match mesh.vert[k]? with
    | some p => [p.1, p.2.1, p.2.2]
    | none => []
  have hg : ∀ k p, mesh.vert[k]? = some p → g k = [p.1, p.2.1, p.2.2] := by
    intro k p h
    show (match mesh.vert[k]? with | some p => [p.1, p.2.1, p.2.2] | none => []) = _
    rw [h]
  have hrow : ∀ k, k < mesh.vn → vertRow mesh (0 + k) = .ok (g (0 + k)) := by
    intro k hk
    have hlt : k < mesh.vert.length := by omega
    rw [Nat.zero_add, vertRow_ok mesh (List.getElem?_eq_getElem hlt),
      hg k _ (List.getElem?_eq_getElem hlt)]
  refine ⟨_, fillRows_ok _ g _ 0 hrow, by simp, ?_⟩
  intro i p hi hp
  rw [getElem?_range_map _ hi, Nat.zero_add, hg i p hp]

/-- C11: `GetTriMeshData` on a mesh with `VN` vertices and `FN` faces.  If every
face corner references the vertex at an offset in `[0, VN)`, it returns a `VN x 3`
array `vert` with the coordinates of vertex `i` in row `i` and an `FN x 3` array
`faces` with the offsets of the corners of face `i` in row `i`; if the vertex ID
computed for some face corner is `< 0` or `>= VN`, the assertion fails and no
arrays are returned. -/
theorem C11_GetTriMeshData {R : Type} (mesh : TriMesh R)
    (hv : mesh.vn ≤ mesh.vert.length) (hf : mesh.fn ≤ mesh.face.length)
    (hvn : mesh.vn < 2 ^ 31) :
    ((∀ i t j, i < mesh.fn → mesh.face[i]? = some t → j < 3 →
        0 ≤ corner t.V j ∧ corner t.V j < (mesh.vn : Int)) →
      ∃ faces vert, GetTriMeshData mesh = .ok (faces, vert) ∧
        vert.length = mesh.vn ∧ faces.length = mesh.fn ∧
        (∀ i p, i < mesh.vn → mesh.vert[i]? = some p →
          vert[i]? = some [p.1, p.2.1, p.2.2]) ∧
        (∀ i t, i < mesh.fn → mesh.face[i]? = some t →
          faces[i]? = some [t.V.1, t.V.2.1, t.V.2.2])) ∧
    ((∃ i t j, i < mesh.fn ∧ mesh.face[i]? = some t ∧ j < 3 ∧
        ¬ (0 ≤ toInt32 (corner t.V j) ∧ toInt32 (corner t.V j) < (mesh.vn : Int))) →
      GetTriMeshData mesh = .error .assertionFailed) := by
  obtain ⟨vert, hvert, hvlen, hvrows⟩ := vert_fill mesh hv
  constructor
  · intro hvalid
    let g : Nat → List Int := fun k =>
      match mesh.face[k]? with
      | some t => [t.V.1, t.V.2.1, t.V.2.2]
      | none => []
    have hg : ∀ k t, mesh.face[k]? = some t → g k = [t.V.1, t.V.2.1, t.V.2.2] := by
      intro k t h
      show (match mesh.face[k]? with | some t => [t.V.1, t.V.2.1, t.V.2.2] | none => []) = _
      rw [h]
    have hrow : ∀ k, k < mesh.fn → faceRow mesh (0 + k) = .ok (g (0 + k)) := by
      intro k hk
      have hlt : k < mesh.face.length := by omega
      have hface := List.getElem?_eq_getElem hlt
      rw [Nat.zero_add, hg k _ hface]
      have hid : ∀ j, j < 3 → toInt32 (corner mesh.face[k].V j) = corner mesh.face[k].V j := by
        intro j hj
        have := hvalid k _ j hk hface hj
        exact toInt32_id this.1 (by omega)
      rcases faceRow_cases mesh hface with ⟨hok, _⟩ | ⟨_, j, hj, hbad⟩
      · rw [hok, hid 0 (by decide), hid 1 (by decide), hid 2 (by decide)]
        rfl
      · exfalso
        apply hbad
        rw [hid j hj]
        exact hvalid k _ j hk hface hj
    refine ⟨(List.range mesh.fn).map fun k => g (0 + k), vert, ?_, hvlen, by simp, hvrows, ?_⟩
    · unfold GetTriMeshData
      rw [hvert]
      simp only
      rw [fillRows_ok _ g _ 0 hrow]
    · intro i t hi ht
      rw [getElem?_range_map _ hi, Nat.zero_add, hg i t ht]
  · rintro ⟨i, t, j, hi, ht, hj, hbad⟩
    have hall : ∀ k, k < mesh.fn →
        (∃ r, faceRow mesh (0 + k) = .ok r) ∨ faceRow mesh (0 + k) = .error .assertionFailed := by
      intro k hk
      have hlt : k < mesh.face.length := by omega
      rw [Nat.zero_add]
      rcases faceRow_cases mesh (List.getElem?_eq_getElem hlt) with ⟨hok, _⟩ | ⟨herr, _⟩
      · exact Or.inl ⟨_, hok⟩
      · exact Or.inr herr
    have hex : ∃ k, k < mesh.fn ∧ faceRow mesh (0 + k) = .error .assertionFailed := by
      refine ⟨i, hi, ?_⟩
      rw [Nat.zero_add]
      rcases faceRow_cases mesh ht with ⟨_, hgood⟩ | ⟨herr, _⟩
      · exact absurd (hgood j hj) hbad
      · exact herr
    unfold GetTriMeshData
    rw [hvert]
    simp only
    rw [fillRows_error _ _ _ 0 hall hex]

/-- Witness of C11: a mesh with 3 vertices and the face `(0, 1, 2)` is exported, and
the same mesh with the face `(0, 1, 3)` trips the assertion. -/
theorem C11_GetTriMeshData_witness :
    GetTriMeshData (⟨3, 1, [(0, 0, 0), (1, 0, 0), (0, 1, 0)],
        [⟨(0, 1, 2), (0, 0, 0), (0, 1, 2)⟩]⟩ : TriMesh Int) =
      .ok ([[0, 1, 2]], [[0, 0, 0], [1, 0, 0], [0, 1, 0]]) ∧
    GetTriMeshData (⟨3, 1, [(0, 0, 0), (1, 0, 0), (0, 1, 0)],
        [⟨(0, 1, 3), (0, 0, 0), (0, 1, 2)⟩]⟩ : TriMesh Int) = .error .assertionFailed ∧
    ∃ faces vert, GetTriMeshData (⟨3, 1, [(0, 0, 0), (1, 0, 0), (0, 1, 0)],
        [⟨(0, 1, 2), (0, 0, 0), (0, 1, 2)⟩]⟩ : TriMesh Int) = .ok (faces, vert) ∧
      vert.length = 3 ∧ faces.length = 1 :=
  ⟨rfl, rfl, by
    obtain ⟨faces, vert, h, h1, h2, _⟩ :=
      (C11_GetTriMeshData (⟨3, 1, [(0, 0, 0), (1, 0, 0), (0, 1, 0)],
        [⟨(0, 1, 2), (0, 0, 0), (0, 1, 2)⟩]⟩ : TriMesh Int)
        (by decide) (by decide) (by decide)).1 (by
          intro i t j hi ht hj
          have hi0 : i = 0 := by
            have : i < 1 := hi
            omega
          subst hi0
          simp only [List.getElem?_cons_zero, Option.some.injEq] at ht
          subst ht
          have : j = 0 ∨ j = 1 ∨ j = 2 := by omega
          rcases this with rfl | rfl | rfl <;> decide)
    exact ⟨faces, vert, h, h1, h2⟩⟩

theorem adjEntry_cases {R : Type} (mesh : TriMesh R) (i : Nat) (t : MeshFace) (j : Nat) :
    (adjEntry mesh i t j = .ok (adjPair i t j) ∧
        (corner t.FFp j = (i : Int) ∨
          (0 ≤ toInt32 (corner t.FFp j) ∧ toInt32 (corner t.FFp j) < (mesh.fn : Int)))) ∨
      (adjEntry mesh i t j = .error .assertionFailed ∧ corner t.FFp j ≠ (i : Int) ∧
        ¬ (0 ≤ toInt32 (corner t.FFp j) ∧ toInt32 (corner t.FFp j) < (mesh.fn : Int))) := by
  unfold adjEntry adjPair
  by_cases hself : corner t.FFp j = (i : Int)
  · left
    rw [if_pos hself, if_pos hself]
    exact ⟨rfl, Or.inl hself⟩
  · by_cases hin : 0 ≤ toInt32 (corner t.FFp j) ∧ toInt32 (corner t.FFp j) < (mesh.fn : Int)
    · left
      rw [if_neg hself, if_pos hin, if_neg hself]
      exact ⟨rfl, Or.inr hin⟩
    · right
      rw [if_neg hself, if_neg hin]
      exact ⟨rfl, hself, hin⟩

theorem adjRow_cases {R : Type} (mesh : TriMesh R) {i : Nat} {t : MeshFace}
    (h : mesh.face[i]? = some t) :
    (adjRow mesh i = .ok ([(adjPair i t 0).1, (adjPair i t 1).1, (adjPair i t 2).1],
          [(adjPair i t 0).2, (adjPair i t 1).2, (adjPair i t 2).2]) ∧
        ∀ j, j < 3 → corner t.FFp j = (i : Int) ∨
          (0 ≤ toInt32 (corner t.FFp j) ∧ toInt32 (corner t.FFp j) < (mesh.fn : Int))) ∨
      (adjRow mesh i = .error .assertionFailed ∧
        ∃ j, j < 3 ∧ corner t.FFp j ≠ (i : Int) ∧
          ¬ (0 ≤ toInt32 (corner t.FFp j) ∧ toInt32 (corner t.FFp j) < (mesh.fn : Int))) := by
  unfold adjRow
  rw [h]
  rcases adjEntry_cases mesh i t 0 with ⟨e0, c0⟩ | ⟨e0, c0⟩
  · rcases adjEntry_cases mesh i t 1 with ⟨e1, c1⟩ | ⟨e1, c1⟩
    · rcases adjEntry_cases mesh i t 2 with ⟨e2, c2⟩ | ⟨e2, c2⟩
      · left
        simp only [e0, e1, e2]
        refine ⟨trivial, fun j hj => ?_⟩
        have : j = 0 ∨ j = 1 ∨ j = 2 := by omega
        rcases this with rfl | rfl | rfl
        · exact c0
        · exact c1
        · exact c2
      · right
        simp only [e0, e1, e2]
        exact ⟨trivial, 2, by decide, c2⟩
    · right
      simp only [e0, e1]
      exact ⟨trivial, 1, by decide, c1⟩
  · right
    simp only [e0]
    exact ⟨trivial, 0, by decide, c0⟩

theorem triple_getElem? {α : Type} (f : Nat → α) {j : Nat} (hj : j < 3) :
    [f 0, f 1, f 2][j]? = some (f j) := by
  have : j = 0 ∨ j = 1 ∨ j = 2 := by omega
  rcases this with rfl | rfl | rfl <;> rfl

/-- C12: `GetTriFFAdjacency` on the topology-rebuilt mesh.  When every
adjacent-face reference is the face itself or a face at an index in `[0, FN)`, the
exporter returns `FFp` and `FFi` such that for every face `f` and slot `j`: a
self-reference gives `FFp[f][j] = -1` and `FFi[f][j] = -1`; any other reference
gives the index of the adjacent face in `FFp[f][j]` and the stored slot in
`FFi[f][j]`; and `FFp[f][j] = -1` iff `FFi[f][j] = -1` when the stored slot is in
`0, 1, 2`.  A reference to an index outside `[0, FN)` trips the assertion. -/
theorem C12_GetTriFFAdjacency {R : Type} (rebuild : TriMesh R → TriMesh R) (mesh : TriMesh R)
    (hf : (rebuild mesh).fn ≤ (rebuild mesh).face.length) (hfn : (rebuild mesh).fn < 2 ^ 31) :
    ((∀ f t j, f < (rebuild mesh).fn → (rebuild mesh).face[f]? = some t → j < 3 →
        corner t.FFp j = (f : Int) ∨
          (0 ≤ corner t.FFp j ∧ corner t.FFp j < ((rebuild mesh).fn : Int))) →
      ∃ FFp FFi, GetTriFFAdjacency rebuild mesh = .ok (FFp, FFi) ∧
        FFp.length = (rebuild mesh).fn ∧ FFi.length = (rebuild mesh).fn ∧
        ∀ f t j, f < (rebuild mesh).fn → (rebuild mesh).face[f]? = some t → j < 3 →
          (corner t.FFp j = (f : Int) →
            cell FFp f j = some (-1) ∧ cell FFi f j = some (-1)) ∧
          (corner t.FFp j ≠ (f : Int) →
            cell FFp f j = some (corner t.FFp j) ∧ 0 ≤ corner t.FFp j ∧
              corner t.FFp j < ((rebuild mesh).fn : Int) ∧
              cell FFi f j = some (corner t.FFi j)) ∧
          (0 ≤ corner t.FFi j ∧ corner t.FFi j ≤ 2 →
            (cell FFp f j = some (-1) ↔ cell FFi f j = some (-1)))) ∧
    ((∃ f t j, f < (rebuild mesh).fn ∧ (rebuild mesh).face[f]? = some t ∧ j < 3 ∧
        corner t.FFp j ≠ (f : Int) ∧
        ¬ (0 ≤ toInt32 (corner t.FFp j) ∧
          toInt32 (corner t.FFp j) < ((rebuild mesh).fn : Int))) →
      GetTriFFAdjacency rebuild mesh = .error .assertionFailed) := by
  have hunfold : GetTriFFAdjacency rebuild mesh =
      match fillRows (adjRow (rebuild mesh)) (rebuild mesh).fn 0 with
      | .error e => .error e
      | .ok rows => .ok (rows.map Prod.fst, rows.map Prod.snd) := rfl
  rw [hunfold]
  revert hf hfn
  generalize rebuild mesh = m
  intro hf hfn
  constructor
  · intro hvalid
    let g : Nat → List Int × List Int := fun k =>
      match m.face[k]? with
      | some t => ([(adjPair k t 0).1, (adjPair k t 1).1, (adjPair k t 2).1],
          [(adjPair k t 0).2, (adjPair k t 1).2, (adjPair k t 2).2])
      | none => ([], [])
    have hg : ∀ k t, m.face[k]? = some t →
        g k = ([(adjPair k t 0).1, (adjPair k t 1).1, (adjPair k t 2).1],
          [(adjPair k t 0).2, (adjPair k t 1).2, (adjPair k t 2).2]) := by
      intro k t h
      show (match m.face[k]? with
        | some t => ([(adjPair k t 0).1, (adjPair k t 1).1, (adjPair k t 2).1],
            [(adjPair k t 0).2, (adjPair k t 1).2, (adjPair k t 2).2])
        | none => ([], [])) = _
      rw [h]
    have hrow : ∀ k, k < m.fn → adjRow m (0 + k) = .ok (g (0 + k)) := by
      intro k hk
      have hlt : k < m.face.length := by omega
      have hface := List.getElem?_eq_getElem hlt
      rw [Nat.zero_add, hg k _ hface]
      rcases adjRow_cases m hface with ⟨hok, _⟩ | ⟨_, j, hj, hns, hbad⟩
      · exact hok
      · exfalso
        rcases hvalid k _ j hk hface hj with h | h
        · exact hns h
        · apply hbad
          rw [toInt32_id h.1 (by omega)]
          exact h
    rw [fillRows_ok _ g _ 0 hrow]
    refine ⟨_, _, rfl, by simp, by simp, ?_⟩
    intro f t j hf1 ht hj
    have hrowp : (((List.range m.fn).map fun k => g (0 + k)).map Prod.fst)[f]? =
        some [(adjPair f t 0).1, (adjPair f t 1).1, (adjPair f t 2).1] := by
      rw [List.getElem?_map, getElem?_range_map _ hf1, Nat.zero_add, hg f t ht]
      rfl
    have hrowi : (((List.range m.fn).map fun k => g (0 + k)).map Prod.snd)[f]? =
        some [(adjPair f t 0).2, (adjPair f t 1).2, (adjPair f t 2).2] := by
      rw [List.getElem?_map, getElem?_range_map _ hf1, Nat.zero_add, hg f t ht]
      rfl
    have hcp := cell_of_row hrowp j
    have hci := cell_of_row hrowi j
    rw [triple_getElem? (fun j => (adjPair f t j).1) hj] at hcp
    rw [triple_getElem? (fun j => (adjPair f t j).2) hj] at hci
    rw [hcp, hci]
    have hv := hvalid f t j hf1 ht hj
    by_cases hself : corner t.FFp j = (f : Int)
    · have hp : adjPair f t j = (-1, -1) := by
        unfold adjPair
        rw [if_pos hself]
      rw [hp]
      exact ⟨fun _ => ⟨rfl, rfl⟩, fun h => absurd hself h, fun _ => ⟨fun _ => rfl, fun _ => rfl⟩⟩
    · have hin : 0 ≤ corner t.FFp j ∧ corner t.FFp j < (m.fn : Int) := by
        rcases hv with h | h
        · exact absurd h hself
        · exact h
      have hp : adjPair f t j = (corner t.FFp j, corner t.FFi j) := by
        unfold adjPair
        rw [if_neg hself, toInt32_id hin.1 (by omega)]
      rw [hp]
      refine ⟨fun h => absurd h hself, fun _ => ⟨rfl, hin.1, hin.2, rfl⟩, fun hslot => ?_⟩
      simp only [Option.some.injEq]
      constructor
      · intro h
        omega
      · intro h
        omega
  · rintro ⟨f, t, j, hf1, ht, hj, hns, hbad⟩
    have hall : ∀ k, k < m.fn →
        (∃ r, adjRow m (0 + k) = .ok r) ∨ adjRow m (0 + k) = .error .assertionFailed := by
      intro k hk
      have hlt : k < m.face.length := by omega
      rw [Nat.zero_add]
      rcases adjRow_cases m (List.getElem?_eq_getElem hlt) with ⟨hok, _⟩ | ⟨herr, _⟩
      · exact Or.inl ⟨_, hok⟩
      · exact Or.inr herr
    have hex : ∃ k, k < m.fn ∧ adjRow m (0 + k) = .error .assertionFailed := by
      refine ⟨f, hf1, ?_⟩
      rw [Nat.zero_add]
      rcases adjRow_cases m ht with ⟨_, hgood⟩ | ⟨herr, _⟩
      · rcases hgood j hj with h | h
        · exact absurd h hns
        · exact absurd h hbad
      · exact herr
    rw [fillRows_error _ _ _ 0 hall hex]

/-- Witness of C12: two faces that share the edge at slot 0 of both (the rebuild is
the identity here); and a reference to face index 5 in a mesh of 2 faces trips the
assertion. -/
theorem C12_GetTriFFAdjacency_witness :
    GetTriFFAdjacency id (⟨4, 2, [(0, 0, 0), (1, 0, 0), (0, 1, 0), (1, 1, 0)],
        [⟨(0, 1, 2), (1, 0, 0), (0, 1, 2)⟩, ⟨(1, 0, 3), (0, 1, 1), (0, 1, 2)⟩]⟩ :
        TriMesh Int) =
      .ok ([[1, -1, -1], [0, -1, -1]], [[0, -1, -1], [0, -1, -1]]) ∧
    GetTriFFAdjacency id (⟨4, 2, [(0, 0, 0), (1, 0, 0), (0, 1, 0), (1, 1, 0)],
        [⟨(0, 1, 2), (5, 0, 0), (0, 1, 2)⟩, ⟨(1, 0, 3), (0, 1, 1), (0, 1, 2)⟩]⟩ :
        TriMesh Int) = .error .assertionFailed ∧
    ∃ FFp FFi, GetTriFFAdjacency id (⟨4, 2, [(0, 0, 0), (1, 0, 0), (0, 1, 0), (1, 1, 0)],
        [⟨(0, 1, 2), (1, 0, 0), (0, 1, 2)⟩, ⟨(1, 0, 3), (0, 1, 1), (0, 1, 2)⟩]⟩ :
        TriMesh Int) = .ok (FFp, FFi) ∧ FFp.length = 2 ∧ FFi.length = 2 :=
  ⟨rfl, rfl, by
    obtain ⟨FFp, FFi, h, h1, h2, _⟩ :=
      (C12_GetTriFFAdjacency id (⟨4, 2, [(0, 0, 0), (1, 0, 0), (0, 1, 0), (1, 1, 0)],
        [⟨(0, 1, 2), (1, 0, 0), (0, 1, 2)⟩, ⟨(1, 0, 3), (0, 1, 1), (0, 1, 2)⟩]⟩ :
        TriMesh Int) (by decide) (by decide)).1 (by
          intro f t j hf ht hj
          have hf2 : f < 2 := hf
          have hfc : f = 0 ∨ f = 1 := by omega
          have hjc : j = 0 ∨ j = 1 ∨ j = 2 := by omega
          rcases hfc with rfl | rfl
          · have ht0 : t = ⟨(0, 1, 2), (1, 0, 0), (0, 1, 2)⟩ :=
              (Option.some.inj ht).symm
            subst ht0
            rcases hjc with rfl | rfl | rfl <;> decide
          · have ht1 : t = ⟨(1, 0, 3), (0, 1, 1), (0, 1, 2)⟩ :=
              (Option.some.inj ht).symm
            subst ht1
            rcases hjc with rfl | rfl | rfl <;> decide)
    exact ⟨FFp, FFi, h, h1, h2⟩⟩

end MeshToMatrix
